import Mathlib

/-!
# Verification of the `nvim-devcontainer` compose-service deriver

A shallow embedding of `src/nvim_devcontainer.py` (the `compose` command, its
helpers `deep_merge` and `normalize_env_vars`, the Dockerfile template
substitution of `Dockerfile._write_dockerfile`, and the `main` error handling)
together with proofs about the embedded program.

Python data is modelled with explicit reference semantics: YAML scalars are
immediate values, YAML mappings and sequences are heap objects addressed by
natural numbers.  This is needed because the program manipulates the parsed
documents through shared references (`dict.copy()` is shallow, `list.extend`
mutates in place), and several properties below are precisely about that
sharing.  Pure input documents are described by the tree type `Val` and moved
into the heap by `toHeap`; the document that would be serialized back to disk
is recovered with `readback`.
-/

set_option maxHeartbeats 1000000

namespace NvimDevcontainer

/-- A parsed YAML document as a pure tree: the input/output value space of the
program.  Mappings keep their key order (Python dicts and ruamel round-trip
maps are insertion ordered). -/
inductive Val where
  | str (s : String)
  | int (n : Int)
  | bool (b : Bool)
  | null
  | vmap (entries : List (String × Val))
  | vlist (items : List Val)

/-- An immediate Python value: scalars are immutable and held directly,
containers (dict / list) live on the heap behind a reference. -/
inductive PyVal where
  | str (s : String)
  | int (n : Int)
  | bool (b : Bool)
  | none
  | ref (a : Nat)
deriving DecidableEq, Repr

/-- A heap object: a Python dict (here: insertion-ordered association list
with string keys, as produced by YAML parsing) or a Python list. -/
inductive Obj where
  | dict (entries : List (String × PyVal))
  | list (items : List PyVal)
deriving DecidableEq, Repr

/-- The Python heap: a store of container objects plus a fresh-address
counter. -/
structure Heap where
  objs : List (Nat × Obj)
  next : Nat
deriving DecidableEq, Repr

def Heap.empty : Heap := ⟨[], 0⟩

def Heap.get (h : Heap) (a : Nat) : Option Obj :=
  (h.objs.find? (fun p => p.1 = a)).map (·.2)

def Heap.set (h : Heap) (a : Nat) (o : Obj) : Heap :=
  ⟨h.objs.map (fun p => if p.1 = a then (a, o) else p), h.next⟩

def Heap.alloc (h : Heap) (o : Obj) : Heap × Nat :=
  (⟨(h.next, o) :: h.objs, h.next + 1⟩, h.next)

/-- `v` mentions no address at or above `n`. -/
def PyVal.refBelow : PyVal → Nat → Prop
  | .ref b, n => b < n
  | _, _ => True

instance : (v : PyVal) → (n : Nat) → Decidable (v.refBelow n)
  | .ref b, n => inferInstanceAs (Decidable (b < n))
  | .str _, _ => isTrue trivial
  | .int _, _ => isTrue trivial
  | .bool _, _ => isTrue trivial
  | .none, _ => isTrue trivial

/-- Every immediate value of the object mentions only addresses below `n`. -/
def Obj.refsBelow (o : Obj) (n : Nat) : Prop :=
  match o with
  | .dict es => ∀ p ∈ es, p.2.refBelow n
  | .list l => ∀ x ∈ l, x.refBelow n

instance : (o : Obj) → (n : Nat) → Decidable (o.refsBelow n)
  | .dict es, n => inferInstanceAs (Decidable (∀ p ∈ es, PyVal.refBelow p.2 n))
  | .list l, n => inferInstanceAs (Decidable (∀ x ∈ l, PyVal.refBelow x n))

/-- `v` mentions no address below `n`. -/
def PyVal.refAtLeast : PyVal → Nat → Prop
  | .ref b, n => n ≤ b
  | _, _ => True

/-- Every immediate value of the object mentions only addresses at or above
`n`. -/
def Obj.refsAtLeast (o : Obj) (n : Nat) : Prop :=
  match o with
  | .dict es => ∀ p ∈ es, p.2.refAtLeast n
  | .list l => ∀ x ∈ l, x.refAtLeast n

/-- Well-formedness: every stored address, and every address mentioned inside
a stored object, is below the fresh counter. -/
def Heap.WF (h : Heap) : Prop :=
  ∀ p ∈ h.objs, p.1 < h.next ∧ p.2.refsBelow h.next

instance (h : Heap) : Decidable h.WF :=
  inferInstanceAs
    (Decidable (∀ p ∈ h.objs, p.1 < h.next ∧ Obj.refsBelow p.2 h.next))

/-! ## Python dict primitives (insertion-ordered association lists)

`dget`/`dset`/`ddel`/`dhas` model `d[k]` lookup, `d[k] = v` assignment
(which keeps the position of an existing key and appends a fresh key, as
Python dicts do), `del d[k]` and `k in d`. -/

def dget (es : List (String × PyVal)) (k : String) : Option PyVal :=
  (es.find? (fun p => p.1 = k)).map (·.2)

def dhas (es : List (String × PyVal)) (k : String) : Bool :=
  es.any (fun p => p.1 = k)

def dset (es : List (String × PyVal)) (k : String) (v : PyVal) :
    List (String × PyVal) :=
  if dhas es k then es.map (fun p => if p.1 = k then (k, v) else p)
  else es ++ [(k, v)]

def ddel (es : List (String × PyVal)) (k : String) : List (String × PyVal) :=
  es.filter (fun p => ¬ p.1 = k)

def dkeys (es : List (String × PyVal)) : List String := es.map (·.1)

/-! ## POSIX path functions

`os.path` on the platform the tool targets is `posixpath`; the program uses
`os.path.join`, `os.path.abspath`, `os.path.basename` and `os.path.relpath`.
These are translated from CPython's `posixpath` on `/`-separated character
lists. -/

/-- Split a character list on `'/'`, keeping empty components
(like `"a//b".split("/") = ["a", "", "b"]`). -/
def splitSlash : List Char → List (List Char)
  | [] => [[]]
  | c :: cs =>
    match splitSlash cs with
    | [] => [[]]
    | h :: t => if c = '/' then [] :: h :: t else (c :: h) :: t

/-- `"/".join(components)`. -/
def joinSlash : List (List Char) → List Char
  | [] => []
  | [x] => x
  | x :: xs => x ++ '/' :: joinSlash xs

/-- The component loop of `posixpath.normpath`: skip `""` and `"."`,
resolve `".."` against the accumulated components (the accumulator is kept
reversed). -/
def normComps (initialSlashes : Bool) : List (List Char) → List (List Char) →
    List (List Char)
  | acc, [] => acc.reverse
  | acc, comp :: rest =>
    if comp = [] ∨ comp = ['.'] then normComps initialSlashes acc rest
    else if ¬ comp = ['.', '.'] ∨ (¬ initialSlashes ∧ acc = []) ∨
        acc.head? = some ['.', '.'] then
      normComps initialSlashes (comp :: acc) rest
    else if ¬ acc = [] then normComps initialSlashes acc.tail rest
    else normComps initialSlashes acc rest

/-- `posixpath.normpath` (collapses `//`, `.` and `..`; a leading `//` is
kept doubled exactly when the path does not start with `///`). -/
def normpathL (p : List Char) : List Char :=
  if p = [] then ['.']
  else
    let initialSlashes : Nat :=
      if p.take 2 = ['/', '/'] ∧ ¬ p.take 3 = ['/', '/', '/'] then 2
      else if p.head? = some '/' then 1 else 0
    let res := List.replicate initialSlashes '/' ++
      joinSlash (normComps (0 < initialSlashes) [] (splitSlash p))
    if res = [] then ['.'] else res

def isAbsL (p : List Char) : Bool := p.head? = some '/'

/-- `posixpath.join` for two arguments. -/
def pyJoinL (a b : List Char) : List Char :=
  if isAbsL b then b
  else if a = [] ∨ a.getLast? = some '/' then a ++ b
  else a ++ '/' :: b

/-- `posixpath.abspath` relative to a current working directory `cwd`. -/
def abspathL (cwd p : List Char) : List Char :=
  normpathL (if isAbsL p then p else pyJoinL cwd p)

/-- `posixpath.basename`: everything after the final `'/'`. -/
def basenameL (p : List Char) : List Char :=
  (splitSlash p).getLastD []

/-- The nonempty components of a path, as used by `posixpath.relpath`. -/
def compsOf (p : List Char) : List (List Char) :=
  (splitSlash p).filter (fun c => ¬ c = [])

/-- Length of the longest common elementwise prefix of two component lists
(`genericpath.commonprefix` applied to lists of components). -/
def commonLen : List (List Char) → List (List Char) → Nat
  | a :: as, b :: bs => if a = b then commonLen as bs + 1 else 0
  | _, _ => 0

/-- `posixpath.relpath(p)` against the current directory `cwd`. -/
def relpathL (cwd p : List Char) : List Char :=
  let startList := compsOf (abspathL cwd ['.'])
  let pathList := compsOf (abspathL cwd p)
  let i := commonLen startList pathList
  let rel := List.replicate (startList.length - i) ['.', '.'] ++ pathList.drop i
  if rel = [] then ['.'] else joinSlash rel

def abspathS (cwd p : String) : String := String.mk (abspathL cwd.data p.data)

def basenameS (p : String) : String := String.mk (basenameL p.data)

def relpathS (cwd p : String) : String := String.mk (relpathL cwd.data p.data)

def pyJoinS (a b : String) : String := String.mk (pyJoinL a.data b.data)

/-- Python `s.split(":")[0]`: the characters before the first `':'`
(the whole string when there is no colon). -/
def takeToColon (s : String) : String :=
  String.mk (s.data.takeWhile (fun c => ¬ c = ':'))

/-! ## Python `str.replace` -/

/-- `isPre pre s`: does `s` start with `pre`? -/
def isPre : List Char → List Char → Bool
  | [], _ => true
  | _ :: _, [] => false
  | d :: ds, c :: cs => d = c && isPre ds cs

/-- The scan of Python `str.replace` for a nonempty pattern `p :: ps`:
replace non-overlapping occurrences left to right. -/
def replaceCore (p : Char) (ps img : List Char) : List Char → List Char
  | [] => []
  | c :: cs =>
    if isPre (p :: ps) (c :: cs) then img ++ replaceCore p ps img (cs.drop ps.length)
    else c :: replaceCore p ps img cs
termination_by l => l.length
decreasing_by
  · simp [List.length_drop]
    omega
  · simp

/-- Python `str.replace` with an empty pattern inserts the replacement at
every character boundary, including both ends. -/
def replaceEmptyPat (img : List Char) : List Char → List Char
  | [] => img
  | c :: cs => img ++ c :: replaceEmptyPat img cs

/-- Python `s.replace(pat, img)` (replace all occurrences). -/
def pyReplace (s pat img : String) : String :=
  match pat.data with
  | [] => String.mk (replaceEmptyPat img.data s.data)
  | p :: ps => String.mk (replaceCore p ps img.data s.data)

/-- The placeholder token of the bundled Dockerfile template. -/
def BASE_IMAGE_PLACEHOLDER : String := "%%__BASE_IMAGE__%%"

/-- The placeholder substitution of `Dockerfile._write_dockerfile`
(src/nvim_devcontainer.py lines 107-109): `template_contents.replace
("%%__BASE_IMAGE__%%", self.base_image_name)`. -/
def newDockerfileContents (templateContents baseImageName : String) : String :=
  pyReplace templateContents BASE_IMAGE_PLACEHOLDER baseImageName

/-- `occAt s pat i`: the pattern occurs in `s` at position `i`. -/
def occAt (s pat : List Char) (i : Nat) : Bool := isPre pat (s.drop i)

/-! ## Python exceptions

`CommandError` is the only exception `main` handles (src lines 398-400);
every other kind propagates as an unhandled fault with a traceback. -/

inductive PErr where
  | commandError (message : String)
  | keyError (key : String)
  | attributeError (attr : String)
  | typeError
  | fileNotFoundError
  | calledProcessError
  | recursionError
deriving DecidableEq, Repr

/-! ## Python object operations on the heap -/

/-- Python truthiness of a value. -/
def pyTruthy (h : Heap) (v : PyVal) : Bool :=
  match v with
  | .none => false
  | .bool b => b
  | .int n => decide (¬ n = 0)
  | .str s => decide (¬ s.data = [])
  | .ref a =>
    match h.get a with
    | some (.dict es) => decide (¬ es = [])
    | some (.list l) => decide (¬ l = [])
    | Option.none => true

/-- `v[k]` with a string key: `KeyError` on a dict without the key,
`TypeError` on non-dicts (`'NoneType' object is not subscriptable`,
`list indices must be integers`, ...). -/
def getItem (h : Heap) (v : PyVal) (k : String) : Except PErr PyVal :=
  match v with
  | .ref a =>
    match h.get a with
    | some (.dict es) =>
      match dget es k with
      | some x => .ok x
      | Option.none => .error (.keyError k)
    | _ => .error .typeError
  | _ => .error .typeError

/-- `v.get(k)`: `None` when absent; `AttributeError` when `v` is not a dict
(this is exactly what a fresh run hits at src line 194, where
`compose_override_config["services"]` is `None`). -/
def pyGet (h : Heap) (v : PyVal) (k : String) : Except PErr PyVal :=
  match v with
  | .ref a =>
    match h.get a with
    | some (.dict es) => .ok ((dget es k).getD .none)
    | _ => .error (.attributeError "get")
  | _ => .error (.attributeError "get")

/-- `v.get(k, [])`: a fresh empty list object is produced when the key is
missing. -/
def pyGetDefList (h : Heap) (v : PyVal) (k : String) :
    Except PErr (Heap × PyVal) :=
  match v with
  | .ref a =>
    match h.get a with
    | some (.dict es) =>
      match dget es k with
      | some x => .ok (h, x)
      | Option.none =>
        let (h', l) := h.alloc (.list [])
        .ok (h', .ref l)
    | _ => .error (.attributeError "get")
  | _ => .error (.attributeError "get")

/-- `v.get(k, \x7b\x7d)`: a fresh empty dict object when the key is missing. -/
def pyGetDefDict (h : Heap) (v : PyVal) (k : String) :
    Except PErr (Heap × PyVal) :=
  match v with
  | .ref a =>
    match h.get a with
    | some (.dict es) =>
      match dget es k with
      | some x => .ok (h, x)
      | Option.none =>
        let (h', d) := h.alloc (.dict [])
        .ok (h', .ref d)
    | _ => .error (.attributeError "get")
  | _ => .error (.attributeError "get")

/-- `v[k] = x` with a string key. -/
def setItem (h : Heap) (v : PyVal) (k : String) (x : PyVal) :
    Except PErr Heap :=
  match v with
  | .ref a =>
    match h.get a with
    | some (.dict es) => .ok (h.set a (.dict (dset es k x)))
    | _ => .error .typeError
  | _ => .error .typeError

/-- `del v[k]`. -/
def delItem (h : Heap) (v : PyVal) (k : String) : Except PErr Heap :=
  match v with
  | .ref a =>
    match h.get a with
    | some (.dict es) =>
      if dhas es k then .ok (h.set a (.dict (ddel es k)))
      else .error (.keyError k)
    | _ => .error .typeError
  | _ => .error .typeError

/-- `k in v` for a string `k`: key test on dicts, element test on lists,
substring test on strings. -/
def pyContains (h : Heap) (v : PyVal) (k : String) : Except PErr Bool :=
  match v with
  | .ref a =>
    match h.get a with
    | some (.dict es) => .ok (dhas es k)
    | some (.list l) => .ok (l.any (fun x => decide (x = .str k)))
    | Option.none => .error .typeError
  | .str s =>
    .ok ((List.range (s.data.length + 1)).any (fun i => occAt s.data k.data i))
  | _ => .error .typeError

/-- `v.extend(xs)`: in-place mutation of a list object. -/
def listExtend (h : Heap) (v : PyVal) (xs : List PyVal) : Except PErr Heap :=
  match v with
  | .ref a =>
    match h.get a with
    | some (.list l) => .ok (h.set a (.list (l ++ xs)))
    | _ => .error (.attributeError "extend")
  | _ => .error (.attributeError "extend")

/-- `v.copy()`: a SHALLOW copy — a fresh object holding the same immediate
entries, so nested containers stay shared with the original.  (The comment at
src line 185 announces a "deep clone"; `.copy()` is not one.) -/
def pyCopy (h : Heap) (v : PyVal) : Except PErr (Heap × PyVal) :=
  match v with
  | .ref a =>
    match h.get a with
    | some (.dict es) =>
      let (h', b) := h.alloc (.dict es)
      .ok (h', .ref b)
    | some (.list l) =>
      let (h', b) := h.alloc (.list l)
      .ok (h', .ref b)
    | Option.none => .error .typeError
  | _ => .error (.attributeError "copy")

/-- Python `repr`, with fuel against cyclic data (where CPython would raise
`RecursionError`).  Escaping of exotic characters inside string reprs is not
reproduced. -/
def pyRepr (h : Heap) : Nat → PyVal → String
  | 0, _ => ""
  | fuel + 1, v =>
    match v with
    | .str s => "'" ++ s ++ "'"
    | .int n => toString n
    | .bool b => if b then "True" else "False"
    | .none => "None"
    | .ref a =>
      match h.get a with
      | some (.dict es) =>
        "\x7b" ++ String.intercalate ", "
          (es.map (fun kv => "'" ++ kv.1 ++ "': " ++ pyRepr h fuel kv.2)) ++ "\x7d"
      | some (.list l) =>
        "[" ++ String.intercalate ", " (l.map (pyRepr h fuel)) ++ "]"
      | Option.none => ""

/-- Python `str(v)` as used by f-string interpolation. -/
def pyStr (h : Heap) (v : PyVal) : String :=
  match v with
  | .str s => s
  | _ => pyRepr h 100 v

/-- `normalize_env_vars` (src lines 58-62): a dict becomes a FRESH list of
`"KEY=VALUE"` strings in the dict's iteration order; any other value — in
particular an existing list — is returned unchanged (the same object). -/
def normalize_env_vars (h : Heap) (v : PyVal) : Heap × PyVal :=
  match v with
  | .ref a =>
    match h.get a with
    | some (.dict es) =>
      let (h', l) := h.alloc
        (.list (es.map (fun kv => .str (kv.1 ++ "=" ++ pyStr h kv.2))))
      (h', .ref l)
    | _ => (h, v)
  | _ => (h, v)

/-- Is `v` a reference to a dict object (`isinstance(v, dict)`)? -/
def isDictRef (h : Heap) (v : PyVal) : Bool :=
  match v with
  | .ref a =>
    match h.get a with
    | some (.dict _) => true
    | _ => false
  | _ => false

/-- The `for key, value in dict2.items()` loop of `deep_merge`, parameterized
by the recursive merge `dm` applied to nested dict pairs. -/
def mergeItems (dm : Heap → PyVal → PyVal → Except PErr (Heap × PyVal))
    (h : Heap) (r : PyVal) : List (String × PyVal) →
    Except PErr (Heap × PyVal)
  | [] => .ok (h, r)
  | (k, v) :: rest =>
    -- `key in result and isinstance(result[key], dict) and isinstance(value, dict)`
    let cond : Except PErr Bool :=
      match pyContains h r k with
      | .error e => .error e
      | .ok false => .ok false
      | .ok true =>
        match getItem h r k with
        | .error e => .error e
        | .ok rv => .ok (isDictRef h rv && isDictRef h v)
    match cond with
    | .error e => .error e
    | .ok true =>
      match getItem h r k with
      | .error e => .error e
      | .ok rv =>
        match dm h rv v with
        | .error e => .error e
        | .ok (h', m) =>
          match setItem h' r k m with
          | .error e => .error e
          | .ok h'' => mergeItems dm h'' r rest
    | .ok false =>
      match setItem h r k v with
      | .error e => .error e
      | .ok h' => mergeItems dm h' r rest

/-- `deep_merge` (src lines 49-56) on heap values.
`result = dict1.copy()` allocates the result object; the loop over
`dict2.items()` assigns into it, recursing when the value on both sides is a
dict.  The operands are never mutated.  The fuel models Python's recursion
limit (`RecursionError` when exhausted).  Non-dict operands — never produced
by `compose`, whose second operand is always the freshly built service dict —
fail at the first attribute/item access just as Python does. -/
def deep_merge (h : Heap) (v1 v2 : PyVal) (fuel : Nat) :
    Except PErr (Heap × PyVal) :=
  match fuel with
  | 0 => .error .recursionError
  | fuel + 1 =>
    match pyCopy h v1 with
    | .error e => .error e
    | .ok (h1, r) =>
      match v2 with
      | .ref a2 =>
        match h1.get a2 with
        | some (.dict d2) =>
          mergeItems (fun h' a b => deep_merge h' a b fuel) h1 r d2
        | _ => .error (.attributeError "items")
      | _ => .error (.attributeError "items")

/-- The effect contract of a merge function: on success it preserves
well-formedness, only allocates (never touching addresses that already
existed), and returns a value whose address (if any) is valid. -/
def DMSpec (dm : Heap → PyVal → PyVal → Except PErr (Heap × PyVal)) : Prop :=
  ∀ h v1 v2 h' rv, h.WF → dm h v1 v2 = .ok (h', rv) →
    h'.WF ∧ h.next ≤ h'.next ∧ (∀ a, a < h.next → h'.get a = h.get a) ∧
    rv.refBelow h'.next

/-- A heap step that can only touch dictionary keys in `K`: every dict
object keeps its address and every binding at a key outside `K`. -/
def KeyFrame (K : List String) (h h' : Heap) : Prop :=
  ∀ a es, h.get a = some (.dict es) →
    ∃ es', h'.get a = some (.dict es') ∧
      ∀ k, ¬ k ∈ K → dget es' k = dget es k

/-! ## Moving parsed YAML into the heap and reading the result back -/

mutual

/-- Build the heap graph of a parsed YAML document (what `yaml.load`
produces): every mapping and sequence becomes a fresh object. -/
def toHeap (h : Heap) : Val → Heap × PyVal
  | .str s => (h, .str s)
  | .int n => (h, .int n)
  | .bool b => (h, .bool b)
  | .null => (h, .none)
  | .vmap es =>
    let (h', es') := toHeapEntries h es
    let (h'', a) := h'.alloc (.dict es')
    (h'', .ref a)
  | .vlist l =>
    let (h', l') := toHeapList h l
    let (h'', a) := h'.alloc (.list l')
    (h'', .ref a)

def toHeapEntries (h : Heap) : List (String × Val) →
    Heap × List (String × PyVal)
  | [] => (h, [])
  | (k, v) :: rest =>
    let (h', v') := toHeap h v
    let (h'', rest') := toHeapEntries h' rest
    (h'', (k, v') :: rest')

def toHeapList (h : Heap) : List Val → Heap × List PyVal
  | [] => (h, [])
  | v :: rest =>
    let (h', v') := toHeap h v
    let (h'', rest') := toHeapList h' rest
    (h'', v' :: rest')

end

/-- Traverse dict entries under an element reader `f`. -/
def mapEntriesOpt (f : PyVal → Option Val) : List (String × PyVal) →
    Option (List (String × Val))
  | [] => some []
  | (k, v) :: rest =>
    match f v with
    | Option.none => Option.none
    | some v' =>
      match mapEntriesOpt f rest with
      | Option.none => Option.none
      | some rest' => some ((k, v') :: rest')

/-- Traverse list items under an element reader `f`. -/
def mapListOpt (f : PyVal → Option Val) : List PyVal → Option (List Val)
  | [] => some []
  | v :: rest =>
    match f v with
    | Option.none => Option.none
    | some v' =>
      match mapListOpt f rest with
      | Option.none => Option.none
      | some rest' => some (v' :: rest')

/-- Read a heap value back into a tree, with fuel against cycles.  This is
the document `yaml.dump` serializes. -/
def readback (h : Heap) (fuel : Nat) (v : PyVal) : Option Val :=
  match fuel with
  | 0 => Option.none
  | fuel + 1 =>
    match v with
    | .str s => some (.str s)
    | .int n => some (.int n)
    | .bool b => some (.bool b)
    | .none => some .null
    | .ref a =>
      match h.get a with
      | some (.dict es) => (mapEntriesOpt (readback h fuel) es).map .vmap
      | some (.list l) => (mapListOpt (readback h fuel) l).map .vlist
      | Option.none => Option.none

/-! ## The `compose` command (src lines 167-299)

The command is modelled stage by stage, each stage carrying the source line
range it translates.  External state (filesystem, template, build engine) is
summarized in `PyEnv`; failures of the external build engine and a missing
template are the only effects of those collaborators that reach the program's
control flow. -/

/-- The `argparse` results consumed by `compose` (src lines 336-377). -/
structure Args where
  compose_file : String
  compose_override_file : String
  source_service : String
  name : String
  replace_existing : Bool
  no_build : Bool
  dockerfile : Option String
deriving DecidableEq, Repr

/-- The external world of one `compose` run: cwd, XDG config home, which
files exist, the two parsed YAML documents, whether the bundled Dockerfile
template exists, and whether the container build engine exits zero. -/
structure PyEnv where
  cwd : String
  xdgConfigHome : String
  composeFileExists : Bool
  overrideFileExists : Bool
  overrideYaml : Val
  composeYaml : Val
  templateExists : Bool
  buildOk : Bool

/-- The local-variable state threaded through `compose`. -/
structure CState where
  heap : Heap
  ovCfg : PyVal
  cfg : PyVal
  src : PyVal
  svc : PyVal
  contextDir : PyVal
  sourceImage : String
deriving DecidableEq, Repr

/-- Python truthiness of a Val tree (used for `x or \x7b\x7d` on a freshly
loaded document). -/
def valFalsy : Val → Bool
  | .null => true
  | .bool b => !b
  | .int n => decide (n = 0)
  | .str s => decide (s.data = [])
  | .vmap es => es.isEmpty
  | .vlist l => l.isEmpty

/-- `yaml.load(f) or \x7b\x7d` (src lines 178, 183). -/
def orEmptyMap (v : Val) : Val := if valFalsy v then .vmap [] else v

/-- `sys.setrecursionlimit` default, bounding `deep_merge`'s recursion. -/
def RECURSION_LIMIT : Nat := 1000

/-- `config_path` (src lines 44-46):
`os.path.abspath(os.path.join(xdg_config_home, path))`. -/
def config_path (env : PyEnv) (p : String) : String :=
  abspathS env.cwd (pyJoinS env.xdgConfigHome p)

/-- The fixed terminal/locale passthrough names (src lines 212-222). -/
def passthroughEnv : List PyVal :=
  [.str "COLORTERM", .str "ITERM_PROFILE", .str "ITERM_SESSION_ID",
   .str "LC_TERMINAL", .str "LC_TERMINAL_VERSION", .str "TERM",
   .str "TERM_PROGRAM", .str "TERM_PROGRAM_VERSION", .str "TERM_SESSION_ID"]

/-- The fixed bind mounts appended to the service's volumes
(src lines 245-254). -/
def mountStrings (env : PyEnv) : List PyVal :=
  [.str (config_path env "nvim" ++ ":/nvim-devcontainer/config/nvim:ro"),
   .str (config_path env "git" ++ ":/nvim-devcontainer/config/git:ro"),
   .str (config_path env "github-copilot" ++ ":/nvim-devcontainer/config/github-copilot"),
   .str "nvim-data:/nvim-devcontainer/data/nvim",
   .str "/tmp/.X11-unix:/tmp/.X11-unix:ro"]

/-- Lines 168-171: fail when the source compose file is missing.  The
message interpolates `os.path.relpath(compose_override_file)` — the OVERRIDE
file's path, not the missing compose file's. -/
def stage_fileCheck (env : PyEnv) (args : Args) : Except PErr Unit :=
  if env.composeFileExists then .ok ()
  else .error (.commandError
    ("File not found: " ++ relpathS env.cwd args.compose_override_file))

/-- Lines 173-183: load the override document when its file exists
(`yaml.load(f) or \x7b\x7d`), else `yaml.load(StringIO("services:"))` — a
mapping whose `services` key holds `None` — and load the compose document
(`yaml.load(f) or \x7b\x7d`). -/
def stage_loadDocs (env : PyEnv) : CState :=
  let h0 := Heap.empty
  let (h1, ov) :=
    if env.overrideFileExists then toHeap h0 (orEmptyMap env.overrideYaml)
    else toHeap h0 (.vmap [("services", .null)])
  let (h2, cfg) := toHeap h1 (orEmptyMap env.composeYaml)
  { heap := h2, ovCfg := ov, cfg := cfg, src := .none, svc := .none,
    contextDir := .none, sourceImage := "" }

/-- Lines 186-187: `source_service = compose_config["services"][args.source_service]`
and `new_service = source_service.copy()` (a shallow copy). -/
def stage_sourceClone (args : Args) (st : CState) : Except PErr CState := do
  let services ← getItem st.heap st.cfg "services"
  let src ← getItem st.heap services args.source_service
  let (h, svc) ← pyCopy st.heap src
  .ok { st with heap := h, src := src, svc := svc }

/-- Line 190: `new_service["environment"] =
normalize_env_vars(new_service.get("environment", []))`. -/
def stage_envNormalize (st : CState) : Except PErr CState := do
  let (h1, ev) ← pyGetDefList st.heap st.svc "environment"
  let (h2, ev') := normalize_env_vars h1 ev
  let h3 ← setItem h2 st.svc "environment" ev'
  .ok { st with heap := h3 }

/-- Lines 192-196: when a truthy service of the target name already exists in
the override document and `--replace-existing` is not set,
`new_service = deep_merge(existing_service, new_service)`. -/
def stage_mergeExisting (args : Args) (st : CState) : Except PErr CState := do
  let ovServices ← getItem st.heap st.ovCfg "services"
  let existing ← pyGet st.heap ovServices args.name
  if pyTruthy st.heap existing then
    if ¬ args.replace_existing then do
      let (h, merged) ← deep_merge st.heap existing st.svc RECURSION_LIMIT
      .ok { st with heap := h, svc := merged }
    else .ok st
  else .ok st

/-- Lines 199-206: resolve `source_service.get("build", \x7b\x7d).get("context")`
and require it truthy.  (The `breakpoint()` at line 208 — leftover debugger
instrumentation — is omitted.) -/
def stage_contextDir (args : Args) (st : CState) : Except PErr CState := do
  let (h1, buildCfg) ← pyGetDefDict st.heap st.src "build"
  let ctx ← pyGet h1 buildCfg "context"
  if pyTruthy h1 ctx then .ok { st with heap := h1, contextDir := ctx }
  else .error (.commandError
    ("Could not determine context dir from service `" ++ args.source_service ++ "`"))

/-- Lines 210-224: re-normalize the environment, `extend` it in place with
the passthrough names, and store it back. -/
def stage_envExtend (st : CState) : Except PErr CState := do
  let (h1, ev) ← pyGetDefList st.heap st.svc "environment"
  let (h2, envList) := normalize_env_vars h1 ev
  let h3 ← listExtend h2 envList passthroughEnv
  let h4 ← setItem h3 st.svc "environment" envList
  .ok { st with heap := h4 }

/-- Lines 226-232: derive the image name.  An explicit `image:` is used as
is; with none, `<basename of abspath(context_dir)>-<source service>` is
synthesized.  Either way `.split(":")[0]` truncates at the FIRST colon and
`:nvim-devcontainer` is appended. -/
def stage_image (env : PyEnv) (args : Args) (st : CState) :
    Except PErr CState := do
  let srcImage ← pyGet st.heap st.src "image"
  let s ← (match srcImage with
    | .none =>
      match st.contextDir with
      | .str c => .ok (basenameS (abspathS env.cwd c) ++ "-" ++ args.source_service)
      | _ => .error PErr.typeError
    | .str s => .ok s
    | _ => .error (PErr.attributeError "split"))
  let h ← setItem st.heap st.svc "image"
    (.str (takeToColon s ++ ":nvim-devcontainer"))
  .ok { st with heap := h, sourceImage := s }

/-- Lines 234-236: `stdin_open`, `tty`, `entrypoint`. -/
def stage_flags (st : CState) : Except PErr CState := do
  let h1 ← setItem st.heap st.svc "stdin_open" (.bool true)
  let h2 ← setItem h1 st.svc "tty" (.bool true)
  let h3 ← setItem h2 st.svc "entrypoint" (.str "nvim")
  .ok { st with heap := h3 }

/-- `if key in new_service: del new_service[key]`. -/
def delIfPresent (h : Heap) (v : PyVal) (k : String) : Except PErr Heap := do
  let b ← pyContains h v k
  if b then delItem h v k else .ok h

/-- Lines 238-241: drop `command`, `build`, `depends_on` from the clone. -/
def stage_deleteKeys (st : CState) : Except PErr CState := do
  let h1 ← delIfPresent st.heap st.svc "command"
  let h2 ← delIfPresent h1 st.svc "build"
  let h3 ← delIfPresent h2 st.svc "depends_on"
  .ok { st with heap := h3 }

/-- Lines 244-254: ensure a `volumes` list on the clone, then `extend` it in
place with the fixed bind mounts (mutating the source's own list when the
shallow copy shares it). -/
def stage_volumes (env : PyEnv) (st : CState) : Except PErr CState := do
  let (h1, vols) ← pyGetDefList st.heap st.svc "volumes"
  let h2 ← setItem h1 st.svc "volumes" vols
  let vols2 ← getItem h2 st.svc "volumes"
  let h3 ← listExtend h2 vols2 (mountStrings env)
  .ok { st with heap := h3 }

/-- Lines 257-258: reset the override document's top-level `volumes` to
exactly `\x7b"nvim-data": \x7b\x7d\x7d`. -/
def stage_overrideVolumes (st : CState) : Except PErr CState := do
  let v ← pyGet st.heap st.ovCfg "volumes"
  let (h1, v1) :=
    if pyTruthy st.heap v then (st.heap, v)
    else
      let (h', a) := st.heap.alloc (.dict [])
      (h', PyVal.ref a)
  let h2 ← setItem h1 st.ovCfg "volumes" v1
  let (h3, nd) := h2.alloc (.dict [])
  let (h4, vd) := h3.alloc (.dict [("nvim-data", PyVal.ref nd)])
  let h5 ← setItem h4 st.ovCfg "volumes" (.ref vd)
  .ok { st with heap := h5 }

/-- Lines 261-262: ensure a truthy `services` mapping on the override
document and insert the clone under the target name (by reference). -/
def stage_insertService (args : Args) (st : CState) : Except PErr CState := do
  let sv ← pyGet st.heap st.ovCfg "services"
  let (h1, sv1) :=
    if pyTruthy st.heap sv then (st.heap, sv)
    else
      let (h', a) := st.heap.alloc (.dict [])
      (h', PyVal.ref a)
  let h2 ← setItem h1 st.ovCfg "services" sv1
  let sv2 ← getItem h2 st.ovCfg "services"
  let h3 ← setItem h2 sv2 args.name st.svc
  .ok { st with heap := h3 }

/-- Truthiness of `args.dockerfile` (absent or empty string is falsy). -/
def optStrTruthy : Option String → Bool
  | Option.none => false
  | some s => decide (¬ s.data = [])

/-- Lines 264-281: with `--no-build` and a truthy `--dockerfile`, rewrite the
clone's `build` block — the dict fetched by `source_service.get("build", \x7b\x7d)`,
hence the source's own build dict when it has one — in place.  Otherwise
invoke `build` (Dockerfile from the template, then the container build
engine, whose non-zero exit is a fatal `CalledProcessError`). -/
def stage_buildOrRewrite (env : PyEnv) (args : Args) (st : CState) :
    Except PErr CState := do
  if args.no_build && optStrTruthy args.dockerfile then do
    let (h1, b) ← pyGetDefDict st.heap st.src "build"
    let h2 ← setItem h1 st.svc "build" b
    let b2 ← getItem h2 st.svc "build"
    let h3 ← setItem h2 b2 "context" st.contextDir
    let h4 ← setItem h3 b2 "dockerfile" (.str (args.dockerfile.getD ""))
    let h5 ← setItem h4 b2 "target" (.str "nvim-devcontainer")
    .ok { st with heap := h5 }
  else
    if ¬ env.templateExists then .error .fileNotFoundError
    else if ¬ env.buildOk then .error .calledProcessError
    else .ok st

/-- Lines 284-290: `Dockerfile(source_image, out_path=dockerfile).write()` —
re-reads the template (an unhandled `FileNotFoundError` when missing) and
writes the Dockerfile; no effect on the documents. -/
def stage_dockerfile (env : PyEnv) (st : CState) : Except PErr CState :=
  if env.templateExists then .ok st else .error .fileNotFoundError

/-- The `compose` command (src lines 167-299).  On success the returned
state's `ovCfg`/`heap` describe the document dumped to the override file at
lines 292-293; every failure happens before that single write, leaving the
file untouched. -/
def compose (env : PyEnv) (args : Args) : Except PErr CState := do
  stage_fileCheck env args
  let st0 := stage_loadDocs env
  let st1 ← stage_sourceClone args st0
  let st2 ← stage_envNormalize st1
  let st3 ← stage_mergeExisting args st2
  let st4 ← stage_contextDir args st3
  let st5 ← stage_envExtend st4
  let st6 ← stage_image env args st5
  let st7 ← stage_flags st6
  let st8 ← stage_deleteKeys st7
  let st9 ← stage_volumes env st8
  let st10 ← stage_overrideVolumes st9
  let st11 ← stage_insertService args st10
  let st12 ← stage_buildOrRewrite env args st11
  stage_dockerfile env st12

/-- The outcome of `main` for the `compose` subcommand. -/
inductive MainOut where
  | success
  | errorExit (message : String) (code : Nat)
  | unhandled (e : PErr)
deriving DecidableEq, Repr

/-- `main`'s error handling (src lines 381-400): a `CommandError` is printed
as a single-line message on stderr followed by `sys.exit(1)`; any other
exception propagates as an unhandled fault with a diagnostic trace. -/
def mainRun (env : PyEnv) (args : Args) : MainOut :=
  match compose env args with
  | .ok _ => .success
  | .error (.commandError m) => .errorExit m 1
  | .error e => .unhandled e

/-! ## Observations of a finished run -/

def READ_FUEL : Nat := 1000

/-- The override document as `yaml.dump` writes it (lines 292-293). -/
def writtenDoc (st : CState) : Option Val :=
  readback st.heap READ_FUEL st.ovCfg

/-- The entries of the service stored under `name` in the finished override
document. -/
def svcEntries (st : CState) (name : String) :
    Option (List (String × PyVal)) :=
  match getItem st.heap st.ovCfg "services" with
  | .ok sv =>
    match getItem st.heap sv name with
    | .ok (.ref a) =>
      match st.heap.get a with
      | some (.dict es) => some es
      | _ => Option.none
    | _ => Option.none
  | .error _ => Option.none

/-- The immediate value under key `k` of the service written under `name`. -/
def svcKey (st : CState) (name k : String) : Option PyVal :=
  (svcEntries st name).bind (fun es => dget es k)

/-- The tree value under key `k` of the service written under `name`. -/
def svcKeyVal (st : CState) (name k : String) : Option Val :=
  (svcKey st name k).bind (readback st.heap READ_FUEL)

/-- The source service as a tree, to compare before/after a run. -/
def sourceServiceVal (st : CState) : Option Val :=
  readback st.heap READ_FUEL st.src

/-- The tree value under key `k` of the source service after a run. -/
def srcKeyVal (st : CState) (k : String) : Option Val :=
  match getItem st.heap st.src k with
  | .ok v => readback st.heap READ_FUEL v
  | .error _ => Option.none

/-- Mapping lookup on a tree (for stating hypotheses about the input
documents). -/
def vmapGet (v : Val) (k : String) : Option Val :=
  match v with
  | .vmap es => (es.find? (fun p => p.1 = k)).map (·.2)
  | _ => Option.none

/-! ## Concrete runs used by the theorems -/

/-- Standard arguments: derive service `vim` from `app`, `--no-build` with an
explicit Dockerfile path, no `--replace-existing`. -/
def argsStd : Args :=
  { compose_file := "docker-compose.yml",
    compose_override_file := "docker-compose.override.yml",
    source_service := "app", name := "vim",
    replace_existing := false, no_build := true,
    dockerfile := some "Dockerfile.nvim" }

/-- A well-formed external world: both files exist, the override file holds
an empty `services` mapping, the source service has a build context, a
volumes list and an environment mapping. -/
def envStd : PyEnv :=
  { cwd := "/work/myproj", xdgConfigHome := "/home/u/.config",
    composeFileExists := true, overrideFileExists := true,
    overrideYaml := .vmap [("services", .vmap [])],
    composeYaml := .vmap [("services", .vmap [("app", .vmap
      [("build", .vmap [("context", .str ".")]),
       ("volumes", .vlist [.str "./src:/app"]),
       ("environment", .vmap [("A", .str "1"), ("B", .str "2")])])])],
    templateExists := true, buildOk := true }

/-- As `envStd`, but the override document already carries a `vim` service
whose `custom_key` conflicts with the source's. -/
def envMerge : PyEnv :=
  { envStd with
    overrideYaml := .vmap [("services", .vmap [("vim", .vmap
      [("custom_key", .str "from_existing"),
       ("settled_key", .str "kept")])])],
    composeYaml := .vmap [("services", .vmap [("app", .vmap
      [("build", .vmap [("context", .str ".")]),
       ("custom_key", .str "from_source")])])] }

/-- As `envStd`, but the compose document's `services` mapping lacks `app`. -/
def envNoSvc : PyEnv :=
  { envStd with composeYaml := .vmap [("services", .vmap [])] }

/-- A fresh run: no override file on disk yet, and the source service has no
`build.context`. -/
def envFresh : PyEnv :=
  { envStd with
    overrideFileExists := false,
    composeYaml := .vmap [("services", .vmap [("app", .vmap [])])] }

/-- As `envStd`, but the working directory's basename contains a colon and
the source service has no explicit image. -/
def envColon : PyEnv :=
  { envStd with
    cwd := "/work/my:proj",
    composeYaml := .vmap [("services", .vmap [("app", .vmap
      [("build", .vmap [("context", .str ".")])])])] }

/-- The two-entry heap used as the C1 witness: dict `0` is the existing
service `\x7b"keep": "old", "clash": "old"\x7d`, dict `1` the clone
`\x7b"clash": "new"\x7d`. -/
def c1WitnessHeap : Heap :=
  ⟨[(0, .dict [("keep", .str "old"), ("clash", .str "old")]),
    (1, .dict [("clash", .str "new")])], 2⟩

/-- The two-entry heap used as the C6 witness: dict `0` is
`\x7b"a": 1\x7d`, dict `1` is `\x7b"a": 2\x7d`. -/
def c6WitnessHeap : Heap :=
  ⟨[(0, .dict [("a", .int 1)]), (1, .dict [("a", .int 2)])], 2⟩

/-- The `deep_merge` example of the specification, run on a fresh heap. -/
def dmExample : Except PErr (Heap × PyVal) :=
  let (h1, a1) := toHeap Heap.empty (.vmap [("a", .vmap [("x", .int 1)])])
  let (h2, a2) := toHeap h1 (.vmap [("a", .vmap [("y", .int 2)])])
  deep_merge h2 a1 a2 RECURSION_LIMIT

/-- The result of `dmExample` read back as a tree. -/
def dmExampleVal : Option Val :=
  match dmExample with
  | .ok (h, r) => readback h READ_FUEL r
  | .error _ => Option.none

/-- As `envStd`, but the source compose file does not exist. -/
def envNoFile : PyEnv := { envStd with composeFileExists := false }

/-- The final state of a run already known to succeed (the error arm is a
dead placeholder). -/
def okState (r : Except PErr CState) : CState :=
  match r with
  | .ok st => st
  | .error _ => ⟨Heap.empty, .none, .none, .none, .none, .none, ""⟩

/-- A two-object heap for exercising `stage_image` directly: dict `0` is a
source service with an explicit tagged image, dict `1` the clone. -/
def c8WitnessHeap : Heap :=
  ⟨[(0, .dict [("image", .str "repo/app:v1")]), (1, .dict [])], 2⟩

/-- The pipeline state just before the image stage on `c8WitnessHeap`. -/
def c8WitnessState : CState :=
  ⟨c8WitnessHeap, .none, .none, .ref 0, .ref 1, .str ".", ""⟩

/-- A one-object heap holding the environment mapping
`\x7b"A": "1", "B": "2"\x7d`. -/
def c7WitnessHeap : Heap :=
  ⟨[(0, .dict [("A", .str "1"), ("B", .str "2")])], 1⟩

/-! # Theorems -/

/-! ## Substitution of the Dockerfile placeholder (C9) -/

theorem isPre_append_self (pat t : List Char) : isPre pat (pat ++ t) = true := by
  induction pat with
  | nil => simp [isPre]
  | cons p ps ih => simp [isPre, ih]

theorem occAt_cons_succ (c : Char) (cs pat : List Char) (i : Nat) :
    occAt (c :: cs) pat (i + 1) = occAt cs pat i := by
  simp [occAt]

theorem occAt_zero (s pat : List Char) : occAt s pat 0 = isPre pat s := by
  simp [occAt]

theorem occAt_past_end (s : List Char) (p : Char) (ps : List Char) (i : Nat)
    (h : s.length ≤ i) : occAt s (p :: ps) i = false := by
  have : s.drop i = [] := List.drop_eq_nil_of_le h
  simp [occAt, this, isPre]

theorem drop_append_add {α : Type} (l₁ l₂ : List α) (i : Nat) :
    (l₁ ++ l₂).drop (l₁.length + i) = l₂.drop i :=
  List.drop_append i

theorem occAt_append_left (l₁ l₂ pat : List Char) (i : Nat) :
    occAt (l₁ ++ l₂) pat (l₁.length + i) = occAt l₂ pat i := by
  simp [occAt, drop_append_add]

/-- When the pattern occurs nowhere, `replaceCore` is the identity. -/
theorem replaceCore_no_occ (p : Char) (ps img : List Char) (s : List Char)
    (h : ∀ i, ¬ occAt s (p :: ps) i = true) :
    replaceCore p ps img s = s := by
  induction s with
  | nil => simp [replaceCore]
  | cons c cs ih =>
    have h0 : ¬ isPre (p :: ps) (c :: cs) = true := by
      have := h 0
      simpa [occAt_zero] using this
    have ihh : replaceCore p ps img cs = cs :=
      ih (fun i hi => h (i + 1) (by simpa [occAt_cons_succ] using hi))
    rw [replaceCore, if_neg h0, ihh]

/-- When the pattern occurs exactly at the end of `pre` and nowhere else,
`replaceCore` rewrites that one occurrence and nothing else. -/
theorem replaceCore_unique (p : Char) (ps img : List Char) :
    ∀ (pre post : List Char),
    (∀ i, occAt (pre ++ (p :: ps) ++ post) (p :: ps) i = true → i = pre.length) →
    replaceCore p ps img (pre ++ (p :: ps) ++ post) = pre ++ img ++ post := by
  intro pre
  induction pre with
  | nil =>
    intro post h
    have hnone : ∀ i, ¬ occAt post (p :: ps) i = true := by
      intro i hocc
      have hs : occAt ([] ++ (p :: ps) ++ post) (p :: ps) ((p :: ps).length + i)
          = true := by
        rw [List.nil_append, occAt_append_left]
        exact hocc
      have := h _ hs
      simp at this
    have hpre : isPre (p :: ps) (p :: (ps ++ post)) = true := by
      have := isPre_append_self (p :: ps) post
      simpa using this
    show replaceCore p ps img ([] ++ (p :: ps) ++ post) = [] ++ img ++ post
    simp only [List.nil_append, List.cons_append]
    rw [replaceCore, if_pos hpre, List.drop_left,
      replaceCore_no_occ p ps img post hnone]
  | cons a pre' ih =>
    intro post h
    have h0 : ¬ isPre (p :: ps) (a :: (pre' ++ (p :: ps) ++ post)) = true := by
      intro hocc
      have := h 0 (by simpa [occAt_zero, List.cons_append] using hocc)
      simp at this
    have ht : replaceCore p ps img (pre' ++ (p :: ps) ++ post) =
        pre' ++ img ++ post := by
      apply ih
      intro i hi
      have := h (i + 1) (by simpa [occAt_cons_succ, List.cons_append] using hi)
      simpa using this
    show replaceCore p ps img ((a :: pre') ++ (p :: ps) ++ post) =
      (a :: pre') ++ img ++ post
    simp only [List.cons_append]
    rw [replaceCore, if_neg h0, ht]

/-- C9: for every template containing the placeholder `%%__BASE_IMAGE__%%`
exactly once (a decomposition `pre ++ placeholder ++ post` whose only
occurrence position is `pre.length`), the Dockerfile assembler's substitution
(src lines 107-109) yields `pre ++ base ++ post`: the one occurrence becomes
the base image name and every other byte is unchanged. -/
theorem c9_placeholder_substitution (tpl base : String) (pre post : List Char)
    (hdec : tpl.data = pre ++ BASE_IMAGE_PLACEHOLDER.data ++ post)
    (huniq : ∀ i < tpl.data.length,
      occAt tpl.data BASE_IMAGE_PLACEHOLDER.data i = true → i = pre.length) :
    (newDockerfileContents tpl base).data = pre ++ base.data ++ post := by
  have huniq' : ∀ i, occAt tpl.data BASE_IMAGE_PLACEHOLDER.data i = true →
      i = pre.length := by
    intro i hi
    by_cases hlt : i < tpl.data.length
    · exact huniq i hlt hi
    · rw [show BASE_IMAGE_PLACEHOLDER.data = '%' :: "%__BASE_IMAGE__%%".data from rfl,
        occAt_past_end _ _ _ _ (by omega)] at hi
      simp at hi
  show (pyReplace tpl BASE_IMAGE_PLACEHOLDER base).data = _
  rw [show (pyReplace tpl BASE_IMAGE_PLACEHOLDER base) =
      String.mk (replaceCore '%' "%__BASE_IMAGE__%%".data base.data tpl.data) from rfl]
  show replaceCore '%' "%__BASE_IMAGE__%%".data base.data tpl.data = _
  rw [hdec]
  exact replaceCore_unique _ _ _ pre post (by
    intro i hi
    apply huniq'
    rw [hdec]
    exact hi)

/-- C9 (witness): the substitution applied to the concrete template
`"FROM %%__BASE_IMAGE__%%\nRUN true"` with base image `"ubuntu"`. -/
theorem c9_placeholder_substitution_witness :
    ("FROM %%__BASE_IMAGE__%%\nRUN true" : String).data =
      "FROM ".data ++ BASE_IMAGE_PLACEHOLDER.data ++ "\nRUN true".data ∧
    (newDockerfileContents "FROM %%__BASE_IMAGE__%%\nRUN true" "ubuntu").data =
      "FROM ".data ++ "ubuntu".data ++ "\nRUN true".data := by
  refine ⟨by decide, c9_placeholder_substitution _ _ _ _ (by decide) ?_⟩
  decide

/-! ## Heap and dictionary lemmas -/

theorem get_alloc_self (h : Heap) (o : Obj) :
    (h.alloc o).1.get h.next = some o := by
  simp [Heap.alloc, Heap.get, List.find?]

theorem get_alloc_ne (h : Heap) (o : Obj) (b : Nat) (hb : ¬ b = h.next) :
    (h.alloc o).1.get b = h.get b := by
  have hb' : ¬ h.next = b := fun e => hb e.symm
  simp [Heap.alloc, Heap.get, List.find?_cons, hb']

theorem get_mem (h : Heap) (a : Nat) (o : Obj) (hg : h.get a = some o) :
    (a, o) ∈ h.objs := by
  simp only [Heap.get, Option.map_eq_some'] at hg
  obtain ⟨p, hp, hpo⟩ := hg
  have hmem := List.mem_of_find?_eq_some hp
  have hpa := List.find?_some hp
  simp only [decide_eq_true_eq] at hpa
  have : p = (a, o) := by
    cases p
    simp_all
  rw [← this]
  exact hmem

theorem WF_lt_next {h : Heap} {a : Nat} {o : Obj} (hwf : h.WF)
    (hg : h.get a = some o) : a < h.next :=
  (hwf _ (get_mem h a o hg)).1

theorem WF_refsBelow {h : Heap} {a : Nat} {o : Obj} (hwf : h.WF)
    (hg : h.get a = some o) : o.refsBelow h.next :=
  (hwf _ (get_mem h a o hg)).2

theorem find?_update_ne {α β : Type} [DecidableEq α] (t : List (α × β))
    (a k : α) (w : β) (hk : ¬ k = a) :
    List.find? (fun p => decide (p.1 = k))
      (t.map (fun p => if p.1 = a then (a, w) else p)) =
    List.find? (fun p => decide (p.1 = k)) t := by
  induction t with
  | nil => rfl
  | cons p t ih =>
    rw [List.map_cons]
    by_cases hp : p.1 = a
    · rw [if_pos hp]
      rw [List.find?_cons_of_neg _ (by simp; exact fun e => hk e.symm),
        List.find?_cons_of_neg _ (by simp [hp]; exact fun e => hk e.symm), ih]
    · rw [if_neg hp]
      by_cases hpk : p.1 = k
      · rw [List.find?_cons_of_pos _ (by simp [hpk]),
          List.find?_cons_of_pos _ (by simp [hpk])]
      · rw [List.find?_cons_of_neg _ (by simp [hpk]),
          List.find?_cons_of_neg _ (by simp [hpk]), ih]

theorem find?_update_self {α β : Type} [DecidableEq α] (t : List (α × β))
    (a : α) (w : β)
    (hs : (List.find? (fun p => decide (p.1 = a)) t).isSome = true) :
    List.find? (fun p => decide (p.1 = a))
      (t.map (fun p => if p.1 = a then (a, w) else p)) = some (a, w) := by
  induction t with
  | nil => simp at hs
  | cons p t ih =>
    rw [List.map_cons]
    by_cases hp : p.1 = a
    · rw [if_pos hp, List.find?_cons_of_pos _ (by simp)]
    · rw [if_neg hp, List.find?_cons_of_neg _ (by simp [hp])]
      rw [List.find?_cons_of_neg _ (by simp [hp])] at hs
      exact ih hs

theorem find?_append_of_none {α : Type} (p : α → Bool) (t s : List α)
    (h : List.find? p t = Option.none) :
    List.find? p (t ++ s) = List.find? p s := by
  induction t with
  | nil => rfl
  | cons x t ih =>
    by_cases hx : p x = true
    · rw [List.find?_cons_of_pos _ hx] at h
      exact absurd h (by simp)
    · rw [List.find?_cons_of_neg _ hx] at h
      rw [List.cons_append, List.find?_cons_of_neg _ hx]
      exact ih h

theorem get_set_ne (h : Heap) (a : Nat) (o : Obj) (b : Nat)
    (hb : ¬ b = a) : (h.set a o).get b = h.get b := by
  simp only [Heap.set, Heap.get]
  rw [find?_update_ne _ _ _ _ hb]

theorem get_set_self (h : Heap) (a : Nat) (o : Obj)
    (hs : (h.get a).isSome = true) : (h.set a o).get a = some o := by
  simp only [Heap.set, Heap.get] at hs ⊢
  rw [find?_update_self]
  · rfl
  · cases hfind : List.find? (fun p => decide (p.1 = a)) h.objs
    · rw [hfind] at hs
      simp at hs
    · simp

theorem set_next (h : Heap) (a : Nat) (o : Obj) :
    (h.set a o).next = h.next := rfl

theorem alloc_next (h : Heap) (o : Obj) :
    (h.alloc o).1.next = h.next + 1 := rfl

theorem WF_set {h : Heap} {a : Nat} {o : Obj} (hwf : h.WF)
    (ho : o.refsBelow h.next) : (h.set a o).WF := by
  intro p hp
  simp only [Heap.set, List.mem_map] at hp
  obtain ⟨q, hq, hqe⟩ := hp
  by_cases hqa : q.1 = a
  · simp only [if_pos hqa] at hqe
    subst hqe
    exact ⟨hqa ▸ (hwf q hq).1, ho⟩
  · simp only [if_neg hqa] at hqe
    subst hqe
    exact hwf q hq

theorem refBelow_mono {v : PyVal} {n m : Nat} (hnm : n ≤ m)
    (hv : v.refBelow n) : v.refBelow m := by
  cases v with
  | ref b => exact Nat.lt_of_lt_of_le hv hnm
  | str s => trivial
  | int i => trivial
  | bool b => trivial
  | none => trivial

theorem refsBelow_mono {o : Obj} {n m : Nat} (hnm : n ≤ m)
    (ho : o.refsBelow n) : o.refsBelow m := by
  cases o with
  | dict es =>
    intro p hp
    exact refBelow_mono hnm (ho p hp)
  | list l =>
    intro x hx
    exact refBelow_mono hnm (ho x hx)

theorem WF_alloc {h : Heap} {o : Obj} (hwf : h.WF)
    (ho : o.refsBelow h.next) : (h.alloc o).1.WF := by
  intro p hp
  simp only [Heap.alloc, List.mem_cons] at hp
  rcases hp with hp | hp
  · subst hp
    exact ⟨Nat.lt_succ_self _, refsBelow_mono (Nat.le_succ _) ho⟩
  · have := hwf p hp
    exact ⟨Nat.lt_succ_of_lt this.1, refsBelow_mono (Nat.le_succ _) this.2⟩

theorem find?_append_of_some {α : Type} (p : α → Bool) (t s : List α)
    (val : α) (h : List.find? p t = some val) :
    List.find? p (t ++ s) = some val := by
  induction t with
  | nil => simp at h
  | cons x t ih =>
    by_cases hx : p x = true
    · rw [List.find?_cons_of_pos _ hx] at h
      rw [List.cons_append, List.find?_cons_of_pos _ hx]
      exact h
    · rw [List.find?_cons_of_neg _ hx] at h
      rw [List.cons_append, List.find?_cons_of_neg _ hx]
      exact ih h

theorem dget_isSome_iff_dhas (es : List (String × PyVal)) (k : String) :
    (dget es k).isSome = dhas es k := by
  rw [Bool.eq_iff_iff]
  simp [dget, dhas, List.find?_isSome, List.any_eq_true]

theorem dget_none_of_not_dhas {es : List (String × PyVal)} {k : String}
    (h : dhas es k = false) : dget es k = Option.none := by
  have := dget_isSome_iff_dhas es k
  rw [h] at this
  cases hg : dget es k
  · rfl
  · rw [hg] at this
    simp at this

theorem find?_none_of_not_dhas {es : List (String × PyVal)} {k : String}
    (h : dhas es k = false) :
    List.find? (fun p => decide (p.1 = k)) es = Option.none := by
  cases hfind : List.find? (fun p => decide (p.1 = k)) es
  · rfl
  · have := dget_none_of_not_dhas h
    rw [dget, hfind] at this
    simp at this

theorem dget_dset_self (es : List (String × PyVal)) (k : String) (v : PyVal) :
    dget (dset es k v) k = some v := by
  by_cases hh : dhas es k
  · simp only [dset, if_pos hh, dget]
    rw [find?_update_self]
    · rfl
    · have := dget_isSome_iff_dhas es k
      rw [hh] at this
      simpa [dget] using this
  · simp only [dset, if_neg hh, dget]
    rw [find?_append_of_none _ _ _
      (find?_none_of_not_dhas (by simpa using hh))]
    rw [List.find?_cons_of_pos _ (by simp)]
    rfl

theorem dget_dset_ne (es : List (String × PyVal)) (k' : String) (v : PyVal)
    (k : String) (hk : ¬ k = k') : dget (dset es k' v) k = dget es k := by
  by_cases hh : dhas es k'
  · simp only [dset, if_pos hh, dget]
    rw [find?_update_ne _ _ _ _ hk]
  · simp only [dset, if_neg hh, dget]
    cases hfind : List.find? (fun p => decide (p.1 = k)) es
    · rw [find?_append_of_none _ _ _ hfind]
      rw [List.find?_cons_of_neg _ (by simp; exact fun e => hk e.symm)]
      rfl
    · rw [find?_append_of_some _ _ _ _ hfind]

theorem dhas_dset_of_dhas (es : List (String × PyVal)) (k' : String)
    (v : PyVal) (k : String) (h : dhas es k = true) :
    dhas (dset es k' v) k = true := by
  by_cases hh : dhas es k'
  · simp only [dset, if_pos hh]
    simp only [dhas, List.any_eq_true] at h ⊢
    obtain ⟨p, hp, hpk⟩ := h
    by_cases hpk' : p.1 = k'
    · refine ⟨(k', v), List.mem_map.mpr ⟨p, hp, by simp [hpk']⟩, ?_⟩
      simp only [decide_eq_true_eq] at hpk
      simp [← hpk, hpk']
    · exact ⟨p, List.mem_map.mpr ⟨p, hp, by simp [hpk']⟩, hpk⟩
  · simp only [dset, if_neg hh]
    simp only [dhas, List.any_eq_true] at h ⊢
    obtain ⟨p, hp, hpk⟩ := h
    exact ⟨p, List.mem_append_left _ hp, hpk⟩

theorem dget_ddel_self (es : List (String × PyVal)) (k : String) :
    dget (ddel es k) k = Option.none := by
  induction es with
  | nil => rfl
  | cons p t ih =>
    simp only [ddel, List.filter_cons] at ih ⊢
    by_cases hp : p.1 = k
    · rw [if_neg (by simp [hp])]
      exact ih
    · rw [if_pos (by simp [hp])]
      simp only [dget] at ih ⊢
      rw [List.find?_cons_of_neg _ (by simp [hp])]
      exact ih

theorem dget_ddel_ne (es : List (String × PyVal)) (k k' : String)
    (h : ¬ k' = k) : dget (ddel es k) k' = dget es k' := by
  induction es with
  | nil => rfl
  | cons p t ih =>
    simp only [ddel, List.filter_cons] at ih ⊢
    by_cases hp : p.1 = k
    · have hpk' : ¬ p.1 = k' := by
        rw [hp]
        exact fun e => h e.symm
      rw [if_neg (by simp [hp]), ih]
      simp only [dget]
      rw [List.find?_cons_of_neg _ (by simp [hpk'])]
    · rw [if_pos (by simp [hp])]
      by_cases hpk' : p.1 = k'
      · simp only [dget]
        rw [List.find?_cons_of_pos _ (by simp [hpk']),
          List.find?_cons_of_pos _ (by simp [hpk'])]
      · simp only [dget] at ih ⊢
        rw [List.find?_cons_of_neg _ (by simp [hpk']),
          List.find?_cons_of_neg _ (by simp [hpk'])]
        exact ih

theorem dhas_ddel_self (es : List (String × PyVal)) (k : String) :
    dhas (ddel es k) k = false := by
  have h1 := dget_isSome_iff_dhas (ddel es k) k
  rw [dget_ddel_self] at h1
  simpa using h1.symm

theorem dget_some_mem {es : List (String × PyVal)} {k : String} {v : PyVal}
    (h : dget es k = some v) : (k, v) ∈ es := by
  simp only [dget, Option.map_eq_some'] at h
  obtain ⟨p, hp, hpv⟩ := h
  have hmem := List.mem_of_find?_eq_some hp
  have hpk := List.find?_some hp
  simp only [decide_eq_true_eq] at hpk
  have : p = (k, v) := by
    cases p
    simp_all
  rw [← this]
  exact hmem

theorem dset_refsBelow {es : List (String × PyVal)} {k : String} {v : PyVal}
    {n : Nat} (hes : Obj.refsBelow (.dict es) n) (hv : v.refBelow n) :
    Obj.refsBelow (.dict (dset es k v)) n := by
  intro p hp
  by_cases hh : dhas es k
  · simp only [dset, if_pos hh, List.mem_map] at hp
    obtain ⟨q, hq, hqe⟩ := hp
    by_cases hqk : q.1 = k
    · rw [if_pos hqk] at hqe
      rw [← hqe]
      exact hv
    · rw [if_neg hqk] at hqe
      rw [← hqe]
      exact hes q hq
  · simp only [dset, if_neg hh, List.mem_append] at hp
    rcases hp with hp | hp
    · exact hes p hp
    · simp only [List.mem_singleton] at hp
      rw [hp]
      exact hv

theorem ddel_refsBelow {es : List (String × PyVal)} {k : String} {n : Nat}
    (hes : Obj.refsBelow (.dict es) n) :
    Obj.refsBelow (.dict (ddel es k)) n := by
  intro p hp
  exact hes p (List.mem_of_mem_filter hp)

/-! ## Effect lemmas for `deep_merge` -/

/-- The merge loop allocates, mutates only the (freshly copied) result
object, preserves well-formedness, and returns the result reference. -/
theorem mergeItems_frame {dm : Heap → PyVal → PyVal → Except PErr (Heap × PyVal)}
    (hdm : DMSpec dm) :
    ∀ (items : List (String × PyVal)) (h : Heap) (rA : Nat) (h' : Heap)
      (rv : PyVal),
    h.WF → (h.get rA).isSome = true →
    (∀ p ∈ items, p.2.refBelow h.next) →
    mergeItems dm h (.ref rA) items = .ok (h', rv) →
    rv = .ref rA ∧ h'.WF ∧ h.next ≤ h'.next ∧
      (∀ a, a < h.next → ¬ a = rA → h'.get a = h.get a) ∧
      (h'.get rA).isSome = true := by
  intro items
  induction items with
  | nil =>
    intro h rA h' rv hwf hsome _ hrun
    simp only [mergeItems, Except.ok.injEq, Prod.mk.injEq] at hrun
    obtain ⟨rfl, rfl⟩ := hrun
    exact ⟨rfl, hwf, Nat.le_refl _, fun a _ _ => rfl, hsome⟩
  | cons kv rest ih =>
    obtain ⟨k, v⟩ := kv
    intro h rA h' rv hwf hsome hrefs hrun
    cases hget : h.get rA with
    | none =>
      rw [hget] at hsome
      simp at hsome
    | some o =>
      have hrAlt : rA < h.next := WF_lt_next hwf hget
      cases o with
      | dict dr =>
        have hcont : pyContains h (.ref rA) k = .ok (dhas dr k) := by
          simp [pyContains, hget]
        simp only [mergeItems] at hrun
        rw [hcont] at hrun
        cases hb : dhas dr k with
        | false =>
          rw [hb] at hrun
          dsimp only at hrun
          have hset : setItem h (.ref rA) k v =
              .ok (h.set rA (.dict (dset dr k v))) := by
            simp [setItem, hget]
          rw [hset] at hrun
          dsimp only at hrun
          have hwf3 : (h.set rA (.dict (dset dr k v))).WF :=
            WF_set hwf (dset_refsBelow (WF_refsBelow hwf hget)
              (hrefs (k, v) (List.mem_cons_self _ _)))
          have hsome3 : ((h.set rA (.dict (dset dr k v))).get rA).isSome
              = true := by
            rw [get_set_self h rA _ (by rw [hget]; rfl)]
            rfl
          have hrefs3 : ∀ p ∈ rest,
              p.2.refBelow (h.set rA (.dict (dset dr k v))).next :=
            fun p hp => hrefs p (List.mem_cons_of_mem _ hp)
          obtain ⟨hrv, hwf', hnext', hframe', hsome'⟩ :=
            ih _ rA h' rv hwf3 hsome3 hrefs3 hrun
          refine ⟨hrv, hwf', hnext', ?_, hsome'⟩
          intro a ha hne
          rw [hframe' a ha hne, get_set_ne h rA _ a hne]
        | true =>
          rw [hb] at hrun
          dsimp only at hrun
          have hv1some : (dget dr k).isSome = true := by
            rw [dget_isSome_iff_dhas, hb]
          obtain ⟨v1, hv1⟩ := Option.isSome_iff_exists.mp hv1some
          have hgi : getItem h (.ref rA) k = .ok v1 := by
            simp [getItem, hget, hv1]
          rw [hgi] at hrun
          dsimp only at hrun
          cases hdd : (isDictRef h v1 && isDictRef h v) with
          | false =>
            rw [hdd] at hrun
            dsimp only at hrun
            have hset : setItem h (.ref rA) k v =
                .ok (h.set rA (.dict (dset dr k v))) := by
              simp [setItem, hget]
            rw [hset] at hrun
            dsimp only at hrun
            have hwf3 : (h.set rA (.dict (dset dr k v))).WF :=
              WF_set hwf (dset_refsBelow (WF_refsBelow hwf hget)
                (hrefs (k, v) (List.mem_cons_self _ _)))
            have hsome3 : ((h.set rA (.dict (dset dr k v))).get rA).isSome
                = true := by
              rw [get_set_self h rA _ (by rw [hget]; rfl)]
              rfl
            have hrefs3 : ∀ p ∈ rest,
                p.2.refBelow (h.set rA (.dict (dset dr k v))).next :=
              fun p hp => hrefs p (List.mem_cons_of_mem _ hp)
            obtain ⟨hrv, hwf', hnext', hframe', hsome'⟩ :=
              ih _ rA h' rv hwf3 hsome3 hrefs3 hrun
            refine ⟨hrv, hwf', hnext', ?_, hsome'⟩
            intro a ha hne
            rw [hframe' a ha hne, get_set_ne h rA _ a hne]
          | true =>
            rw [hdd] at hrun
            dsimp only at hrun
            cases hdmr : dm h v1 v with
            | error e =>
              rw [hdmr] at hrun
              simp at hrun
            | ok pr =>
              obtain ⟨h2, m⟩ := pr
              rw [hdmr] at hrun
              dsimp only at hrun
              obtain ⟨hwf2, hn2, hfr2, hm⟩ := hdm h v1 v h2 m hwf hdmr
              have hget2 : h2.get rA = some (.dict dr) := by
                rw [hfr2 rA hrAlt, hget]
              have hset : setItem h2 (.ref rA) k m =
                  .ok (h2.set rA (.dict (dset dr k m))) := by
                simp [setItem, hget2]
              rw [hset] at hrun
              dsimp only at hrun
              have hwf3 : (h2.set rA (.dict (dset dr k m))).WF :=
                WF_set hwf2 (dset_refsBelow
                  (refsBelow_mono hn2 (WF_refsBelow hwf hget)) hm)
              have hsome3 : ((h2.set rA (.dict (dset dr k m))).get rA).isSome
                  = true := by
                rw [get_set_self h2 rA _ (by rw [hget2]; rfl)]
                rfl
              have hrefs3 : ∀ p ∈ rest,
                  p.2.refBelow (h2.set rA (.dict (dset dr k m))).next :=
                fun p hp => refBelow_mono hn2
                  (hrefs p (List.mem_cons_of_mem _ hp))
              obtain ⟨hrv, hwf', hnext', hframe', hsome'⟩ :=
                ih _ rA h' rv hwf3 hsome3 hrefs3 hrun
              refine ⟨hrv, hwf', Nat.le_trans hn2 hnext', ?_, hsome'⟩
              intro a ha hne
              rw [hframe' a (Nat.lt_of_lt_of_le ha hn2) hne,
                get_set_ne h2 rA _ a hne, hfr2 a ha]
      | list l =>
        have hcont : pyContains h (.ref rA) k =
            .ok (l.any (fun x => decide (x = .str k))) := by
          simp [pyContains, hget]
        simp only [mergeItems] at hrun
        rw [hcont] at hrun
        cases hb : l.any (fun x => decide (x = .str k)) with
        | true =>
          rw [hb] at hrun
          dsimp only at hrun
          have hgi : getItem h (.ref rA) k = .error .typeError := by
            simp [getItem, hget]
          rw [hgi] at hrun
          simp at hrun
        | false =>
          rw [hb] at hrun
          dsimp only at hrun
          have hset : setItem h (.ref rA) k v = .error .typeError := by
            simp [setItem, hget]
          rw [hset] at hrun
          simp at hrun

/-- Dict-ness of a valid value is stable under changes that keep `rA` a dict
and leave every other old address alone. -/
theorem isDictRef_eq_of_frame {h h3 : Heap} {rA : Nat}
    {dr dr3 : List (String × PyVal)}
    (hframe : ∀ a, a < h.next → ¬ a = rA → h3.get a = h.get a)
    (hget : h.get rA = some (.dict dr)) (hget3 : h3.get rA = some (.dict dr3))
    (w : PyVal) (hw : w.refBelow h.next) :
    isDictRef h3 w = isDictRef h w := by
  cases w with
  | ref c =>
    by_cases hc : c = rA
    · subst hc
      simp [isDictRef, hget, hget3]
    · have : h3.get c = h.get c := hframe c hw hc
      simp [isDictRef, this]
  | str s => rfl
  | int n => rfl
  | bool b => rfl
  | none => rfl

/-- Inversion of one step of the merge loop over a dict result object. -/
theorem mergeItems_cons_inv
    {dm : Heap → PyVal → PyVal → Except PErr (Heap × PyVal)}
    (hdm : DMSpec dm) {h : Heap} {rA : Nat} {k0 : String} {v0 : PyVal}
    {rest : List (String × PyVal)} {h' : Heap} {rv : PyVal}
    {dr : List (String × PyVal)} (hwf : h.WF)
    (hget : h.get rA = some (.dict dr))
    (hrun : mergeItems dm h (.ref rA) ((k0, v0) :: rest) = .ok (h', rv)) :
    ∃ (x : PyVal) (h2 : Heap),
      ((x = v0 ∧ h2 = h) ∨
        (∃ v1, dget dr k0 = some v1 ∧
          (isDictRef h v1 && isDictRef h v0) = true ∧
          dm h v1 v0 = .ok (h2, x))) ∧
      mergeItems dm (h2.set rA (.dict (dset dr k0 x))) (.ref rA) rest =
        .ok (h', rv) := by
  have hcont : pyContains h (.ref rA) k0 = .ok (dhas dr k0) := by
    simp [pyContains, hget]
  simp only [mergeItems] at hrun
  rw [hcont] at hrun
  cases hb : dhas dr k0 with
  | false =>
    rw [hb] at hrun
    dsimp only at hrun
    have hset : setItem h (.ref rA) k0 v0 =
        .ok (h.set rA (.dict (dset dr k0 v0))) := by
      simp [setItem, hget]
    rw [hset] at hrun
    dsimp only at hrun
    exact ⟨v0, h, Or.inl ⟨rfl, rfl⟩, hrun⟩
  | true =>
    rw [hb] at hrun
    dsimp only at hrun
    have hv1some : (dget dr k0).isSome = true := by
      rw [dget_isSome_iff_dhas, hb]
    obtain ⟨v1, hv1⟩ := Option.isSome_iff_exists.mp hv1some
    have hgi : getItem h (.ref rA) k0 = .ok v1 := by
      simp [getItem, hget, hv1]
    rw [hgi] at hrun
    dsimp only at hrun
    cases hdd : (isDictRef h v1 && isDictRef h v0) with
    | false =>
      rw [hdd] at hrun
      dsimp only at hrun
      have hset : setItem h (.ref rA) k0 v0 =
          .ok (h.set rA (.dict (dset dr k0 v0))) := by
        simp [setItem, hget]
      rw [hset] at hrun
      dsimp only at hrun
      exact ⟨v0, h, Or.inl ⟨rfl, rfl⟩, hrun⟩
    | true =>
      rw [hdd] at hrun
      dsimp only at hrun
      cases hdmr : dm h v1 v0 with
      | error e =>
        rw [hdmr] at hrun
        simp at hrun
      | ok pr =>
        obtain ⟨h2, m⟩ := pr
        rw [hdmr] at hrun
        dsimp only at hrun
        have hget2 : h2.get rA = some (.dict dr) := by
          rw [(hdm h v1 v0 h2 m hwf hdmr).2.2.1 rA (WF_lt_next hwf hget)]
          exact hget
        have hset : setItem h2 (.ref rA) k0 m =
            .ok (h2.set rA (.dict (dset dr k0 m))) := by
          simp [setItem, hget2]
        rw [hset] at hrun
        dsimp only at hrun
        exact ⟨m, h2, Or.inr ⟨v1, hv1, hdd, hdmr⟩, hrun⟩

/-- Entry tracking through the merge loop over a dict result object:
no key of the result is ever dropped; keys outside the processed items are
untouched; with duplicate-free items, an item whose merge condition fails
(existing value missing, or the two values not both dicts) ends up holding
the item's own value — the second dict wins. -/
theorem mergeItems_entries
    {dm : Heap → PyVal → PyVal → Except PErr (Heap × PyVal)}
    (hdm : DMSpec dm) :
    ∀ (items : List (String × PyVal)) (h : Heap) (rA : Nat)
      (dr : List (String × PyVal)) (h' : Heap) (rv : PyVal),
    h.WF → h.get rA = some (.dict dr) →
    (∀ p ∈ items, p.2.refBelow h.next) →
    mergeItems dm h (.ref rA) items = .ok (h', rv) →
    ∃ dr', h'.get rA = some (.dict dr') ∧
      (∀ k, dhas dr k = true → dhas dr' k = true) ∧
      (∀ k, (∀ p ∈ items, ¬ p.1 = k) → dget dr' k = dget dr k) ∧
      ((items.map (fun p => p.1)).Nodup →
        ∀ k v, (k, v) ∈ items →
        (∀ v1, dget dr k = some v1 →
          (isDictRef h v1 && isDictRef h v) = false) →
        dget dr' k = some v) := by
  intro items
  induction items with
  | nil =>
    intro h rA dr h' rv hwf hget _ hrun
    simp only [mergeItems, Except.ok.injEq, Prod.mk.injEq] at hrun
    obtain ⟨rfl, rfl⟩ := hrun
    exact ⟨dr, hget, fun _ hk => hk, fun _ _ => rfl, fun _ k v hm => by
      simp at hm⟩
  | cons p0 rest ih =>
    obtain ⟨k0, v0⟩ := p0
    intro h rA dr h' rv hwf hget hrefs hrun
    obtain ⟨x, h2, hbr, hrest⟩ := mergeItems_cons_inv hdm hwf hget hrun
    have hfacts : h2.WF ∧ h.next ≤ h2.next ∧
        (∀ a, a < h.next → h2.get a = h.get a) ∧ x.refBelow h2.next := by
      rcases hbr with ⟨hx, rfl⟩ | ⟨v1, hv1, _, hdmr⟩
      · subst hx
        exact ⟨hwf, Nat.le_refl _, fun a _ => rfl,
          hrefs (k0, x) (List.mem_cons_self _ _)⟩
      · exact hdm h v1 v0 h2 x hwf hdmr
    obtain ⟨hwf2, hn2, hfr2, hxrb⟩ := hfacts
    have hget2 : h2.get rA = some (.dict dr) := by
      rw [hfr2 rA (WF_lt_next hwf hget)]
      exact hget
    have hget3 : (h2.set rA (.dict (dset dr k0 x))).get rA =
        some (.dict (dset dr k0 x)) :=
      get_set_self _ _ _ (by rw [hget2]; rfl)
    have hwf3 : (h2.set rA (.dict (dset dr k0 x))).WF :=
      WF_set hwf2 (dset_refsBelow
        (refsBelow_mono hn2 (WF_refsBelow hwf hget)) hxrb)
    have hrefs3 : ∀ p ∈ rest,
        p.2.refBelow (h2.set rA (.dict (dset dr k0 x))).next :=
      fun p hp => refBelow_mono hn2 (hrefs p (List.mem_cons_of_mem _ hp))
    obtain ⟨dr', hget', ha', hb', hc'⟩ :=
      ih _ rA (dset dr k0 x) h' rv hwf3 hget3 hrefs3 hrest
    have hframe3 : ∀ a, a < h.next → ¬ a = rA →
        (h2.set rA (.dict (dset dr k0 x))).get a = h.get a := by
      intro a ha hne
      rw [get_set_ne _ _ _ _ hne, hfr2 a ha]
    refine ⟨dr', hget', ?_, ?_, ?_⟩
    · intro k hk
      exact ha' k (dhas_dset_of_dhas _ _ _ _ hk)
    · intro k hknot
      have hk0 : ¬ k0 = k := hknot (k0, v0) (List.mem_cons_self _ _)
      rw [hb' k (fun p hp => hknot p (List.mem_cons_of_mem _ hp)),
        dget_dset_ne _ _ _ _ (fun e => hk0 e.symm)]
    · intro hnd k v hmem hleaf
      rw [List.map_cons] at hnd
      obtain ⟨hk0nin, hnd'⟩ := List.nodup_cons.mp hnd
      rcases List.mem_cons.mp hmem with heq | hmem'
      · have hkk0 : k = k0 ∧ v = v0 := by
          have := heq
          simp only [Prod.mk.injEq] at this
          exact this
        obtain ⟨rfl, rfl⟩ := hkk0
        have hx : x = v := by
          rcases hbr with ⟨hx, _⟩ | ⟨v1, hv1, hdd, _⟩
          · exact hx
          · rw [hleaf v1 hv1] at hdd
            simp at hdd
        have hknotrest : ∀ p ∈ rest, ¬ p.1 = k := by
          intro p hp hpk
          exact hk0nin (List.mem_map.mpr ⟨p, hp, hpk⟩)
        rw [hb' k hknotrest, hx, dget_dset_self]
      · have hkne : ¬ k0 = k := by
          intro e
          subst e
          exact hk0nin (List.mem_map.mpr ⟨(k0, v), hmem', rfl⟩)
        apply hc' hnd' k v hmem'
        intro v1 hv1
        rw [dget_dset_ne _ _ _ _ (fun e => hkne e.symm)] at hv1
        have hv1rb : v1.refBelow h.next :=
          (WF_refsBelow hwf hget) _ (dget_some_mem hv1)
        have hvrb : v.refBelow h.next :=
          hrefs (k, v) (List.mem_cons_of_mem _ hmem')
        rw [isDictRef_eq_of_frame hframe3 hget hget3 v1 hv1rb,
          isDictRef_eq_of_frame hframe3 hget hget3 v hvrb]
        exact hleaf v1 hv1

/-- `deep_merge` satisfies the effect contract at every fuel. -/
theorem deep_merge_spec : ∀ fuel : Nat,
    DMSpec (fun h v1 v2 => deep_merge h v1 v2 fuel) := by
  intro fuel
  induction fuel with
  | zero =>
    intro h v1 v2 h' rv hwf hrun
    simp [deep_merge] at hrun
  | succ fuel ih =>
    intro h v1 v2 h' rv hwf hrun
    simp only [deep_merge] at hrun
    cases v1 with
    | str s => simp [pyCopy] at hrun
    | int n => simp [pyCopy] at hrun
    | bool b => simp [pyCopy] at hrun
    | none => simp [pyCopy] at hrun
    | ref a1 =>
      cases hga1 : h.get a1 with
      | none =>
        rw [show pyCopy h (.ref a1) = .error .typeError from by
          simp [pyCopy, hga1]] at hrun
        simp at hrun
      | some o1 =>
        cases o1 with
        | dict d1 =>
          rw [show pyCopy h (.ref a1) =
              .ok ((h.alloc (.dict d1)).1, .ref h.next) from by
            simp [pyCopy, hga1, Heap.alloc]] at hrun
          dsimp only at hrun
          cases v2 with
          | str s => simp at hrun
          | int n => simp at hrun
          | bool b => simp at hrun
          | none => simp at hrun
          | ref a2 =>
            dsimp only at hrun
            cases hga2 : (h.alloc (.dict d1)).1.get a2 with
            | none =>
              rw [hga2] at hrun
              simp at hrun
            | some o2 =>
              cases o2 with
              | list l2 =>
                rw [hga2] at hrun
                simp at hrun
              | dict d2 =>
                rw [hga2] at hrun
                dsimp only at hrun
                have hwf1 : (h.alloc (.dict d1)).1.WF :=
                  WF_alloc hwf (WF_refsBelow hwf hga1)
                have hsome1 : ((h.alloc (.dict d1)).1.get h.next).isSome
                    = true := by
                  rw [get_alloc_self]
                  rfl
                have hrefs1 : ∀ p ∈ d2,
                    p.2.refBelow (h.alloc (.dict d1)).1.next :=
                  fun p hp => (WF_refsBelow hwf1 hga2) p hp
                obtain ⟨hrv, hwf', hnext', hframe', _⟩ :=
                  mergeItems_frame ih d2 _ h.next h' rv hwf1 hsome1 hrefs1 hrun
                have hstep : h.next < h'.next := by
                  have : (h.alloc (.dict d1)).1.next ≤ h'.next := hnext'
                  rw [alloc_next] at this
                  omega
                refine ⟨hwf', Nat.le_of_lt hstep, ?_, ?_⟩
                · intro a ha
                  rw [hframe' a (by rw [alloc_next]; omega) (by omega),
                    get_alloc_ne h _ a (by omega)]
                · rw [hrv]
                  exact hstep
        | list l1 =>
          rw [show pyCopy h (.ref a1) =
              .ok ((h.alloc (.list l1)).1, .ref h.next) from by
            simp [pyCopy, hga1, Heap.alloc]] at hrun
          dsimp only at hrun
          cases v2 with
          | str s => simp at hrun
          | int n => simp at hrun
          | bool b => simp at hrun
          | none => simp at hrun
          | ref a2 =>
            dsimp only at hrun
            cases hga2 : (h.alloc (.list l1)).1.get a2 with
            | none =>
              rw [hga2] at hrun
              simp at hrun
            | some o2 =>
              cases o2 with
              | list l2 =>
                rw [hga2] at hrun
                simp at hrun
              | dict d2 =>
                rw [hga2] at hrun
                dsimp only at hrun
                have hwf1 : (h.alloc (.list l1)).1.WF :=
                  WF_alloc hwf (WF_refsBelow hwf hga1)
                have hsome1 : ((h.alloc (.list l1)).1.get h.next).isSome
                    = true := by
                  rw [get_alloc_self]
                  rfl
                have hrefs1 : ∀ p ∈ d2,
                    p.2.refBelow (h.alloc (.list l1)).1.next :=
                  fun p hp => (WF_refsBelow hwf1 hga2) p hp
                obtain ⟨hrv, hwf', hnext', hframe', _⟩ :=
                  mergeItems_frame ih d2 _ h.next h' rv hwf1 hsome1 hrefs1 hrun
                have hstep : h.next < h'.next := by
                  have : (h.alloc (.list l1)).1.next ≤ h'.next := hnext'
                  rw [alloc_next] at this
                  omega
                refine ⟨hwf', Nat.le_of_lt hstep, ?_, ?_⟩
                · intro a ha
                  rw [hframe' a (by rw [alloc_next]; omega) (by omega),
                    get_alloc_ne h _ a (by omega)]
                · rw [hrv]
                  exact hstep

/-- C10: whenever the source compose file does not exist, `compose` raises
`CommandError` with a `"File not found: "` message that interpolates
`os.path.relpath` of the COMPOSE OVERRIDE file (src line 171), and `main`
turns it into a single-line exit with code 1.  The missing source compose
file's own path does not appear in the message. -/
theorem c10_missing_file_message_names_override_path (env : PyEnv) (args : Args)
    (h : env.composeFileExists = false) :
    compose env args = .error (.commandError
      ("File not found: " ++ relpathS env.cwd args.compose_override_file)) ∧
    mainRun env args = .errorExit
      ("File not found: " ++ relpathS env.cwd args.compose_override_file) 1 := by
  have h1 : compose env args = .error (.commandError
      ("File not found: " ++ relpathS env.cwd args.compose_override_file)) := by
    simp [compose, stage_fileCheck, h, Bind.bind, Except.bind]
  exact ⟨h1, by simp [mainRun, h1]⟩

/-- C10 (witness): at the concrete run `envNoFile`/`argsStd` the message is
exactly `"File not found: docker-compose.override.yml"` — the override
file's relative path, while the missing file is `docker-compose.yml`. -/
theorem c10_missing_file_message_names_override_path_witness :
    compose envNoFile argsStd = .error (.commandError
      "File not found: docker-compose.override.yml") ∧
    ¬ ("File not found: docker-compose.override.yml" =
       "File not found: " ++ relpathS envNoFile.cwd argsStd.compose_file) := by
  have h := (c10_missing_file_message_names_override_path envNoFile argsStd rfl).1
  constructor
  · exact h
  · decide

/-- C5 (supporting evaluation): on a fresh run — no override file on disk —
with a source service lacking `build.context`, `compose` does NOT fail with
the "could not determine context dir" `CommandError`: it crashes earlier, at
src line 194, where `compose_override_config["services"]` is the `None`
parsed from `"services:"` and `.get` raises `AttributeError`, an unhandled
fault.  (No override file is written either way, since the only write is the
final one.) -/
theorem c5_fresh_run_unhandled_fault :
    compose envFresh argsStd = .error (.attributeError "get") ∧
    mainRun envFresh argsStd = .unhandled (.attributeError "get") ∧
    ¬ PErr.attributeError "get" =
      PErr.commandError "Could not determine context dir from service `app`" :=
  ⟨rfl, rfl, by simp⟩

/-- C3 (counterexample): with the requested source service absent from the
compose document's `services` mapping, the failure is NOT a single-line
`CommandError` exit: `compose_config["services"][args.source_service]`
raises a `KeyError`, which `main` does not catch, so the run ends as an
unhandled fault with a diagnostic trace. -/
theorem c3_missing_service_counterexample :
    mainRun envNoSvc argsStd = .unhandled (.keyError "app") :=
  rfl

/-- C1 (counterexample): in a merge run (`vim` already present in the
override document, `--replace-existing` not set), a scalar conflict at
`custom_key` is resolved in favour of the freshly derived CLONE
(`deep_merge(existing_service, new_service)` lets its second argument win),
not the existing definition as the claim states. -/
theorem c1_scalar_conflict_counterexample :
    (compose envMerge argsStd).map (fun st => svcKeyVal st "vim" "custom_key") =
      .ok (some (.str "from_source")) ∧
    ¬ Val.str "from_source" = Val.str "from_existing" :=
  ⟨rfl, by simp⟩

/-- C4 (counterexample): a successful run with `--no-build` and an explicit
Dockerfile path DOES write a `build` key into the derived service: lines
264-270 re-attach a rewritten `build` block after line 241 deleted it, and
the service was already inserted into the override document by reference. -/
theorem c4_no_build_run_has_build_key :
    (compose envStd argsStd).map (fun st => (svcKey st "vim" "build").isSome) =
      .ok true ∧
    (compose envStd argsStd).map (fun st => svcKeyVal st "vim" "build") =
      .ok (some (.vmap [("context", .str "."),
        ("dockerfile", .str "Dockerfile.nvim"),
        ("target", .str "nvim-devcontainer")])) :=
  ⟨rfl, rfl⟩

/-- C8 (counterexample): with no explicit image and a build-context directory
whose absolute path has basename `my:proj`, the synthesized name
`my:proj-app` is ALSO truncated at its first colon by `.split(":")[0]`, so
the written image is `my:nvim-devcontainer` — not the
`my:proj-app:nvim-devcontainer` the claim predicts for the no-explicit-image
branch. -/
theorem c8_colon_basename_counterexample :
    (compose envColon argsStd).map (fun st => svcKeyVal st "vim" "image") =
      .ok (some (.str "my:nvim-devcontainer")) ∧
    ¬ Val.str "my:nvim-devcontainer" = Val.str "my:proj-app:nvim-devcontainer" :=
  ⟨rfl, by simp⟩

/-- C2 (supporting evaluation): the derivation mutates the source service in
place.  After the `envStd` run, the source service's own `volumes` list — a
single bind mount in the input document — carries the five appended editor
mounts, because `new_service = source_service.copy()` is a shallow copy and
line 245 `extend`s the shared list object. -/
theorem c2_source_service_mutated :
    (compose envStd argsStd).map (fun st => srcKeyVal st "volumes") =
      .ok (some (.vlist [.str "./src:/app",
        .str "/home/u/.config/nvim:/nvim-devcontainer/config/nvim:ro",
        .str "/home/u/.config/git:/nvim-devcontainer/config/git:ro",
        .str "/home/u/.config/github-copilot:/nvim-devcontainer/config/github-copilot",
        .str "nvim-data:/nvim-devcontainer/data/nvim",
        .str "/tmp/.X11-unix:/tmp/.X11-unix:ro"])) ∧
    (((vmapGet envStd.composeYaml "services").bind (fun s => vmapGet s "app")).bind
      (fun s => vmapGet s "volumes")) = some (.vlist [.str "./src:/app"]) ∧
    ¬ (Val.vlist [.str "./src:/app",
        .str "/home/u/.config/nvim:/nvim-devcontainer/config/nvim:ro",
        .str "/home/u/.config/git:/nvim-devcontainer/config/git:ro",
        .str "/home/u/.config/github-copilot:/nvim-devcontainer/config/github-copilot",
        .str "nvim-data:/nvim-devcontainer/data/nvim",
        .str "/tmp/.X11-unix:/tmp/.X11-unix:ro"] =
      Val.vlist [.str "./src:/app"]) := by
  refine ⟨rfl, rfl, fun h => ?_⟩
  have hl := congrArg (fun v => match v with | Val.vlist l => l.length | _ => 0) h
  simp at hl

/-! ## `toHeap` builds well-formed heaps and reflects the tree -/

mutual

theorem toHeap_spec (v : Val) (h : Heap) (hwf : h.WF) :
    (toHeap h v).1.WF ∧ h.next ≤ (toHeap h v).1.next ∧
    (∀ a, a < h.next → (toHeap h v).1.get a = h.get a) ∧
    (toHeap h v).2.refBelow (toHeap h v).1.next := by
  cases v with
  | str s => exact ⟨hwf, Nat.le_refl _, fun a _ => rfl, trivial⟩
  | int n => exact ⟨hwf, Nat.le_refl _, fun a _ => rfl, trivial⟩
  | bool b => exact ⟨hwf, Nat.le_refl _, fun a _ => rfl, trivial⟩
  | null => exact ⟨hwf, Nat.le_refl _, fun a _ => rfl, trivial⟩
  | vmap es =>
    obtain ⟨hwf1, hn1, hfr1, hrb1⟩ := toHeapEntries_spec es h hwf
    refine ⟨?_, ?_, ?_, ?_⟩
    · exact WF_alloc hwf1 hrb1
    · show h.next ≤ (toHeapEntries h es).1.next + 1
      omega
    · intro a ha
      show ((toHeapEntries h es).1.alloc _).1.get a = h.get a
      rw [get_alloc_ne _ _ a (by omega), hfr1 a ha]
    · show (toHeapEntries h es).1.next < (toHeapEntries h es).1.next + 1
      omega
  | vlist l =>
    obtain ⟨hwf1, hn1, hfr1, hrb1⟩ := toHeapList_spec l h hwf
    refine ⟨?_, ?_, ?_, ?_⟩
    · exact WF_alloc hwf1 hrb1
    · show h.next ≤ (toHeapList h l).1.next + 1
      omega
    · intro a ha
      show ((toHeapList h l).1.alloc _).1.get a = h.get a
      rw [get_alloc_ne _ _ a (by omega), hfr1 a ha]
    · show (toHeapList h l).1.next < (toHeapList h l).1.next + 1
      omega

theorem toHeapEntries_spec (es : List (String × Val)) (h : Heap)
    (hwf : h.WF) :
    (toHeapEntries h es).1.WF ∧ h.next ≤ (toHeapEntries h es).1.next ∧
    (∀ a, a < h.next → (toHeapEntries h es).1.get a = h.get a) ∧
    Obj.refsBelow (.dict (toHeapEntries h es).2)
      (toHeapEntries h es).1.next := by
  cases es with
  | nil =>
    refine ⟨hwf, Nat.le_refl _, fun a _ => rfl, ?_⟩
    intro p hp
    simp [toHeapEntries] at hp
  | cons kv rest =>
    obtain ⟨k, v⟩ := kv
    obtain ⟨hwf1, hn1, hfr1, hrb1⟩ := toHeap_spec v h hwf
    obtain ⟨hwf2, hn2, hfr2, hrb2⟩ := toHeapEntries_spec rest (toHeap h v).1 hwf1
    refine ⟨hwf2, Nat.le_trans hn1 hn2, ?_, ?_⟩
    · intro a ha
      show (toHeapEntries (toHeap h v).1 rest).1.get a = h.get a
      rw [hfr2 a (by omega), hfr1 a ha]
    · intro p hp
      show PyVal.refBelow p.2 (toHeapEntries (toHeap h v).1 rest).1.next
      have : (toHeapEntries h ((k, v) :: rest)).2 =
          (k, (toHeap h v).2) :: (toHeapEntries (toHeap h v).1 rest).2 := rfl
      rw [this] at hp
      rcases List.mem_cons.mp hp with heq | hmem
      · rw [heq]
        exact refBelow_mono hn2 hrb1
      · exact hrb2 p hmem

theorem toHeapList_spec (l : List Val) (h : Heap) (hwf : h.WF) :
    (toHeapList h l).1.WF ∧ h.next ≤ (toHeapList h l).1.next ∧
    (∀ a, a < h.next → (toHeapList h l).1.get a = h.get a) ∧
    Obj.refsBelow (.list (toHeapList h l).2) (toHeapList h l).1.next := by
  cases l with
  | nil =>
    refine ⟨hwf, Nat.le_refl _, fun a _ => rfl, ?_⟩
    intro p hp
    simp [toHeapList] at hp
  | cons v rest =>
    obtain ⟨hwf1, hn1, hfr1, hrb1⟩ := toHeap_spec v h hwf
    obtain ⟨hwf2, hn2, hfr2, hrb2⟩ := toHeapList_spec rest (toHeap h v).1 hwf1
    refine ⟨hwf2, Nat.le_trans hn1 hn2, ?_, ?_⟩
    · intro a ha
      show (toHeapList (toHeap h v).1 rest).1.get a = h.get a
      rw [hfr2 a (by omega), hfr1 a ha]
    · intro p hp
      show PyVal.refBelow p (toHeapList (toHeap h v).1 rest).1.next
      have : (toHeapList h (v :: rest)).2 =
          (toHeap h v).2 :: (toHeapList (toHeap h v).1 rest).2 := rfl
      rw [this] at hp
      rcases List.mem_cons.mp hp with heq | hmem
      · rw [heq]
        exact refBelow_mono hn2 hrb1
      · exact hrb2 p hmem

end

theorem toHeapEntries_cons (h : Heap) (k0 : String) (v0 : Val)
    (rest : List (String × Val)) :
    (toHeapEntries h ((k0, v0) :: rest)).2 =
      (k0, (toHeap h v0).2) :: (toHeapEntries (toHeap h v0).1 rest).2 ∧
    (toHeapEntries h ((k0, v0) :: rest)).1 =
      (toHeapEntries (toHeap h v0).1 rest).1 :=
  ⟨rfl, rfl⟩

/-- A key absent from the tree mapping is absent from the heap dict built
from it. -/
theorem toHeapEntries_lookup_none (es : List (String × Val)) (k : String) :
    ∀ h, es.find? (fun p => decide (p.1 = k)) = Option.none →
    dget (toHeapEntries h es).2 k = Option.none := by
  induction es with
  | nil =>
    intro h _
    rfl
  | cons kv rest ih =>
    obtain ⟨k0, v0⟩ := kv
    intro h hfind
    have hk0 : ¬ k0 = k := by
      intro e
      rw [List.find?_cons_of_pos _ (by simp [e])] at hfind
      exact absurd hfind (by simp)
    rw [List.find?_cons_of_neg _ (by simp [hk0])] at hfind
    rw [(toHeapEntries_cons h k0 v0 rest).1]
    simp only [dget]
    rw [List.find?_cons_of_neg _ (by simp [hk0])]
    exact ih (toHeap h v0).1 hfind

/-- A string-valued key of the tree mapping appears as the same string in
the heap dict built from it. -/
theorem toHeapEntries_lookup_str (es : List (String × Val)) (k s : String) :
    ∀ h, es.find? (fun p => decide (p.1 = k)) = some (k, .str s) →
    dget (toHeapEntries h es).2 k = some (.str s) := by
  induction es with
  | nil =>
    intro h hfind
    simp at hfind
  | cons kv rest ih =>
    obtain ⟨k0, v0⟩ := kv
    intro h hfind
    by_cases hk0 : k0 = k
    · rw [List.find?_cons_of_pos _ (by simp [hk0])] at hfind
      simp only [Option.some.injEq, Prod.mk.injEq] at hfind
      obtain ⟨-, rfl⟩ := hfind
      rw [(toHeapEntries_cons h k0 (.str s) rest).1]
      simp only [dget]
      rw [List.find?_cons_of_pos _ (by simp [hk0])]
      rfl
    · rw [List.find?_cons_of_neg _ (by simp [hk0])] at hfind
      rw [(toHeapEntries_cons h k0 v0 rest).1]
      simp only [dget]
      rw [List.find?_cons_of_neg _ (by simp [hk0])]
      exact ih (toHeap h v0).1 hfind

/-- A mapping-valued key of the tree appears in the heap dict as a reference
to a dict holding the heap build of the submapping (at some intermediate
heap `h0`). -/
theorem toHeapEntries_lookup_vmap (es : List (String × Val)) (k : String)
    (bs : List (String × Val)) :
    ∀ h, h.WF → es.find? (fun p => decide (p.1 = k)) = some (k, .vmap bs) →
    ∃ (h0 : Heap) (b : Nat),
      dget (toHeapEntries h es).2 k = some (.ref b) ∧
      b = (toHeapEntries h0 bs).1.next ∧
      (toHeapEntries h es).1.get b =
        some (.dict (toHeapEntries h0 bs).2) ∧
      h0.WF ∧ h.next ≤ h0.next ∧ b < (toHeapEntries h es).1.next := by
  induction es with
  | nil =>
    intro h _ hfind
    simp at hfind
  | cons kv rest ih =>
    obtain ⟨k0, v0⟩ := kv
    intro h hwf hfind
    by_cases hk0 : k0 = k
    · rw [List.find?_cons_of_pos _ (by simp [hk0])] at hfind
      simp only [Option.some.injEq, Prod.mk.injEq] at hfind
      obtain ⟨-, rfl⟩ := hfind
      obtain ⟨hwfb, hnb, hfrb, hrbb⟩ := toHeapEntries_spec bs h hwf
      obtain ⟨hwf2, hn2, hfr2, hrb2⟩ :=
        toHeapEntries_spec rest (toHeap h (.vmap bs)).1 (WF_alloc hwfb hrbb)
      refine ⟨h, (toHeapEntries h bs).1.next, ?_, rfl, ?_, hwf, Nat.le_refl _, ?_⟩
      · rw [(toHeapEntries_cons h k0 (.vmap bs) rest).1]
        simp only [dget]
        rw [List.find?_cons_of_pos _ (by simp [hk0])]
        rfl
      · rw [(toHeapEntries_cons h k0 (.vmap bs) rest).2]
        rw [hfr2 _ (by
          show (toHeapEntries h bs).1.next < (toHeap h (.vmap bs)).1.next
          show (toHeapEntries h bs).1.next < (toHeapEntries h bs).1.next + 1
          omega)]
        exact get_alloc_self _ _
      · rw [(toHeapEntries_cons h k0 (.vmap bs) rest).2]
        have h1 : (toHeapEntries h bs).1.next < (toHeap h (.vmap bs)).1.next := by
          show (toHeapEntries h bs).1.next < (toHeapEntries h bs).1.next + 1
          omega

        omega
    · rw [List.find?_cons_of_neg _ (by simp [hk0])] at hfind
      obtain ⟨hwf1, hn1, hfr1, hrb1⟩ := toHeap_spec v0 h hwf
      obtain ⟨h0, b, hdget, hb, hget, hwf0, hn0, hblt⟩ :=
        ih (toHeap h v0).1 hwf1 hfind
      refine ⟨h0, b, ?_, hb, ?_, hwf0, Nat.le_trans hn1 hn0, ?_⟩
      · rw [(toHeapEntries_cons h k0 v0 rest).1]
        simp only [dget]
        rw [List.find?_cons_of_neg _ (by simp [hk0])]
        exact hdget
      · rw [(toHeapEntries_cons h k0 v0 rest).2]
        exact hget
      · rw [(toHeapEntries_cons h k0 v0 rest).2]
        exact hblt

theorem get_none_of_ge {h : Heap} {a : Nat} (hwf : h.WF) (ha : h.next ≤ a) :
    h.get a = Option.none := by
  cases hg : h.get a with
  | none => rfl
  | some o =>
    have := WF_lt_next hwf hg
    omega

theorem refAtLeast_anti {v : PyVal} {n m : Nat} (hnm : n ≤ m)
    (hv : v.refAtLeast m) : v.refAtLeast n := by
  cases v with
  | ref b => exact Nat.le_trans hnm hv
  | str s => trivial
  | int i => trivial
  | bool b => trivial
  | none => trivial

theorem refsAtLeast_anti {o : Obj} {n m : Nat} (hnm : n ≤ m)
    (ho : o.refsAtLeast m) : o.refsAtLeast n := by
  cases o with
  | dict es => exact fun p hp => refAtLeast_anti hnm (ho p hp)
  | list l => exact fun x hx => refAtLeast_anti hnm (ho x hx)

mutual

theorem toHeap_region (v : Val) (h : Heap) (hwf : h.WF) :
    (toHeap h v).2.refAtLeast h.next ∧
    (∀ a o, h.next ≤ a → (toHeap h v).1.get a = some o →
      o.refsAtLeast h.next) := by
  cases v with
  | str s => exact ⟨trivial, fun a o ha hg => by
      rw [show (toHeap h (Val.str s)).1 = h from rfl,
        get_none_of_ge hwf ha] at hg; cases hg⟩
  | int n => exact ⟨trivial, fun a o ha hg => by
      rw [show (toHeap h (Val.int n)).1 = h from rfl,
        get_none_of_ge hwf ha] at hg; cases hg⟩
  | bool b => exact ⟨trivial, fun a o ha hg => by
      rw [show (toHeap h (Val.bool b)).1 = h from rfl,
        get_none_of_ge hwf ha] at hg; cases hg⟩
  | null => exact ⟨trivial, fun a o ha hg => by
      rw [show (toHeap h Val.null).1 = h from rfl,
        get_none_of_ge hwf ha] at hg; cases hg⟩
  | vmap es =>
    obtain ⟨hents, hobjs⟩ := toHeapEntries_region es h hwf
    obtain ⟨hwf1, hn1, _, _⟩ := toHeapEntries_spec es h hwf
    constructor
    · show PyVal.refAtLeast (.ref (toHeapEntries h es).1.next) h.next
      exact hn1
    · intro a o ha hg
      rw [show (toHeap h (Val.vmap es)).1 = ((toHeapEntries h es).1.alloc
        (.dict (toHeapEntries h es).2)).1 from rfl] at hg
      by_cases hae : a = (toHeapEntries h es).1.next
      · subst hae
        rw [show ((toHeapEntries h es).1.alloc
            (.dict (toHeapEntries h es).2)).1.get (toHeapEntries h es).1.next
            = some (.dict (toHeapEntries h es).2) from get_alloc_self _ _]
            at hg
        cases hg
        exact hents
      · rw [get_alloc_ne _ _ a hae] at hg
        exact hobjs a o ha hg
  | vlist l =>
    obtain ⟨hents, hobjs⟩ := toHeapList_region l h hwf
    obtain ⟨hwf1, hn1, _, _⟩ := toHeapList_spec l h hwf
    constructor
    · show PyVal.refAtLeast (.ref (toHeapList h l).1.next) h.next
      exact hn1
    · intro a o ha hg
      rw [show (toHeap h (Val.vlist l)).1 = ((toHeapList h l).1.alloc
        (.list (toHeapList h l).2)).1 from rfl] at hg
      by_cases hae : a = (toHeapList h l).1.next
      · subst hae
        rw [show ((toHeapList h l).1.alloc
            (.list (toHeapList h l).2)).1.get (toHeapList h l).1.next
            = some (.list (toHeapList h l).2) from get_alloc_self _ _] at hg
        cases hg
        exact hents
      · rw [get_alloc_ne _ _ a hae] at hg
        exact hobjs a o ha hg

theorem toHeapEntries_region (es : List (String × Val)) (h : Heap)
    (hwf : h.WF) :
    Obj.refsAtLeast (.dict (toHeapEntries h es).2) h.next ∧
    (∀ a o, h.next ≤ a → (toHeapEntries h es).1.get a = some o →
      o.refsAtLeast h.next) := by
  cases es with
  | nil =>
    constructor
    · intro p hp
      simp [toHeapEntries] at hp
    · intro a o ha hg
      rw [show (toHeapEntries h []).1 = h from rfl,
        get_none_of_ge hwf ha] at hg
      cases hg
  | cons kv rest =>
    obtain ⟨k, v⟩ := kv
    obtain ⟨hv1, hvobjs⟩ := toHeap_region v h hwf
    obtain ⟨hwf1, hn1, hfr1, _⟩ := toHeap_spec v h hwf
    obtain ⟨hents, hobjs⟩ := toHeapEntries_region rest (toHeap h v).1 hwf1
    constructor
    · intro p hp
      rw [(toHeapEntries_cons h k v rest).1] at hp
      rcases List.mem_cons.mp hp with heq | hmem
      · rw [heq]
        exact hv1
      · exact refAtLeast_anti hn1 (hents p hmem)
    · intro a o ha hg
      rw [(toHeapEntries_cons h k v rest).2] at hg
      by_cases hlt : a < (toHeap h v).1.next
      · obtain ⟨_, _, hfr2, _⟩ := toHeapEntries_spec rest (toHeap h v).1 hwf1
        rw [hfr2 a hlt] at hg
        exact hvobjs a o ha hg
      · exact refsAtLeast_anti hn1
          (hobjs a o (by omega) hg)

theorem toHeapList_region (l : List Val) (h : Heap) (hwf : h.WF) :
    Obj.refsAtLeast (.list (toHeapList h l).2) h.next ∧
    (∀ a o, h.next ≤ a → (toHeapList h l).1.get a = some o →
      o.refsAtLeast h.next) := by
  cases l with
  | nil =>
    constructor
    · intro p hp
      simp [toHeapList] at hp
    · intro a o ha hg
      rw [show (toHeapList h []).1 = h from rfl,
        get_none_of_ge hwf ha] at hg
      cases hg
  | cons v rest =>
    obtain ⟨hv1, hvobjs⟩ := toHeap_region v h hwf
    obtain ⟨hwf1, hn1, hfr1, _⟩ := toHeap_spec v h hwf
    obtain ⟨hents, hobjs⟩ := toHeapList_region rest (toHeap h v).1 hwf1
    constructor
    · intro p hp
      have hcons : (toHeapList h (v :: rest)).2 =
          (toHeap h v).2 :: (toHeapList (toHeap h v).1 rest).2 := rfl
      rw [hcons] at hp
      rcases List.mem_cons.mp hp with heq | hmem
      · rw [heq]
        exact hv1
      · exact refAtLeast_anti hn1 (hents p hmem)
    · intro a o ha hg
      have hcons : (toHeapList h (v :: rest)).1 =
          (toHeapList (toHeap h v).1 rest).1 := rfl
      rw [hcons] at hg
      by_cases hlt : a < (toHeap h v).1.next
      · obtain ⟨_, _, hfr2, _⟩ := toHeapList_spec rest (toHeap h v).1 hwf1
        rw [hfr2 a hlt] at hg
        exact hvobjs a o ha hg
      · exact refsAtLeast_anti hn1 (hobjs a o (by omega) hg)

end

/-! ## Inversion of the Python operations -/

theorem getItem_ok_inv {h : Heap} {v : PyVal} {k : String} {x : PyVal}
    (hrun : getItem h v k = .ok x) :
    ∃ a es, v = .ref a ∧ h.get a = some (.dict es) ∧ dget es k = some x := by
  cases v with
  | ref a =>
    cases hg : h.get a with
    | none => simp [getItem, hg] at hrun
    | some o =>
      cases o with
      | dict es =>
        cases hd : dget es k with
        | none => simp [getItem, hg, hd] at hrun
        | some w =>
          simp only [getItem, hg, hd] at hrun
          cases hrun
          exact ⟨a, es, rfl, hg, hd⟩
      | list l => simp [getItem, hg] at hrun
  | str s => simp [getItem] at hrun
  | int n => simp [getItem] at hrun
  | bool b => simp [getItem] at hrun
  | none => simp [getItem] at hrun

theorem pyGet_ok_inv {h : Heap} {v : PyVal} {k : String} {x : PyVal}
    (hrun : pyGet h v k = .ok x) :
    ∃ a es, v = .ref a ∧ h.get a = some (.dict es) ∧
      x = (dget es k).getD .none := by
  cases v with
  | ref a =>
    cases hg : h.get a with
    | none => simp [pyGet, hg] at hrun
    | some o =>
      cases o with
      | dict es =>
        simp only [pyGet, hg] at hrun
        cases hrun
        exact ⟨a, es, rfl, hg, rfl⟩
      | list l => simp [pyGet, hg] at hrun
  | str s => simp [pyGet] at hrun
  | int n => simp [pyGet] at hrun
  | bool b => simp [pyGet] at hrun
  | none => simp [pyGet] at hrun

theorem setItem_ok_inv {h : Heap} {v : PyVal} {k : String} {x : PyVal}
    {h' : Heap} (hrun : setItem h v k x = .ok h') :
    ∃ a es, v = .ref a ∧ h.get a = some (.dict es) ∧
      h' = h.set a (.dict (dset es k x)) := by
  cases v with
  | ref a =>
    cases hg : h.get a with
    | none => simp [setItem, hg] at hrun
    | some o =>
      cases o with
      | dict es =>
        simp only [setItem, hg] at hrun
        cases hrun
        exact ⟨a, es, rfl, hg, rfl⟩
      | list l => simp [setItem, hg] at hrun
  | str s => simp [setItem] at hrun
  | int n => simp [setItem] at hrun
  | bool b => simp [setItem] at hrun
  | none => simp [setItem] at hrun

theorem delItem_ok_inv {h : Heap} {v : PyVal} {k : String} {h' : Heap}
    (hrun : delItem h v k = .ok h') :
    ∃ a es, v = .ref a ∧ h.get a = some (.dict es) ∧ dhas es k = true ∧
      h' = h.set a (.dict (ddel es k)) := by
  cases v with
  | ref a =>
    cases hg : h.get a with
    | none => simp [delItem, hg] at hrun
    | some o =>
      cases o with
      | dict es =>
        cases hd : dhas es k with
        | false => simp [delItem, hg, hd] at hrun
        | true =>
          simp only [delItem, hg, hd, if_true] at hrun
          cases hrun
          exact ⟨a, es, rfl, hg, hd, rfl⟩
      | list l => simp [delItem, hg] at hrun
  | str s => simp [delItem] at hrun
  | int n => simp [delItem] at hrun
  | bool b => simp [delItem] at hrun
  | none => simp [delItem] at hrun

theorem listExtend_ok_inv {h : Heap} {v : PyVal} {xs : List PyVal}
    {h' : Heap} (hrun : listExtend h v xs = .ok h') :
    ∃ a l, v = .ref a ∧ h.get a = some (.list l) ∧
      h' = h.set a (.list (l ++ xs)) := by
  cases v with
  | ref a =>
    cases hg : h.get a with
    | none => simp [listExtend, hg] at hrun
    | some o =>
      cases o with
      | dict es => simp [listExtend, hg] at hrun
      | list l =>
        simp only [listExtend, hg] at hrun
        cases hrun
        exact ⟨a, l, rfl, hg, rfl⟩
  | str s => simp [listExtend] at hrun
  | int n => simp [listExtend] at hrun
  | bool b => simp [listExtend] at hrun
  | none => simp [listExtend] at hrun

theorem pyCopy_ok_inv {h : Heap} {v : PyVal} {h' : Heap} {x : PyVal}
    (hrun : pyCopy h v = .ok (h', x)) :
    ∃ a o, v = .ref a ∧ h.get a = some o ∧ h' = (h.alloc o).1 ∧
      x = .ref h.next := by
  cases v with
  | ref a =>
    cases hg : h.get a with
    | none => simp [pyCopy, hg] at hrun
    | some o =>
      cases o with
      | dict es =>
        simp only [pyCopy, hg, Heap.alloc] at hrun
        obtain ⟨rfl, rfl⟩ := Prod.mk.injEq _ _ _ _ |>.mp
          (Except.ok.inj hrun)
        exact ⟨a, .dict es, rfl, hg, rfl, rfl⟩
      | list l =>
        simp only [pyCopy, hg, Heap.alloc] at hrun
        obtain ⟨rfl, rfl⟩ := Prod.mk.injEq _ _ _ _ |>.mp
          (Except.ok.inj hrun)
        exact ⟨a, .list l, rfl, hg, rfl, rfl⟩
  | str s => simp [pyCopy] at hrun
  | int n => simp [pyCopy] at hrun
  | bool b => simp [pyCopy] at hrun
  | none => simp [pyCopy] at hrun

theorem pyGetDefList_ok_inv {h : Heap} {v : PyVal} {k : String} {h' : Heap}
    {x : PyVal} (hrun : pyGetDefList h v k = .ok (h', x)) :
    ∃ a es, v = .ref a ∧ h.get a = some (.dict es) ∧
      ((∃ w, dget es k = some w ∧ h' = h ∧ x = w) ∨
        (dget es k = Option.none ∧ h' = (h.alloc (.list [])).1 ∧
          x = .ref h.next)) := by
  cases v with
  | ref a =>
    cases hg : h.get a with
    | none => simp [pyGetDefList, hg] at hrun
    | some o =>
      cases o with
      | dict es =>
        cases hd : dget es k with
        | some w =>
          simp only [pyGetDefList, hg, hd] at hrun
          obtain ⟨rfl, rfl⟩ := Prod.mk.injEq _ _ _ _ |>.mp
            (Except.ok.inj hrun)
          exact ⟨a, es, rfl, hg, Or.inl ⟨w, hd, rfl, rfl⟩⟩
        | none =>
          simp only [pyGetDefList, hg, hd, Heap.alloc] at hrun
          obtain ⟨rfl, rfl⟩ := Prod.mk.injEq _ _ _ _ |>.mp
            (Except.ok.inj hrun)
          exact ⟨a, es, rfl, hg, Or.inr ⟨hd, rfl, rfl⟩⟩
      | list l => simp [pyGetDefList, hg] at hrun
  | str s => simp [pyGetDefList] at hrun
  | int n => simp [pyGetDefList] at hrun
  | bool b => simp [pyGetDefList] at hrun
  | none => simp [pyGetDefList] at hrun

theorem pyGetDefDict_ok_inv {h : Heap} {v : PyVal} {k : String} {h' : Heap}
    {x : PyVal} (hrun : pyGetDefDict h v k = .ok (h', x)) :
    ∃ a es, v = .ref a ∧ h.get a = some (.dict es) ∧
      ((∃ w, dget es k = some w ∧ h' = h ∧ x = w) ∨
        (dget es k = Option.none ∧ h' = (h.alloc (.dict [])).1 ∧
          x = .ref h.next)) := by
  cases v with
  | ref a =>
    cases hg : h.get a with
    | none => simp [pyGetDefDict, hg] at hrun
    | some o =>
      cases o with
      | dict es =>
        cases hd : dget es k with
        | some w =>
          simp only [pyGetDefDict, hg, hd] at hrun
          obtain ⟨rfl, rfl⟩ := Prod.mk.injEq _ _ _ _ |>.mp
            (Except.ok.inj hrun)
          exact ⟨a, es, rfl, hg, Or.inl ⟨w, hd, rfl, rfl⟩⟩
        | none =>
          simp only [pyGetDefDict, hg, hd, Heap.alloc] at hrun
          obtain ⟨rfl, rfl⟩ := Prod.mk.injEq _ _ _ _ |>.mp
            (Except.ok.inj hrun)
          exact ⟨a, es, rfl, hg, Or.inr ⟨hd, rfl, rfl⟩⟩
      | list l => simp [pyGetDefDict, hg] at hrun
  | str s => simp [pyGetDefDict] at hrun
  | int n => simp [pyGetDefDict] at hrun
  | bool b => simp [pyGetDefDict] at hrun
  | none => simp [pyGetDefDict] at hrun

/-! ## Key-frame lemmas: which dictionary keys a heap step may touch -/

theorem KeyFrame_refl (K : List String) (h : Heap) : KeyFrame K h h :=
  fun _ es hg => ⟨es, hg, fun _ _ => rfl⟩

theorem KeyFrame_trans {K : List String} {h1 h2 h3 : Heap}
    (f : KeyFrame K h1 h2) (g : KeyFrame K h2 h3) : KeyFrame K h1 h3 := by
  intro a es hg
  obtain ⟨es2, hg2, hk2⟩ := f a es hg
  obtain ⟨es3, hg3, hk3⟩ := g a es2 hg2
  exact ⟨es3, hg3, fun k hk => (hk3 k hk).trans (hk2 k hk)⟩

theorem KeyFrame_mono {K K' : List String} {h h' : Heap}
    (hsub : ∀ k, k ∈ K → k ∈ K') (f : KeyFrame K h h') : KeyFrame K' h h' := by
  intro a es hg
  obtain ⟨es', hg', hk⟩ := f a es hg
  exact ⟨es', hg', fun k hk' => hk k (fun hm => hk' (hsub k hm))⟩

/-- A step that leaves every already-allocated address untouched (pure
allocation, like `deep_merge` or `dict.copy`) is a key frame for any `K`. -/
theorem frame_keyframe {h h' : Heap} (hwf : h.WF)
    (hfr : ∀ a, a < h.next → h'.get a = h.get a) (K : List String) :
    KeyFrame K h h' := by
  intro a es hg
  exact ⟨es, (hfr a (WF_lt_next hwf hg)).trans hg, fun _ _ => rfl⟩

theorem alloc_keyframe {h : Heap} (hwf : h.WF) (o : Obj) (K : List String) :
    KeyFrame K h (h.alloc o).1 :=
  frame_keyframe hwf (fun a ha => get_alloc_ne h o a (by omega)) K

/-- `v[k0] = x` only touches the key `k0`. -/
theorem setItem_keyframe {h : Heap} {v : PyVal} {k0 : String} {x : PyVal}
    {h' : Heap} {K : List String} (hrun : setItem h v k0 x = .ok h')
    (hk0 : k0 ∈ K) : KeyFrame K h h' := by
  obtain ⟨a0, es0, hv, hg0, rfl⟩ := setItem_ok_inv hrun
  intro a es hg
  by_cases ha : a = a0
  · subst ha
    have hes : es0 = es := by
      rw [hg0] at hg
      exact Obj.dict.inj (Option.some.inj hg)
    subst hes
    refine ⟨dset es0 k0 x, get_set_self _ _ _ (by rw [hg0]; rfl), ?_⟩
    intro k hk
    exact dget_dset_ne es0 k0 x k (fun he => hk (he ▸ hk0))
  · exact ⟨es, by rw [get_set_ne _ _ _ a ha]; exact hg, fun _ _ => rfl⟩

/-- `del v[k0]` only touches the key `k0`. -/
theorem delItem_keyframe {h : Heap} {v : PyVal} {k0 : String} {h' : Heap}
    {K : List String} (hrun : delItem h v k0 = .ok h') (hk0 : k0 ∈ K) :
    KeyFrame K h h' := by
  obtain ⟨a0, es0, hv, hg0, _, rfl⟩ := delItem_ok_inv hrun
  intro a es hg
  by_cases ha : a = a0
  · subst ha
    have hes : es0 = es := by
      rw [hg0] at hg
      exact Obj.dict.inj (Option.some.inj hg)
    subst hes
    refine ⟨ddel es0 k0, get_set_self _ _ _ (by rw [hg0]; rfl), ?_⟩
    intro k hk
    exact dget_ddel_ne es0 k0 k (fun he => hk (he ▸ hk0))
  · exact ⟨es, by rw [get_set_ne _ _ _ a ha]; exact hg, fun _ _ => rfl⟩

/-- `v.extend(xs)` mutates a list object, never a dict. -/
theorem listExtend_keyframe {h : Heap} {v : PyVal} {xs : List PyVal}
    {h' : Heap} (hrun : listExtend h v xs = .ok h') (K : List String) :
    KeyFrame K h h' := by
  obtain ⟨a0, l, hv, hg0, rfl⟩ := listExtend_ok_inv hrun
  intro a es hg
  have ha : ¬ a = a0 := by
    intro he
    rw [he, hg0] at hg
    exact Obj.noConfusion (Option.some.inj hg)
  exact ⟨es, by rw [get_set_ne _ _ _ a ha]; exact hg, fun _ _ => rfl⟩

/-! ## Stage inversion lemmas for `compose` -/

theorem normalize_env_vars_spec (h : Heap) (v : PyVal) (hwf : h.WF)
    (hv : v.refBelow h.next) :
    (normalize_env_vars h v).1.WF ∧
    h.next ≤ (normalize_env_vars h v).1.next ∧
    (∀ a, a < h.next → (normalize_env_vars h v).1.get a = h.get a) ∧
    (normalize_env_vars h v).2.refBelow (normalize_env_vars h v).1.next := by
  cases v with
  | ref a =>
    cases hg : h.get a with
    | none =>
      simp only [normalize_env_vars, hg]
      exact ⟨hwf, Nat.le_refl _, fun a _ => by simp, hv⟩
    | some o =>
      cases o with
      | dict es =>
        have hrb : Obj.refsBelow
            (.list (es.map (fun kv => .str (kv.1 ++ "=" ++ pyStr h kv.2))))
            h.next := by
          intro x hx
          obtain ⟨kv, _, hkv⟩ := List.mem_map.mp hx
          rw [← hkv]
          trivial
        refine ⟨?_, ?_, ?_, ?_⟩
        · simp only [normalize_env_vars, hg, Heap.alloc]
          exact WF_alloc hwf hrb
        · simp only [normalize_env_vars, hg, Heap.alloc]
          exact Nat.le_succ _
        · intro b hb
          simp only [normalize_env_vars, hg, Heap.alloc]
          exact get_alloc_ne h _ b (by omega)
        · simp only [normalize_env_vars, hg, Heap.alloc]
          show h.next < h.next + 1
          omega
      | list l =>
        simp only [normalize_env_vars, hg]
        exact ⟨hwf, Nat.le_refl _, fun a _ => by simp, hv⟩
  | str s => exact ⟨hwf, Nat.le_refl _, fun a _ => rfl, trivial⟩
  | int n => exact ⟨hwf, Nat.le_refl _, fun a _ => rfl, trivial⟩
  | bool b => exact ⟨hwf, Nat.le_refl _, fun a _ => rfl, trivial⟩
  | none => exact ⟨hwf, Nat.le_refl _, fun a _ => rfl, trivial⟩

theorem loadDocs_spec (env : PyEnv) :
    ∃ h1 : Heap, h1.WF ∧
      (stage_loadDocs env).heap = (toHeap h1 (orEmptyMap env.composeYaml)).1 ∧
      (stage_loadDocs env).cfg = (toHeap h1 (orEmptyMap env.composeYaml)).2 ∧
      PyVal.refBelow (stage_loadDocs env).ovCfg h1.next ∧
      (stage_loadDocs env).src = PyVal.none ∧
      (stage_loadDocs env).svc = PyVal.none ∧
      (stage_loadDocs env).contextDir = PyVal.none := by
  have hewf : Heap.empty.WF := fun p hp => by simp [Heap.empty] at hp
  by_cases hov : env.overrideFileExists
  · refine ⟨(toHeap Heap.empty (orEmptyMap env.overrideYaml)).1,
      (toHeap_spec _ _ hewf).1, ?_, ?_, ?_, ?_, ?_, ?_⟩ <;>
      simp only [stage_loadDocs, hov, if_true]
    exact (toHeap_spec _ _ hewf).2.2.2
  · simp only [Bool.not_eq_true] at hov
    refine ⟨(toHeap Heap.empty (.vmap [("services", .null)])).1,
      (toHeap_spec _ _ hewf).1, ?_, ?_, ?_, ?_, ?_, ?_⟩ <;>
      simp only [stage_loadDocs, hov, Bool.false_eq_true, if_false]
    exact (toHeap_spec _ _ hewf).2.2.2

theorem sourceClone_inv (args : Args) (st st' : CState)
    (hrun : stage_sourceClone args st = .ok st') :
    ∃ (aCfg aServ aSrc : Nat) (dcfg dserv : List (String × PyVal)) (o : Obj),
      st.cfg = .ref aCfg ∧ st.heap.get aCfg = some (.dict dcfg) ∧
      dget dcfg "services" = some (.ref aServ) ∧
      st.heap.get aServ = some (.dict dserv) ∧
      dget dserv args.source_service = some (.ref aSrc) ∧
      st.heap.get aSrc = some o ∧
      st'.heap = (st.heap.alloc o).1 ∧ st'.src = .ref aSrc ∧
      st'.svc = .ref st.heap.next ∧ st'.ovCfg = st.ovCfg ∧
      st'.cfg = st.cfg ∧ st'.contextDir = st.contextDir := by
  simp only [stage_sourceClone, Bind.bind, Except.bind] at hrun
  cases hgi1 : getItem st.heap st.cfg "services" with
  | error e =>
    rw [hgi1] at hrun
    simp at hrun
  | ok services =>
    rw [hgi1] at hrun
    dsimp only at hrun
    cases hgi2 : getItem st.heap services args.source_service with
    | error e =>
      rw [hgi2] at hrun
      simp at hrun
    | ok src =>
      rw [hgi2] at hrun
      dsimp only at hrun
      cases hcp : pyCopy st.heap src with
      | error e =>
        rw [hcp] at hrun
        simp at hrun
      | ok pr =>
        obtain ⟨h2, svc⟩ := pr
        rw [hcp] at hrun
        dsimp only at hrun
        obtain ⟨aCfg, dcfg, hcfg, hgc, hdc⟩ := getItem_ok_inv hgi1
        obtain ⟨aServ, dserv, hserv, hgs, hds⟩ := getItem_ok_inv hgi2
        obtain ⟨aSrc, o, hsrc, hgo, hh2, hsvc⟩ := pyCopy_ok_inv hcp
        obtain rfl := Except.ok.inj hrun
        refine ⟨aCfg, aServ, aSrc, dcfg, dserv, o, hcfg, hgc, ?_, hgs, ?_,
          hgo, hh2, hsrc ▸ hsvc ▸ rfl, hsvc ▸ rfl, rfl, rfl, rfl⟩
        · rw [← hserv]
          exact hdc
        · rw [← hsrc]
          exact hds

theorem envNormalize_inv (st st' : CState) (aSvc : Nat)
    (hrun : stage_envNormalize st = .ok st') (hsvc : st.svc = .ref aSvc)
    (hwf : st.heap.WF) :
    ∃ dsvc x, st.heap.get aSvc = some (.dict dsvc) ∧
      st'.svc = st.svc ∧ st'.src = st.src ∧ st'.ovCfg = st.ovCfg ∧
      st'.cfg = st.cfg ∧ st'.contextDir = st.contextDir ∧
      st'.heap.WF ∧ st.heap.next ≤ st'.heap.next ∧
      st'.heap.get aSvc = some (.dict (dset dsvc "environment" x)) ∧
      (∀ a dv, a < st.heap.next → ¬ a = aSvc →
        st.heap.get a = some (.dict dv) →
        st'.heap.get a = some (.dict dv)) := by
  simp only [stage_envNormalize, Bind.bind, Except.bind] at hrun
  cases hg1 : pyGetDefList st.heap st.svc "environment" with
  | error e =>
    rw [hg1] at hrun
    simp at hrun
  | ok pr =>
    obtain ⟨h1, ev⟩ := pr
    rw [hg1] at hrun
    dsimp only at hrun
    obtain ⟨a0, dsvc, hva, hga, hcase⟩ := pyGetDefList_ok_inv hg1
    rw [hsvc] at hva
    obtain rfl : aSvc = a0 := PyVal.ref.inj hva
    have haSvc : aSvc < st.heap.next := WF_lt_next hwf hga
    have h1facts : h1.WF ∧ st.heap.next ≤ h1.next ∧
        (∀ a, a < st.heap.next → h1.get a = st.heap.get a) ∧
        ev.refBelow h1.next := by
      rcases hcase with ⟨w, hw, rfl, rfl⟩ | ⟨-, rfl, rfl⟩
      · exact ⟨hwf, Nat.le_refl _, fun a _ => rfl,
          (WF_refsBelow hwf hga) _ (dget_some_mem hw)⟩
      · refine ⟨WF_alloc hwf (fun x hx => by simp at hx), Nat.le_succ _,
          fun a ha => get_alloc_ne _ _ a (by omega), ?_⟩
        show st.heap.next < st.heap.next + 1
        omega
    obtain ⟨hwf1, hn1, hfr1, hevrb⟩ := h1facts
    obtain ⟨hwf2, hn2, hfr2, hevrb2⟩ := normalize_env_vars_spec h1 ev hwf1 hevrb
    cases hsi : setItem (normalize_env_vars h1 ev).1 st.svc "environment"
        (normalize_env_vars h1 ev).2 with
    | error e =>
      rw [show (normalize_env_vars h1 ev) =
        ((normalize_env_vars h1 ev).1, (normalize_env_vars h1 ev).2) from
        rfl] at hrun
      rw [hsi] at hrun
      simp at hrun
    | ok h3 =>
      rw [show (normalize_env_vars h1 ev) =
        ((normalize_env_vars h1 ev).1, (normalize_env_vars h1 ev).2) from
        rfl] at hrun
      rw [hsi] at hrun
      dsimp only at hrun
      obtain ⟨a1, d1, hva1, hga1, hh3⟩ := setItem_ok_inv hsi
      rw [hsvc] at hva1
      obtain rfl : aSvc = a1 := PyVal.ref.inj hva1
      have hga1' : d1 = dsvc := by
        rw [hfr2 aSvc (by omega), hfr1 aSvc haSvc, hga] at hga1
        cases hga1
        rfl
      subst hga1'
      obtain rfl := Except.ok.inj hrun
      refine ⟨d1, (normalize_env_vars h1 ev).2, hga, rfl, rfl, rfl, rfl, rfl,
        ?_, ?_, ?_, ?_⟩
      · show h3.WF
        rw [hh3]
        exact WF_set hwf2 (dset_refsBelow
          (refsBelow_mono (Nat.le_trans hn1 hn2) (WF_refsBelow hwf hga))
          hevrb2)
      · show st.heap.next ≤ h3.next
        rw [hh3]
        show st.heap.next ≤ (normalize_env_vars h1 ev).1.next
        omega
      · show h3.get aSvc = some (.dict (dset d1 "environment"
          (normalize_env_vars h1 ev).2))
        rw [hh3]
        exact get_set_self _ _ _ (by rw [hga1]; rfl)
      · intro a dv ha hne hgdv
        show h3.get a = some (.dict dv)
        rw [hh3, get_set_ne _ _ _ a hne, hfr2 a (by omega), hfr1 a ha, hgdv]

/-- Full characterization of `deep_merge` on two dict references: the result
is the freshly allocated copy of the first dict, updated by the second
dict's items. -/
theorem passthrough_refsBelow (n : Nat) :
    ∀ x ∈ passthroughEnv, x.refBelow n := by
  intro x hx
  fin_cases hx <;> trivial

theorem mountStrings_refsBelow (env : PyEnv) (n : Nat) :
    ∀ x ∈ mountStrings env, x.refBelow n := by
  intro x hx
  fin_cases hx <;> trivial

theorem mergeExisting_spec (args : Args) (st st' : CState)
    (hwf : st.heap.WF) (hrun : stage_mergeExisting args st = .ok st') :
    st'.ovCfg = st.ovCfg ∧ st'.cfg = st.cfg ∧ st'.src = st.src ∧
    st'.contextDir = st.contextDir ∧
    st'.heap.WF ∧ st.heap.next ≤ st'.heap.next ∧
    (∀ K, KeyFrame K st.heap st'.heap) := by
  simp only [stage_mergeExisting, Bind.bind, Except.bind] at hrun
  cases hg1 : getItem st.heap st.ovCfg "services" with
  | error e =>
    rw [hg1] at hrun
    simp at hrun
  | ok ovServices =>
    rw [hg1] at hrun
    dsimp only at hrun
    cases hg2 : pyGet st.heap ovServices args.name with
    | error e =>
      rw [hg2] at hrun
      simp at hrun
    | ok existing =>
      rw [hg2] at hrun
      dsimp only at hrun
      cases ht : pyTruthy st.heap existing with
      | false =>
        rw [ht] at hrun
        simp only [Bool.false_eq_true, if_false] at hrun
        obtain rfl := Except.ok.inj hrun
        exact ⟨rfl, rfl, rfl, rfl, hwf, Nat.le_refl _,
          fun K => KeyFrame_refl K _⟩
      | true =>
        rw [ht] at hrun
        simp only [if_true] at hrun
        cases hrep : args.replace_existing with
        | true =>
          rw [hrep] at hrun
          simp only [not_true, if_false] at hrun
          obtain rfl := Except.ok.inj hrun
          exact ⟨rfl, rfl, rfl, rfl, hwf, Nat.le_refl _,
            fun K => KeyFrame_refl K _⟩
        | false =>
          rw [hrep] at hrun
          simp only [Bool.false_eq_true, not_false_iff, if_true] at hrun
          cases hdm : deep_merge st.heap existing st.svc RECURSION_LIMIT with
          | error e =>
            rw [hdm] at hrun
            simp at hrun
          | ok pr =>
            obtain ⟨h, merged⟩ := pr
            rw [hdm] at hrun
            dsimp only at hrun
            obtain rfl := Except.ok.inj hrun
            obtain ⟨hwf', hn', hfr', _⟩ :=
              (deep_merge_spec RECURSION_LIMIT) st.heap existing st.svc h
                merged hwf hdm
            exact ⟨rfl, rfl, rfl, rfl, hwf', hn',
              fun K => frame_keyframe hwf hfr' K⟩

theorem contextDir_spec (args : Args) (st st' : CState)
    (hwf : st.heap.WF) (hrun : stage_contextDir args st = .ok st') :
    st'.ovCfg = st.ovCfg ∧ st'.cfg = st.cfg ∧ st'.src = st.src ∧
    st'.svc = st.svc ∧
    st'.heap.WF ∧ st.heap.next ≤ st'.heap.next ∧
    st'.contextDir.refBelow st'.heap.next ∧
    (∀ K, KeyFrame K st.heap st'.heap) := by
  simp only [stage_contextDir, Bind.bind, Except.bind] at hrun
  cases hg1 : pyGetDefDict st.heap st.src "build" with
  | error e =>
    rw [hg1] at hrun
    simp at hrun
  | ok pr =>
    obtain ⟨h1, buildCfg⟩ := pr
    rw [hg1] at hrun
    dsimp only at hrun
    cases hg2 : pyGet h1 buildCfg "context" with
    | error e =>
      rw [hg2] at hrun
      simp at hrun
    | ok ctx =>
      rw [hg2] at hrun
      dsimp only at hrun
      cases ht : pyTruthy h1 ctx with
      | false =>
        rw [ht] at hrun
        simp at hrun
      | true =>
        rw [ht] at hrun
        simp only [if_true] at hrun
        obtain rfl := Except.ok.inj hrun
        obtain ⟨a0, es0, hsrc, hga, hcase⟩ := pyGetDefDict_ok_inv hg1
        have h1facts : h1.WF ∧ st.heap.next ≤ h1.next ∧
            (∀ a, a < st.heap.next → h1.get a = st.heap.get a) := by
          rcases hcase with ⟨w, hw, rfl, rfl⟩ | ⟨hnone, rfl, rfl⟩
          · exact ⟨hwf, Nat.le_refl _, fun a _ => rfl⟩
          · exact ⟨WF_alloc hwf (fun x hx => by simp at hx), Nat.le_succ _,
              fun a ha => get_alloc_ne _ _ a (by omega)⟩
        obtain ⟨hwf1, hn1, hfr1⟩ := h1facts
        obtain ⟨a1, es1, hb, hgb, hctx⟩ := pyGet_ok_inv hg2
        have hctxrb : ctx.refBelow h1.next := by
          rw [hctx]
          cases hd : dget es1 "context" with
          | none => trivial
          | some w =>
            rw [Option.getD_some]
            exact (WF_refsBelow hwf1 hgb) _ (dget_some_mem hd)
        exact ⟨rfl, rfl, rfl, rfl, hwf1, hn1, hctxrb,
          fun K => frame_keyframe hwf hfr1 K⟩

theorem envExtend_spec (st st' : CState) (hwf : st.heap.WF)
    (hrun : stage_envExtend st = .ok st') :
    st'.ovCfg = st.ovCfg ∧ st'.cfg = st.cfg ∧ st'.src = st.src ∧
    st'.svc = st.svc ∧ st'.contextDir = st.contextDir ∧
    st'.heap.WF ∧ st.heap.next ≤ st'.heap.next ∧
    KeyFrame ["environment"] st.heap st'.heap ∧
    (∃ aSvc es', st.svc = .ref aSvc ∧
      st'.heap.get aSvc = some (.dict es')) := by
  simp only [stage_envExtend, Bind.bind, Except.bind] at hrun
  cases hg1 : pyGetDefList st.heap st.svc "environment" with
  | error e =>
    rw [hg1] at hrun
    simp at hrun
  | ok pr =>
    obtain ⟨h1, ev⟩ := pr
    rw [hg1] at hrun
    dsimp only at hrun
    rw [show (normalize_env_vars h1 ev) =
      ((normalize_env_vars h1 ev).1, (normalize_env_vars h1 ev).2) from
      rfl] at hrun
    dsimp only at hrun
    cases hle : listExtend (normalize_env_vars h1 ev).1
        (normalize_env_vars h1 ev).2 passthroughEnv with
    | error e =>
      rw [hle] at hrun
      simp at hrun
    | ok h3 =>
      rw [hle] at hrun
      dsimp only at hrun
      cases hsi : setItem h3 st.svc "environment"
          (normalize_env_vars h1 ev).2 with
      | error e =>
        rw [hsi] at hrun
        simp at hrun
      | ok h4 =>
        rw [hsi] at hrun
        dsimp only at hrun
        obtain rfl := Except.ok.inj hrun
        obtain ⟨aSvc, dsvc, hsvc, hga, hcase⟩ := pyGetDefList_ok_inv hg1
        have haSvc : aSvc < st.heap.next := WF_lt_next hwf hga
        have h1facts : h1.WF ∧ st.heap.next ≤ h1.next ∧
            (∀ a, a < st.heap.next → h1.get a = st.heap.get a) ∧
            ev.refBelow h1.next := by
          rcases hcase with ⟨w, hw, rfl, rfl⟩ | ⟨-, rfl, rfl⟩
          · exact ⟨hwf, Nat.le_refl _, fun a _ => rfl,
              (WF_refsBelow hwf hga) _ (dget_some_mem hw)⟩
          · refine ⟨WF_alloc hwf (fun x hx => by simp at hx), Nat.le_succ _,
              fun a ha => get_alloc_ne _ _ a (by omega), ?_⟩
            show st.heap.next < st.heap.next + 1
            omega
        obtain ⟨hwf1, hn1, hfr1, hevrb⟩ := h1facts
        obtain ⟨hwf2, hn2, hfr2, hevrb2⟩ :=
          normalize_env_vars_spec h1 ev hwf1 hevrb
        obtain ⟨aL, l, hevl, hgl, hh3⟩ := listExtend_ok_inv hle
        have hwf3 : h3.WF := by
          rw [hh3]
          refine WF_set hwf2 ?_
          intro x hx
          rcases List.mem_append.mp hx with hx | hx
          · exact (WF_refsBelow hwf2 hgl) x hx
          · exact passthrough_refsBelow _ x hx
        have hn3 : (normalize_env_vars h1 ev).1.next = h3.next := by
          rw [hh3]
          rfl
        obtain ⟨a2, d3, hsvc2, hg3, hh4⟩ := setItem_ok_inv hsi
        have hwf4 : h4.WF := by
          rw [hh4]
          refine WF_set hwf3 (dset_refsBelow (WF_refsBelow hwf3 hg3) ?_)
          rw [← hn3]
          exact hevrb2
        have hn4 : h4.next = h3.next := by
          rw [hh4]
          rfl
        refine ⟨rfl, rfl, rfl, rfl, rfl, hwf4, ?_, ?_, ?_⟩
        · show st.heap.next ≤ h4.next
          rw [hn4, ← hn3]
          omega
        · exact KeyFrame_trans (frame_keyframe hwf hfr1 _)
            (KeyFrame_trans (frame_keyframe hwf1 hfr2 _)
              (KeyFrame_trans (listExtend_keyframe hle _)
                (setItem_keyframe hsi (by simp))))
        · rw [hsvc] at hsvc2
          obtain rfl : aSvc = a2 := PyVal.ref.inj hsvc2
          refine ⟨aSvc, dset d3 "environment" (normalize_env_vars h1 ev).2,
            hsvc, ?_⟩
          show h4.get aSvc = _
          rw [hh4]
          exact get_set_self _ _ _ (by rw [hg3]; rfl)

theorem setItem_wf {h : Heap} {v x : PyVal} {k : String} {h' : Heap}
    (hrun : setItem h v k x = .ok h') (hwf : h.WF)
    (hx : x.refBelow h.next) : h'.WF ∧ h'.next = h.next := by
  obtain ⟨a, es, hv, hg, rfl⟩ := setItem_ok_inv hrun
  exact ⟨WF_set hwf (dset_refsBelow (WF_refsBelow hwf hg) hx), rfl⟩

theorem image_spec (env : PyEnv) (args : Args) (st st' : CState)
    (hwf : st.heap.WF) (hrun : stage_image env args st = .ok st') :
    st'.ovCfg = st.ovCfg ∧ st'.cfg = st.cfg ∧ st'.src = st.src ∧
    st'.svc = st.svc ∧ st'.contextDir = st.contextDir ∧
    st'.heap.WF ∧ st.heap.next ≤ st'.heap.next ∧
    KeyFrame ["image"] st.heap st'.heap := by
  simp only [stage_image, Bind.bind, Except.bind] at hrun
  cases hg1 : pyGet st.heap st.src "image" with
  | error e =>
    rw [hg1] at hrun
    simp at hrun
  | ok srcImage =>
    rw [hg1] at hrun
    dsimp only at hrun
    have main : ∀ s h', setItem st.heap st.svc "image"
        (.str (takeToColon s ++ ":nvim-devcontainer")) = .ok h' →
        h'.WF ∧ st.heap.next ≤ h'.next ∧
        KeyFrame ["image"] st.heap h' := by
      intro s h' hsi
      obtain ⟨hwf', hn'⟩ := setItem_wf hsi hwf trivial
      exact ⟨hwf', by omega, setItem_keyframe hsi (by simp)⟩
    cases srcImage with
    | none =>
      cases hctx : st.contextDir with
      | str c =>
        rw [hctx] at hrun
        dsimp only at hrun
        cases hsi : setItem st.heap st.svc "image"
            (.str (takeToColon (basenameS (abspathS env.cwd c) ++ "-" ++
              args.source_service) ++ ":nvim-devcontainer")) with
        | error e =>
          rw [hsi] at hrun
          simp at hrun
        | ok h' =>
          rw [hsi] at hrun
          dsimp only at hrun
          obtain rfl := Except.ok.inj hrun
          obtain ⟨hwf', hn', hkf⟩ := main _ _ hsi
          exact ⟨rfl, rfl, rfl, rfl, rfl, hwf', hn', hkf⟩
      | ref a =>
        rw [hctx] at hrun
        simp at hrun
      | int n =>
        rw [hctx] at hrun
        simp at hrun
      | bool b =>
        rw [hctx] at hrun
        simp at hrun
      | none =>
        rw [hctx] at hrun
        simp at hrun
    | str s =>
      dsimp only at hrun
      cases hsi : setItem st.heap st.svc "image"
          (.str (takeToColon s ++ ":nvim-devcontainer")) with
      | error e =>
        rw [hsi] at hrun
        simp at hrun
      | ok h' =>
        rw [hsi] at hrun
        dsimp only at hrun
        obtain rfl := Except.ok.inj hrun
        obtain ⟨hwf', hn', hkf⟩ := main _ _ hsi
        exact ⟨rfl, rfl, rfl, rfl, rfl, hwf', hn', hkf⟩
    | ref a => simp at hrun
    | int n => simp at hrun
    | bool b => simp at hrun

theorem flags_spec (st st' : CState) (hwf : st.heap.WF)
    (hrun : stage_flags st = .ok st') :
    st'.ovCfg = st.ovCfg ∧ st'.cfg = st.cfg ∧ st'.src = st.src ∧
    st'.svc = st.svc ∧ st'.contextDir = st.contextDir ∧
    st'.heap.WF ∧ st.heap.next ≤ st'.heap.next ∧
    KeyFrame ["stdin_open", "tty", "entrypoint"] st.heap st'.heap := by
  simp only [stage_flags, Bind.bind, Except.bind] at hrun
  cases hs1 : setItem st.heap st.svc "stdin_open" (.bool true) with
  | error e =>
    rw [hs1] at hrun
    simp at hrun
  | ok h1 =>
    rw [hs1] at hrun
    dsimp only at hrun
    cases hs2 : setItem h1 st.svc "tty" (.bool true) with
    | error e =>
      rw [hs2] at hrun
      simp at hrun
    | ok h2 =>
      rw [hs2] at hrun
      dsimp only at hrun
      cases hs3 : setItem h2 st.svc "entrypoint" (.str "nvim") with
      | error e =>
        rw [hs3] at hrun
        simp at hrun
      | ok h3 =>
        rw [hs3] at hrun
        dsimp only at hrun
        obtain rfl := Except.ok.inj hrun
        obtain ⟨hwf1, hn1⟩ := setItem_wf hs1 hwf trivial
        obtain ⟨hwf2, hn2⟩ := setItem_wf hs2 hwf1 trivial
        obtain ⟨hwf3, hn3⟩ := setItem_wf hs3 hwf2 trivial
        refine ⟨rfl, rfl, rfl, rfl, rfl, hwf3, ?_, ?_⟩
        · show st.heap.next ≤ h3.next
          omega
        · exact KeyFrame_trans (setItem_keyframe hs1 (by simp))
            (KeyFrame_trans (setItem_keyframe hs2 (by simp))
              (setItem_keyframe hs3 (by simp)))

theorem delIfPresent_spec {h : Heap} {v : PyVal} {k : String} {h' : Heap}
    (hwf : h.WF) (hrun : delIfPresent h v k = .ok h') :
    h'.WF ∧ h'.next = h.next ∧ KeyFrame [k] h h' ∧
    (∀ a es, v = .ref a → h.get a = some (.dict es) →
      ∃ es', h'.get a = some (.dict es') ∧ dget es' k = Option.none ∧
        ∀ k', ¬ k' = k → dget es' k' = dget es k') := by
  simp only [delIfPresent, Bind.bind, Except.bind] at hrun
  cases hc : pyContains h v k with
  | error e =>
    rw [hc] at hrun
    simp at hrun
  | ok b =>
    rw [hc] at hrun
    dsimp only at hrun
    cases b with
    | true =>
      simp only [if_true] at hrun
      obtain ⟨a0, es0, hv, hg0, hhas, rfl⟩ := delItem_ok_inv hrun
      refine ⟨WF_set hwf (ddel_refsBelow (WF_refsBelow hwf hg0)), rfl,
        delItem_keyframe hrun (by simp), ?_⟩
      intro a es hva hge
      rw [hv] at hva
      obtain rfl : a0 = a := PyVal.ref.inj hva
      have hes : es0 = es := by
        rw [hg0] at hge
        exact Obj.dict.inj (Option.some.inj hge)
      subst hes
      exact ⟨ddel es0 k, get_set_self _ _ _ (by rw [hg0]; rfl),
        dget_ddel_self _ _, fun k' hk' => dget_ddel_ne _ _ _ hk'⟩
    | false =>
      simp only [Bool.false_eq_true, if_false] at hrun
      obtain rfl := Except.ok.inj hrun
      refine ⟨hwf, rfl, KeyFrame_refl _ _, ?_⟩
      intro a es hva hge
      refine ⟨es, hge, ?_, fun _ _ => rfl⟩
      rw [hva] at hc
      simp only [pyContains, hge] at hc
      exact dget_none_of_not_dhas (Except.ok.inj hc)

theorem deleteKeys_spec (st st' : CState) (hwf : st.heap.WF)
    (hrun : stage_deleteKeys st = .ok st') :
    st'.ovCfg = st.ovCfg ∧ st'.cfg = st.cfg ∧ st'.src = st.src ∧
    st'.svc = st.svc ∧ st'.contextDir = st.contextDir ∧
    st'.heap.WF ∧ st.heap.next ≤ st'.heap.next ∧
    KeyFrame ["command", "build", "depends_on"] st.heap st'.heap ∧
    (∀ a es, st.svc = .ref a → st.heap.get a = some (.dict es) →
      ∃ es', st'.heap.get a = some (.dict es') ∧
        dget es' "command" = Option.none ∧
        dget es' "build" = Option.none ∧
        dget es' "depends_on" = Option.none ∧
        ∀ k, ¬ k ∈ ["command", "build", "depends_on"] →
          dget es' k = dget es k) := by
  simp only [stage_deleteKeys, Bind.bind, Except.bind] at hrun
  cases hd1 : delIfPresent st.heap st.svc "command" with
  | error e =>
    rw [hd1] at hrun
    simp at hrun
  | ok h1 =>
    rw [hd1] at hrun
    dsimp only at hrun
    cases hd2 : delIfPresent h1 st.svc "build" with
    | error e =>
      rw [hd2] at hrun
      simp at hrun
    | ok h2 =>
      rw [hd2] at hrun
      dsimp only at hrun
      cases hd3 : delIfPresent h2 st.svc "depends_on" with
      | error e =>
        rw [hd3] at hrun
        simp at hrun
      | ok h3 =>
        rw [hd3] at hrun
        dsimp only at hrun
        obtain rfl := Except.ok.inj hrun
        obtain ⟨hwf1, hn1, hkf1, hsvc1⟩ := delIfPresent_spec hwf hd1
        obtain ⟨hwf2, hn2, hkf2, hsvc2⟩ := delIfPresent_spec hwf1 hd2
        obtain ⟨hwf3, hn3, hkf3, hsvc3⟩ := delIfPresent_spec hwf2 hd3
        refine ⟨rfl, rfl, rfl, rfl, rfl, hwf3, ?_, ?_, ?_⟩
        · show st.heap.next ≤ h3.next
          omega
        · refine KeyFrame_trans (KeyFrame_mono ?_ hkf1)
            (KeyFrame_trans (KeyFrame_mono ?_ hkf2)
              (KeyFrame_mono ?_ hkf3))
          · intro k hk
            simp only [List.mem_singleton] at hk
            simp [hk]
          · intro k hk
            simp only [List.mem_singleton] at hk
            simp [hk]
          · intro k hk
            simp only [List.mem_singleton] at hk
            simp [hk]
        · intro a es hva hge
          obtain ⟨es1, hge1, hc1, hfr1⟩ := hsvc1 a es hva hge
          obtain ⟨es2, hge2, hc2, hfr2⟩ := hsvc2 a es1 hva hge1
          obtain ⟨es3, hge3, hc3, hfr3⟩ := hsvc3 a es2 hva hge2
          refine ⟨es3, hge3, ?_, ?_, hc3, ?_⟩
          · rw [hfr3 "command" (by decide), hfr2 "command" (by decide)]
            exact hc1
          · rw [hfr3 "build" (by decide)]
            exact hc2
          · intro k hk
            have hk1 : ¬ k = "command" := fun he => hk (by simp [he])
            have hk2 : ¬ k = "build" := fun he => hk (by simp [he])
            have hk3 : ¬ k = "depends_on" := fun he => hk (by simp [he])
            rw [hfr3 k hk3, hfr2 k hk2, hfr1 k hk1]

theorem pyGetDefList_wf {h : Heap} {v : PyVal} {k : String} {h' : Heap}
    {x : PyVal} (hwf : h.WF) (hrun : pyGetDefList h v k = .ok (h', x)) :
    h'.WF ∧ h.next ≤ h'.next ∧
    (∀ a, a < h.next → h'.get a = h.get a) ∧ x.refBelow h'.next := by
  obtain ⟨a, es, hv, hg, hcase⟩ := pyGetDefList_ok_inv hrun
  rcases hcase with ⟨w, hw, rfl, rfl⟩ | ⟨-, rfl, rfl⟩
  · exact ⟨hwf, Nat.le_refl _, fun a _ => rfl,
      (WF_refsBelow hwf hg) _ (dget_some_mem hw)⟩
  · refine ⟨WF_alloc hwf (fun x hx => by simp at hx), Nat.le_succ _,
      fun a ha => get_alloc_ne _ _ a (by omega), ?_⟩
    show h.next < h.next + 1
    omega

theorem pyGetDefDict_wf {h : Heap} {v : PyVal} {k : String} {h' : Heap}
    {x : PyVal} (hwf : h.WF) (hrun : pyGetDefDict h v k = .ok (h', x)) :
    h'.WF ∧ h.next ≤ h'.next ∧
    (∀ a, a < h.next → h'.get a = h.get a) ∧ x.refBelow h'.next := by
  obtain ⟨a, es, hv, hg, hcase⟩ := pyGetDefDict_ok_inv hrun
  rcases hcase with ⟨w, hw, rfl, rfl⟩ | ⟨-, rfl, rfl⟩
  · exact ⟨hwf, Nat.le_refl _, fun a _ => rfl,
      (WF_refsBelow hwf hg) _ (dget_some_mem hw)⟩
  · refine ⟨WF_alloc hwf (fun x hx => by simp at hx), Nat.le_succ _,
      fun a ha => get_alloc_ne _ _ a (by omega), ?_⟩
    show h.next < h.next + 1
    omega

theorem volumes_spec (env : PyEnv) (st st' : CState) (hwf : st.heap.WF)
    (hrun : stage_volumes env st = .ok st') :
    st'.ovCfg = st.ovCfg ∧ st'.cfg = st.cfg ∧ st'.src = st.src ∧
    st'.svc = st.svc ∧ st'.contextDir = st.contextDir ∧
    st'.heap.WF ∧ st.heap.next ≤ st'.heap.next ∧
    KeyFrame ["volumes"] st.heap st'.heap := by
  simp only [stage_volumes, Bind.bind, Except.bind] at hrun
  cases hg1 : pyGetDefList st.heap st.svc "volumes" with
  | error e =>
    rw [hg1] at hrun
    simp at hrun
  | ok pr =>
    obtain ⟨h1, vols⟩ := pr
    rw [hg1] at hrun
    dsimp only at hrun
    cases hsi : setItem h1 st.svc "volumes" vols with
    | error e =>
      rw [hsi] at hrun
      simp at hrun
    | ok h2 =>
      rw [hsi] at hrun
      dsimp only at hrun
      cases hg2 : getItem h2 st.svc "volumes" with
      | error e =>
        rw [hg2] at hrun
        simp at hrun
      | ok vols2 =>
        rw [hg2] at hrun
        dsimp only at hrun
        cases hle : listExtend h2 vols2 (mountStrings env) with
        | error e =>
          rw [hle] at hrun
          simp at hrun
        | ok h3 =>
          rw [hle] at hrun
          dsimp only at hrun
          obtain rfl := Except.ok.inj hrun
          obtain ⟨hwf1, hn1, hfr1, hvrb⟩ := pyGetDefList_wf hwf hg1
          obtain ⟨hwf2, hn2⟩ := setItem_wf hsi hwf1 hvrb
          obtain ⟨aL, l, hv2, hgl, hh3⟩ := listExtend_ok_inv hle
          have hwf3 : h3.WF := by
            rw [hh3]
            refine WF_set hwf2 ?_
            intro x hx
            rcases List.mem_append.mp hx with hx | hx
            · exact (WF_refsBelow hwf2 hgl) x hx
            · exact mountStrings_refsBelow env _ x hx
          have hn3 : h3.next = h2.next := by
            rw [hh3]
            rfl
          refine ⟨rfl, rfl, rfl, rfl, rfl, hwf3, ?_, ?_⟩
          · show st.heap.next ≤ h3.next
            omega
          · exact KeyFrame_trans (frame_keyframe hwf hfr1 _)
              (KeyFrame_trans (setItem_keyframe hsi (by simp))
                (listExtend_keyframe hle _))

theorem overrideVolumes_spec (st st' : CState) (hwf : st.heap.WF)
    (hrun : stage_overrideVolumes st = .ok st') :
    st'.ovCfg = st.ovCfg ∧ st'.cfg = st.cfg ∧ st'.src = st.src ∧
    st'.svc = st.svc ∧ st'.contextDir = st.contextDir ∧
    st'.heap.WF ∧ st.heap.next ≤ st'.heap.next ∧
    KeyFrame ["volumes"] st.heap st'.heap := by
  simp only [stage_overrideVolumes, Bind.bind, Except.bind] at hrun
  cases hg : pyGet st.heap st.ovCfg "volumes" with
  | error e =>
    rw [hg] at hrun
    simp at hrun
  | ok v =>
    rw [hg] at hrun
    dsimp only at hrun
    generalize hpair : (if pyTruthy st.heap v = true then (st.heap, v)
      else ((st.heap.alloc (Obj.dict [])).1,
        PyVal.ref (st.heap.alloc (Obj.dict [])).2)) = pr at hrun
    obtain ⟨h1, v1⟩ := pr
    dsimp only at hrun
    have facts : h1.WF ∧ st.heap.next ≤ h1.next ∧
        KeyFrame ["volumes"] st.heap h1 ∧ v1.refBelow h1.next := by
      cases ht : pyTruthy st.heap v with
      | true =>
        rw [ht, if_pos rfl] at hpair
        obtain ⟨rfl, rfl⟩ := Prod.mk.injEq _ _ _ _ |>.mp hpair
        refine ⟨hwf, Nat.le_refl _, KeyFrame_refl _ _, ?_⟩
        obtain ⟨a, es, hva, hge, hveq⟩ := pyGet_ok_inv hg
        rw [hveq]
        cases hd : dget es "volumes" with
        | none => trivial
        | some w =>
          rw [Option.getD_some]
          exact (WF_refsBelow hwf hge) _ (dget_some_mem hd)
      | false =>
        rw [ht, if_neg (by simp)] at hpair
        obtain ⟨rfl, rfl⟩ := Prod.mk.injEq _ _ _ _ |>.mp hpair
        exact ⟨WF_alloc hwf (fun p hp => by simp at hp), Nat.le_succ _,
          alloc_keyframe hwf _ _,
          show st.heap.next < st.heap.next + 1 by omega⟩
    obtain ⟨hwf1, hn1, hkf1, hv1⟩ := facts
    cases hs1 : setItem h1 st.ovCfg "volumes" v1 with
    | error e =>
      rw [hs1] at hrun
      simp at hrun
    | ok h2 =>
      rw [hs1] at hrun
      dsimp only at hrun
      obtain ⟨hwf2, hn2⟩ := setItem_wf hs1 hwf1 hv1
      have hwf3 : (h2.alloc (Obj.dict [])).1.WF :=
        WF_alloc hwf2 (fun p hp => by simp at hp)
      have hwf4 : ((h2.alloc (Obj.dict [])).1.alloc
          (Obj.dict [("nvim-data",
            PyVal.ref (h2.alloc (Obj.dict [])).2)])).1.WF := by
        refine WF_alloc hwf3 ?_
        intro p hp
        simp only [List.mem_singleton] at hp
        subst hp
        exact (show h2.next < h2.next + 1 by omega)
      cases hs2 : setItem ((h2.alloc (Obj.dict [])).1.alloc
          (Obj.dict [("nvim-data",
            PyVal.ref (h2.alloc (Obj.dict [])).2)])).1
          st.ovCfg "volumes"
          (PyVal.ref ((h2.alloc (Obj.dict [])).1.alloc
            (Obj.dict [("nvim-data",
              PyVal.ref (h2.alloc (Obj.dict [])).2)])).2) with
      | error e =>
        rw [hs2] at hrun
        simp at hrun
      | ok h5 =>
        rw [hs2] at hrun
        dsimp only at hrun
        obtain rfl := Except.ok.inj hrun
        obtain ⟨hwf5, hn5⟩ := setItem_wf hs2 hwf4
          (show h2.next + 1 < h2.next + 1 + 1 by omega)
        have hfin : h5.next = h2.next + 2 := by
          rw [hn5]
          rfl
        refine ⟨rfl, rfl, rfl, rfl, rfl, hwf5, ?_, ?_⟩
        · show st.heap.next ≤ h5.next
          omega
        · have k1 : KeyFrame ["volumes"] h1 h2 :=
            setItem_keyframe hs1 (by simp)
          have k2 : KeyFrame ["volumes"] h2 (h2.alloc (Obj.dict [])).1 :=
            alloc_keyframe hwf2 _ _
          have k3 : KeyFrame ["volumes"] (h2.alloc (Obj.dict [])).1
              ((h2.alloc (Obj.dict [])).1.alloc
                (Obj.dict [("nvim-data",
                  PyVal.ref (h2.alloc (Obj.dict [])).2)])).1 :=
            alloc_keyframe hwf3 _ _
          have k4 : KeyFrame ["volumes"]
              ((h2.alloc (Obj.dict [])).1.alloc
                (Obj.dict [("nvim-data",
                  PyVal.ref (h2.alloc (Obj.dict [])).2)])).1 h5 :=
            setItem_keyframe hs2 (by simp)
          exact KeyFrame_trans hkf1 (KeyFrame_trans k1
            (KeyFrame_trans k2 (KeyFrame_trans k3 k4)))

theorem insertService_spec (args : Args) (st st' : CState)
    (hwf : st.heap.WF) (hname : ¬ args.name = "services")
    (hsvcrb : st.svc.refBelow st.heap.next)
    (hrun : stage_insertService args st = .ok st') :
    st'.ovCfg = st.ovCfg ∧ st'.cfg = st.cfg ∧ st'.src = st.src ∧
    st'.svc = st.svc ∧ st'.contextDir = st.contextDir ∧
    st'.heap.WF ∧ st.heap.next ≤ st'.heap.next ∧
    KeyFrame ["services", args.name] st.heap st'.heap ∧
    (∃ aOv esOv aSv2 es2,
      st.ovCfg = .ref aOv ∧
      st'.heap.get aOv = some (.dict esOv) ∧
      dget esOv "services" = some (.ref aSv2) ∧
      st'.heap.get aSv2 = some (.dict es2) ∧
      dget es2 args.name = some st.svc) := by
  simp only [stage_insertService, Bind.bind, Except.bind] at hrun
  cases hg : pyGet st.heap st.ovCfg "services" with
  | error e =>
    rw [hg] at hrun
    simp at hrun
  | ok sv =>
    rw [hg] at hrun
    dsimp only at hrun
    generalize hpair : (if pyTruthy st.heap sv = true then (st.heap, sv)
      else ((st.heap.alloc (Obj.dict [])).1,
        PyVal.ref (st.heap.alloc (Obj.dict [])).2)) = pr at hrun
    obtain ⟨h1, sv1⟩ := pr
    dsimp only at hrun
    have facts : h1.WF ∧ st.heap.next ≤ h1.next ∧
        KeyFrame ["services", args.name] st.heap h1 ∧
        sv1.refBelow h1.next := by
      cases ht : pyTruthy st.heap sv with
      | true =>
        rw [ht, if_pos rfl] at hpair
        obtain ⟨rfl, rfl⟩ := Prod.mk.injEq _ _ _ _ |>.mp hpair
        refine ⟨hwf, Nat.le_refl _, KeyFrame_refl _ _, ?_⟩
        obtain ⟨a, es, hva, hge, hveq⟩ := pyGet_ok_inv hg
        rw [hveq]
        cases hd : dget es "services" with
        | none => trivial
        | some w =>
          rw [Option.getD_some]
          exact (WF_refsBelow hwf hge) _ (dget_some_mem hd)
      | false =>
        rw [ht, if_neg (by simp)] at hpair
        obtain ⟨rfl, rfl⟩ := Prod.mk.injEq _ _ _ _ |>.mp hpair
        exact ⟨WF_alloc hwf (fun p hp => by simp at hp), Nat.le_succ _,
          alloc_keyframe hwf _ _,
          show st.heap.next < st.heap.next + 1 by omega⟩
    obtain ⟨hwf1, hn1, hkf1, hsv1⟩ := facts
    cases hs1 : setItem h1 st.ovCfg "services" sv1 with
    | error e =>
      rw [hs1] at hrun
      simp at hrun
    | ok h2 =>
      rw [hs1] at hrun
      dsimp only at hrun
      obtain ⟨hwf2, hn2⟩ := setItem_wf hs1 hwf1 hsv1
      obtain ⟨aOv, d1, hov, hgOv1, hh2⟩ := setItem_ok_inv hs1
      have hget2 : h2.get aOv = some (.dict (dset d1 "services" sv1)) := by
        rw [hh2]
        exact get_set_self _ _ _ (by rw [hgOv1]; rfl)
      have hg2 : getItem h2 st.ovCfg "services" = .ok sv1 := by
        rw [hov]
        simp only [getItem, hget2, dget_dset_self]
      rw [hg2] at hrun
      dsimp only at hrun
      cases hs3 : setItem h2 sv1 args.name st.svc with
      | error e =>
        rw [hs3] at hrun
        simp at hrun
      | ok h3 =>
        rw [hs3] at hrun
        dsimp only at hrun
        obtain rfl := Except.ok.inj hrun
        obtain ⟨aSv2, d2, hsv2, hgSv2, hh3⟩ := setItem_ok_inv hs3
        have hsvc2 : st.svc.refBelow h2.next := by
          refine refBelow_mono ?_ hsvcrb
          omega
        obtain ⟨hwf3, hn3⟩ := setItem_wf hs3 hwf2 hsvc2
        have kf3 : KeyFrame [args.name] h2 h3 :=
          setItem_keyframe hs3 (by simp)
        obtain ⟨esOv, hgOv3, hkOv⟩ := kf3 aOv _ hget2
        refine ⟨rfl, rfl, rfl, rfl, rfl, hwf3, ?_, ?_,
          aOv, esOv, aSv2, dset d2 args.name st.svc, hov, hgOv3, ?_, ?_, ?_⟩
        · show st.heap.next ≤ h3.next
          omega
        · exact KeyFrame_trans hkf1
            (KeyFrame_trans (setItem_keyframe hs1 (by simp))
              (setItem_keyframe hs3 (by simp)))
        · rw [hkOv "services" (by
            simp only [List.mem_singleton]
            exact fun he => hname he.symm)]
          rw [dget_dset_self]
          rw [hsv2]
        · show h3.get aSv2 = _
          rw [hh3]
          exact get_set_self _ _ _ (by rw [hgSv2]; rfl)
        · exact dget_dset_self _ _ _

theorem buildOrRewrite_false_spec (env : PyEnv) (args : Args)
    (st st' : CState)
    (hflag : (args.no_build && optStrTruthy args.dockerfile) = false)
    (hrun : stage_buildOrRewrite env args st = .ok st') : st' = st := by
  simp only [stage_buildOrRewrite, hflag, Bool.false_eq_true, if_false]
    at hrun
  split at hrun
  · simp at hrun
  · split at hrun
    · simp at hrun
    · exact (Except.ok.inj hrun).symm

theorem buildOrRewrite_true_spec (env : PyEnv) (args : Args)
    (st st' : CState) (aSvc : Nat) (es : List (String × PyVal))
    (hwf : st.heap.WF)
    (hflag : (args.no_build && optStrTruthy args.dockerfile) = true)
    (hsvc : st.svc = .ref aSvc) (hges : st.heap.get aSvc = some (.dict es))
    (hctxrb : st.contextDir.refBelow st.heap.next)
    (hrun : stage_buildOrRewrite env args st = .ok st') :
    st'.ovCfg = st.ovCfg ∧ st'.cfg = st.cfg ∧ st'.src = st.src ∧
    st'.svc = st.svc ∧ st'.contextDir = st.contextDir ∧
    st'.heap.WF ∧ st.heap.next ≤ st'.heap.next ∧
    KeyFrame ["build", "context", "dockerfile", "target"]
      st.heap st'.heap ∧
    (∃ es', st'.heap.get aSvc = some (.dict es') ∧
      (dget es' "build").isSome = true ∧
      ∀ k, ¬ k ∈ ["build", "context", "dockerfile", "target"] →
        dget es' k = dget es k) := by
  simp only [stage_buildOrRewrite, Bind.bind, Except.bind] at hrun
  rw [hflag] at hrun
  simp only [if_true] at hrun
  cases hg1 : pyGetDefDict st.heap st.src "build" with
  | error e =>
    rw [hg1] at hrun
    simp at hrun
  | ok pr =>
    obtain ⟨h1, b⟩ := pr
    rw [hg1] at hrun
    dsimp only at hrun
    obtain ⟨hwf1, hn1, hfr1, hbrb⟩ := pyGetDefDict_wf hwf hg1
    have hges1 : h1.get aSvc = some (.dict es) := by
      rw [hfr1 aSvc (WF_lt_next hwf hges)]
      exact hges
    cases hs2 : setItem h1 st.svc "build" b with
    | error e =>
      rw [hs2] at hrun
      simp at hrun
    | ok h2 =>
      rw [hs2] at hrun
      dsimp only at hrun
      obtain ⟨hwf2, hn2⟩ := setItem_wf hs2 hwf1 hbrb
      obtain ⟨a0, d0, hva0, hga0, hh2⟩ := setItem_ok_inv hs2
      rw [hsvc] at hva0
      obtain rfl : aSvc = a0 := PyVal.ref.inj hva0
      have hd0 : es = d0 := by
        rw [hges1] at hga0
        exact Obj.dict.inj (Option.some.inj hga0)
      subst hd0
      have hget2 : h2.get aSvc = some (.dict (dset es "build" b)) := by
        rw [hh2]
        exact get_set_self _ _ _ (by rw [hges1]; rfl)
      have hgb2 : getItem h2 st.svc "build" = .ok b := by
        rw [hsvc]
        simp only [getItem, hget2, dget_dset_self]
      rw [hgb2] at hrun
      dsimp only at hrun
      cases hs3 : setItem h2 b "context" st.contextDir with
      | error e =>
        rw [hs3] at hrun
        simp at hrun
      | ok h3 =>
        rw [hs3] at hrun
        dsimp only at hrun
        obtain ⟨hwf3, hn3⟩ := setItem_wf hs3 hwf2 (by
          refine refBelow_mono ?_ hctxrb
          omega)
        cases hs4 : setItem h3 b "dockerfile"
            (.str (args.dockerfile.getD "")) with
        | error e =>
          rw [hs4] at hrun
          simp at hrun
        | ok h4 =>
          rw [hs4] at hrun
          dsimp only at hrun
          obtain ⟨hwf4, hn4⟩ := setItem_wf hs4 hwf3 trivial
          cases hs5 : setItem h4 b "target" (.str "nvim-devcontainer") with
          | error e =>
            rw [hs5] at hrun
            simp at hrun
          | ok h5 =>
            rw [hs5] at hrun
            dsimp only at hrun
            obtain rfl := Except.ok.inj hrun
            obtain ⟨hwf5, hn5⟩ := setItem_wf hs5 hwf4 trivial
            have kf25 : KeyFrame ["context", "dockerfile", "target"] h2 h5 :=
              KeyFrame_trans (setItem_keyframe hs3 (by simp))
                (KeyFrame_trans (setItem_keyframe hs4 (by simp))
                  (setItem_keyframe hs5 (by simp)))
            obtain ⟨es', hges', hk⟩ := kf25 aSvc _ hget2
            refine ⟨rfl, rfl, rfl, rfl, rfl, hwf5, ?_, ?_, es', hges',
              ?_, ?_⟩
            · show st.heap.next ≤ h5.next
              omega
            · refine KeyFrame_trans (frame_keyframe hwf hfr1 _)
                (KeyFrame_trans (setItem_keyframe hs2 (by simp)) ?_)
              exact KeyFrame_mono (by
                intro k hk
                simp only [List.mem_cons, List.mem_singleton] at hk ⊢
                tauto) kf25
            · rw [hk "build" (by decide), dget_dset_self]
              rfl
            · intro k hkmem
              have hk1 : ¬ k ∈ (["context", "dockerfile", "target"] :
                  List String) := by
                intro hm
                refine hkmem ?_
                simp only [List.mem_cons, List.mem_singleton] at hm ⊢
                tauto
              have hk2 : ¬ k = "build" := fun he => hkmem (by simp [he])
              rw [hk k hk1]
              exact dget_dset_ne es "build" b k hk2

theorem loadDocs_WF (env : PyEnv) : (stage_loadDocs env).heap.WF := by
  obtain ⟨h1, hwf1, hheap, -⟩ := loadDocs_spec env
  rw [hheap]
  exact (toHeap_spec _ _ hwf1).1

theorem dockerfile_spec (env : PyEnv) (st st' : CState)
    (hrun : stage_dockerfile env st = .ok st') : st' = st := by
  simp only [stage_dockerfile] at hrun
  split at hrun
  · exact (Except.ok.inj hrun).symm
  · simp at hrun

theorem deep_merge_dict_spec (h : Heap) (a1 a2 : Nat)
    (d1 d2 : List (String × PyVal)) (fuel : Nat) (h' : Heap) (rv : PyVal)
    (hwf : h.WF) (hg1 : h.get a1 = some (.dict d1))
    (hg2 : h.get a2 = some (.dict d2))
    (hrun : deep_merge h (.ref a1) (.ref a2) fuel = .ok (h', rv)) :
    ∃ d, rv = .ref h.next ∧ h'.get h.next = some (.dict d) ∧
      (∀ k, dhas d1 k = true → dhas d k = true) ∧
      (∀ k, (∀ p ∈ d2, ¬ p.1 = k) → dget d k = dget d1 k) ∧
      ((d2.map (fun p => p.1)).Nodup →
        ∀ k v, (k, v) ∈ d2 →
        (∀ v1, dget d1 k = some v1 →
          (isDictRef h v1 && isDictRef h v) = false) →
        dget d k = some v) := by
  cases fuel with
  | zero => simp [deep_merge] at hrun
  | succ fuel =>
    simp only [deep_merge] at hrun
    rw [show pyCopy h (.ref a1) =
        .ok ((h.alloc (.dict d1)).1, .ref h.next) from by
      simp [pyCopy, hg1, Heap.alloc]] at hrun
    dsimp only at hrun
    have ha2lt : a2 < h.next := WF_lt_next hwf hg2
    have hga2 : (h.alloc (.dict d1)).1.get a2 = some (.dict d2) := by
      rw [get_alloc_ne h _ a2 (by omega)]
      exact hg2
    rw [hga2] at hrun
    dsimp only at hrun
    have hwf1 : (h.alloc (.dict d1)).1.WF :=
      WF_alloc hwf (WF_refsBelow hwf hg1)
    have hget1 : (h.alloc (.dict d1)).1.get h.next = some (.dict d1) :=
      get_alloc_self h _
    have hrefs1 : ∀ p ∈ d2, p.2.refBelow (h.alloc (.dict d1)).1.next :=
      fun p hp => (WF_refsBelow hwf1 hga2) p hp
    obtain ⟨hrv, _, _, _, _⟩ :=
      mergeItems_frame (deep_merge_spec fuel) d2 _ h.next h' rv hwf1
        (by rw [hget1]; rfl) hrefs1 hrun
    obtain ⟨d, hget', ha, hb, hc⟩ :=
      mergeItems_entries (deep_merge_spec fuel) d2 _ h.next d1 h' rv hwf1
        hget1 hrefs1 hrun
    have hdictpres : ∀ w : PyVal, w.refBelow h.next →
        isDictRef (h.alloc (.dict d1)).1 w = isDictRef h w := by
      intro w hw
      cases w with
      | ref c => simp [isDictRef, get_alloc_ne h _ c (by
          have : c < h.next := hw
          omega)]
      | str s => rfl
      | int n => rfl
      | bool b => rfl
      | none => rfl
    refine ⟨d, hrv, hget', ha, hb, ?_⟩
    intro hnd k v hmem hleaf
    apply hc hnd k v hmem
    intro v1 hv1
    rw [hdictpres v1 ((WF_refsBelow hwf hg1) _ (dget_some_mem hv1)),
      hdictpres v ((WF_refsBelow hwf hg2) _ hmem)]
    exact hleaf v1 hv1

/-- C6: `deep_merge` of `\x7b"a": \x7b"x": 1\x7d\x7d` with
`\x7b"a": \x7b"y": 2\x7d\x7d` yields `\x7b"a": \x7b"x": 1, "y": 2\x7d\x7d`
(recursive union of nested mappings), and in general, whenever a key is
present in both dicts and the two values are not both mappings (a leaf
conflict), the merged dict holds the SECOND argument's value at that key. -/
theorem c6_deep_merge_union_and_leaf_conflict :
    dmExampleVal = some (.vmap [("a", .vmap [("x", .int 1), ("y", .int 2)])]) ∧
    (∀ (h : Heap) (a1 a2 : Nat) (d1 d2 : List (String × PyVal))
      (fuel : Nat) (h' : Heap) (rv : PyVal) (k : String) (v1 v2 : PyVal),
      h.WF → h.get a1 = some (.dict d1) → h.get a2 = some (.dict d2) →
      (d2.map (fun p => p.1)).Nodup →
      dget d1 k = some v1 → dget d2 k = some v2 →
      (isDictRef h v1 && isDictRef h v2) = false →
      deep_merge h (.ref a1) (.ref a2) fuel = .ok (h', rv) →
      ∃ d, rv = .ref h.next ∧ h'.get h.next = some (.dict d) ∧
        dget d k = some v2) := by
  constructor
  · rfl
  · intro h a1 a2 d1 d2 fuel h' rv k v1 v2 hwf hg1 hg2 hnd hk1 hk2 hleaf hrun
    obtain ⟨d, hrv, hget', _, _, hwins⟩ :=
      deep_merge_dict_spec h a1 a2 d1 d2 fuel h' rv hwf hg1 hg2 hrun
    refine ⟨d, hrv, hget', ?_⟩
    apply hwins hnd k v2 (dget_some_mem hk2)
    intro w hw
    rw [hk1] at hw
    cases hw
    exact hleaf

/-- C6 (witness): the leaf-conflict rule applied on `c6WitnessHeap` — the
second dict's value `2` wins at key `"a"` of the merged dict, which the run
allocates at address `2`. -/
theorem c6_deep_merge_union_and_leaf_conflict_witness :
    ∃ d, PyVal.ref 2 = PyVal.ref c6WitnessHeap.next ∧
      Heap.get ⟨[(2, .dict [("a", .int 2)]), (0, .dict [("a", .int 1)]),
        (1, .dict [("a", .int 2)])], 3⟩ c6WitnessHeap.next =
        some (.dict d) ∧
      dget d "a" = some (.int 2) :=
  c6_deep_merge_union_and_leaf_conflict.2 c6WitnessHeap 0 1
    [("a", .int 1)] [("a", .int 2)] 10
    ⟨[(2, .dict [("a", .int 2)]), (0, .dict [("a", .int 1)]),
      (1, .dict [("a", .int 2)])], 3⟩
    (.ref 2) "a" (.int 1) (.int 2) (by decide) rfl rfl (by decide)
    rfl rfl (by decide) rfl

/-- C1 (amended): when a service with the target name already exists in the
override document and the replace flag is not set, the deriver computes
`deep_merge(existing_service, new_service)` (src line 196) — in that merge
no key present in the existing definition is dropped, keys the clone does
not carry keep their existing values, and on a scalar (not-both-mappings)
conflict the freshly derived CLONE's value wins, not the existing one's.
(The fixed rewrites that follow the merge may still replace or delete their
particular keys.)  Concretely, in the `envMerge` run the existing-only key
`settled_key` survives into the written override document. -/
theorem c1_merge_keeps_existing_keys_and_clone_wins_conflicts :
    (∀ (h : Heap) (aEx aCl : Nat) (dEx dCl : List (String × PyVal))
      (fuel : Nat) (h' : Heap) (rv : PyVal),
      h.WF → h.get aEx = some (.dict dEx) → h.get aCl = some (.dict dCl) →
      (dCl.map (fun p => p.1)).Nodup →
      deep_merge h (.ref aEx) (.ref aCl) fuel = .ok (h', rv) →
      ∃ d, rv = .ref h.next ∧ h'.get h.next = some (.dict d) ∧
        (∀ k, dhas dEx k = true → dhas d k = true) ∧
        (∀ k, (∀ p ∈ dCl, ¬ p.1 = k) → dget d k = dget dEx k) ∧
        (∀ k v, (k, v) ∈ dCl →
          (∀ v1, dget dEx k = some v1 →
            (isDictRef h v1 && isDictRef h v) = false) →
          dget d k = some v)) ∧
    (compose envMerge argsStd).map (fun st => svcKeyVal st "vim" "settled_key") =
      .ok (some (.str "kept")) := by
  constructor
  · intro h aEx aCl dEx dCl fuel h' rv hwf hgEx hgCl hnd hrun
    obtain ⟨d, hrv, hget', ha, hb, hc⟩ :=
      deep_merge_dict_spec h aEx aCl dEx dCl fuel h' rv hwf hgEx hgCl hrun
    exact ⟨d, hrv, hget', ha, hb, fun k v hmem hleaf => hc hnd k v hmem hleaf⟩
  · rfl

/-- C1 (witness): the merge rules applied on `c1WitnessHeap` — `keep`
survives with its existing value, `clash` holds the clone's value. -/
theorem c1_merge_keeps_existing_keys_and_clone_wins_conflicts_witness :
    ∃ d, PyVal.ref 2 = PyVal.ref c1WitnessHeap.next ∧
      Heap.get ⟨[(2, .dict [("keep", .str "old"), ("clash", .str "new")]),
        (0, .dict [("keep", .str "old"), ("clash", .str "old")]),
        (1, .dict [("clash", .str "new")])], 3⟩ c1WitnessHeap.next =
        some (.dict d) ∧
      (∀ k, dhas [("keep", PyVal.str "old"), ("clash", PyVal.str "old")] k
        = true → dhas d k = true) ∧
      (∀ k, (∀ p ∈ [("clash", PyVal.str "new")], ¬ p.1 = k) →
        dget d k = dget [("keep", PyVal.str "old"),
          ("clash", PyVal.str "old")] k) ∧
      (∀ k v, (k, v) ∈ [("clash", PyVal.str "new")] →
        (∀ v1, dget [("keep", PyVal.str "old"), ("clash", PyVal.str "old")] k
          = some v1 →
          (isDictRef c1WitnessHeap v1 && isDictRef c1WitnessHeap v) = false) →
        dget d k = some v) :=
  c1_merge_keeps_existing_keys_and_clone_wins_conflicts.1 c1WitnessHeap 0 1
    [("keep", .str "old"), ("clash", .str "old")] [("clash", .str "new")] 10
    ⟨[(2, .dict [("keep", .str "old"), ("clash", .str "new")]),
      (0, .dict [("keep", .str "old"), ("clash", .str "old")]),
      (1, .dict [("clash", .str "new")])], 3⟩
    (.ref 2) (by decide) rfl rfl (by decide) rfl

/-- C4 (amended): in every successful run of `compose` whose target service
name is not itself one of the deriver's reserved keys, the service written
into the override document contains neither `command` nor `depends_on`
(both are deleted at src lines 238-241 and never re-added) — but `build` is
ABSENT only when the `--no-build`/`--dockerfile` rewrite (src lines 264-270)
is not taken: with `--no-build` and a truthy Dockerfile path the written
service DOES carry a `build` key, contradicting the unconditional claim. -/
theorem c4_written_service_reserved_keys (env : PyEnv) (args : Args)
    (st' : CState)
    (hname : ¬ args.name ∈ ["command", "build", "depends_on", "services",
      "context", "dockerfile", "target"])
    (hrun : compose env args = .ok st') :
    svcKey st' args.name "command" = Option.none ∧
    svcKey st' args.name "depends_on" = Option.none ∧
    (svcKey st' args.name "build").isSome =
      (args.no_build && optStrTruthy args.dockerfile) := by
  have hn_cmd : ¬ args.name = "command" := fun he => hname (by simp [he])
  have hn_bld : ¬ args.name = "build" := fun he => hname (by simp [he])
  have hn_dep : ¬ args.name = "depends_on" := fun he => hname (by simp [he])
  have hn_srv : ¬ args.name = "services" := fun he => hname (by simp [he])
  have hn_ctx : ¬ args.name = "context" := fun he => hname (by simp [he])
  have hn_dkf : ¬ args.name = "dockerfile" := fun he => hname (by simp [he])
  have hn_tgt : ¬ args.name = "target" := fun he => hname (by simp [he])
  simp only [compose, Bind.bind, Except.bind] at hrun
  cases hfc : stage_fileCheck env args with
  | error e =>
    rw [hfc] at hrun
    simp at hrun
  | ok u =>
    rw [hfc] at hrun
    dsimp only at hrun
    cases h1 : stage_sourceClone args (stage_loadDocs env) with
    | error e =>
      rw [h1] at hrun
      simp at hrun
    | ok st1 =>
      rw [h1] at hrun
      dsimp only at hrun
      cases h2 : stage_envNormalize st1 with
      | error e =>
        rw [h2] at hrun
        simp at hrun
      | ok st2 =>
        rw [h2] at hrun
        dsimp only at hrun
        cases h3 : stage_mergeExisting args st2 with
        | error e =>
          rw [h3] at hrun
          simp at hrun
        | ok st3 =>
          rw [h3] at hrun
          dsimp only at hrun
          cases h4 : stage_contextDir args st3 with
          | error e =>
            rw [h4] at hrun
            simp at hrun
          | ok st4 =>
            rw [h4] at hrun
            dsimp only at hrun
            cases h5 : stage_envExtend st4 with
            | error e =>
              rw [h5] at hrun
              simp at hrun
            | ok st5 =>
              rw [h5] at hrun
              dsimp only at hrun
              cases h6 : stage_image env args st5 with
              | error e =>
                rw [h6] at hrun
                simp at hrun
              | ok st6 =>
                rw [h6] at hrun
                dsimp only at hrun
                cases h7 : stage_flags st6 with
                | error e =>
                  rw [h7] at hrun
                  simp at hrun
                | ok st7 =>
                  rw [h7] at hrun
                  dsimp only at hrun
                  cases h8 : stage_deleteKeys st7 with
                  | error e =>
                    rw [h8] at hrun
                    simp at hrun
                  | ok st8 =>
                    rw [h8] at hrun
                    dsimp only at hrun
                    cases h9 : stage_volumes env st8 with
                    | error e =>
                      rw [h9] at hrun
                      simp at hrun
                    | ok st9 =>
                      rw [h9] at hrun
                      dsimp only at hrun
                      cases h10 : stage_overrideVolumes st9 with
                      | error e =>
                        rw [h10] at hrun
                        simp at hrun
                      | ok st10 =>
                        rw [h10] at hrun
                        dsimp only at hrun
                        cases h11 : stage_insertService args st10 with
                        | error e =>
                          rw [h11] at hrun
                          simp at hrun
                        | ok st11 =>
                          rw [h11] at hrun
                          dsimp only at hrun
                          cases h12 : stage_buildOrRewrite env args st11 with
                          | error e =>
                            rw [h12] at hrun
                            simp at hrun
                          | ok st12 =>
                            rw [h12] at hrun
                            dsimp only at hrun
                            obtain rfl : st12 = st' :=
                              (dockerfile_spec env st12 st' hrun).symm
                            clear hrun
                            have hwf0 : (stage_loadDocs env).heap.WF :=
                              loadDocs_WF env
                            obtain ⟨aCfg, aServ, aSrc, dcfg, dserv, o, -, -,
                              -, -, -, hgo, hheap1, hsrc1, hsvc1, hov1,
                              hcfg1, hctx1⟩ := sourceClone_inv args _ _ h1
                            have hwf1 : st1.heap.WF := by
                              rw [hheap1]
                              exact WF_alloc hwf0 (WF_refsBelow hwf0 hgo)
                            obtain ⟨dsvc2, x2, -, hsvc2, hsrc2, hov2, hcfg2,
                              hctx2, hwf2, hnn2, -, -⟩ :=
                              envNormalize_inv st1 st2
                                (stage_loadDocs env).heap.next h2 hsvc1 hwf1
                            obtain ⟨hov3, hcfg3, hsrc3, hctx3, hwf3, hnn3,
                              hkfn3⟩ := mergeExisting_spec args st2 st3
                              hwf2 h3
                            obtain ⟨hov4, hcfg4, hsrc4, hsvc4, hwf4, hnn4,
                              hctxrb4, hkfn4⟩ := contextDir_spec args st3
                              st4 hwf3 h4
                            obtain ⟨hov5, hcfg5, hsrc5, hsvc5, hctx5, hwf5,
                              hnn5, hkf5, aSvc, es5, hsvcref, hges5⟩ :=
                              envExtend_spec st4 st5 hwf4 h5
                            obtain ⟨hov6, hcfg6, hsrc6, hsvc6, hctx6, hwf6,
                              hnn6, hkf6⟩ := image_spec env args st5 st6
                              hwf5 h6
                            obtain ⟨es6, hges6, hk6⟩ := hkf6 aSvc es5 hges5
                            obtain ⟨hov7, hcfg7, hsrc7, hsvc7, hctx7, hwf7,
                              hnn7, hkf7⟩ := flags_spec st6 st7 hwf6 h7
                            obtain ⟨es7, hges7, hk7⟩ := hkf7 aSvc es6 hges6
                            have hsvc7a : st7.svc = .ref aSvc := by
                              rw [hsvc7, hsvc6, hsvc5, hsvcref]
                            obtain ⟨hov8, hcfg8, hsrc8, hsvc8, hctx8, hwf8,
                              hnn8, hkf8, hdel8⟩ := deleteKeys_spec st7 st8
                              hwf7 h8
                            obtain ⟨es8, hges8, hc8cmd, hc8bld, hc8dep,
                              hk8⟩ := hdel8 aSvc es7 hsvc7a hges7
                            obtain ⟨hov9, hcfg9, hsrc9, hsvc9, hctx9, hwf9,
                              hnn9, hkf9⟩ := volumes_spec env st8 st9
                              hwf8 h9
                            obtain ⟨es9, hges9, hk9⟩ := hkf9 aSvc es8 hges8
                            obtain ⟨hov10, hcfg10, hsrc10, hsvc10, hctx10,
                              hwf10, hnn10, hkf10⟩ := overrideVolumes_spec
                              st9 st10 hwf9 h10
                            obtain ⟨es10, hges10, hk10⟩ :=
                              hkf10 aSvc es9 hges9
                            have hsvc10a : st10.svc = .ref aSvc := by
                              rw [hsvc10, hsvc9, hsvc8, hsvc7a]
                            obtain ⟨hov11, hcfg11, hsrc11, hsvc11, hctx11,
                              hwf11, hnn11, hkf11, aOv, esOv, aSv2, es2,
                              hovref, hgOv11, hdOv11, hgSv11, hdSv11⟩ :=
                              insertService_spec args st10 st11 hwf10
                                hn_srv (by
                                  rw [hsvc10a]
                                  exact WF_lt_next hwf10 hges10) h11
                            obtain ⟨es11, hges11, hk11⟩ :=
                              hkf11 aSvc es10 hges10
                            rw [hsvc10a] at hdSv11
                            have hnotvol : ∀ k : String, ¬ k = "volumes" →
                                ¬ k ∈ (["volumes"] : List String) := by
                              intro k hk hm
                              simp only [List.mem_singleton] at hm
                              exact hk hm
                            have hnotins : ∀ k : String, ¬ k = "services" →
                                ¬ k = args.name →
                                ¬ k ∈ (["services", args.name] :
                                  List String) := by
                              intro k hk1 hk2 hm
                              simp at hm
                              rcases hm with hm | hm
                              · exact hk1 hm
                              · exact hk2 hm
                            have hcmd11 : dget es11 "command" =
                                Option.none := by
                              rw [hk11 _ (hnotins _ (by decide)
                                  (fun he => hn_cmd he.symm)),
                                hk10 _ (hnotvol _ (by decide)),
                                hk9 _ (hnotvol _ (by decide))]
                              exact hc8cmd
                            have hdep11 : dget es11 "depends_on" =
                                Option.none := by
                              rw [hk11 _ (hnotins _ (by decide)
                                  (fun he => hn_dep he.symm)),
                                hk10 _ (hnotvol _ (by decide)),
                                hk9 _ (hnotvol _ (by decide))]
                              exact hc8dep
                            have hbld11 : dget es11 "build" =
                                Option.none := by
                              rw [hk11 _ (hnotins _ (by decide)
                                  (fun he => hn_bld he.symm)),
                                hk10 _ (hnotvol _ (by decide)),
                                hk9 _ (hnotvol _ (by decide))]
                              exact hc8bld
                            cases hflag : args.no_build &&
                                optStrTruthy args.dockerfile with
                            | false =>
                              obtain rfl : st11 = st12 :=
                                (buildOrRewrite_false_spec env args st11
                                  st12 hflag h12).symm
                              have hovF : st11.ovCfg = .ref aOv := by
                                rw [hov11, hovref]
                              have hsE : svcEntries st11 args.name =
                                  some es11 := by
                                simp only [svcEntries, hovF, getItem,
                                  hgOv11, hdOv11, hgSv11, hdSv11, hges11]
                              refine ⟨?_, ?_, ?_⟩ <;>
                                simp only [svcKey, hsE, Option.bind]
                              · exact hcmd11
                              · exact hdep11
                              · rw [hbld11]
                                rfl
                            | true =>
                              have hctxrbF : st11.contextDir.refBelow
                                  st11.heap.next := by
                                rw [hctx11, hctx10, hctx9, hctx8, hctx7,
                                  hctx6, hctx5]
                                refine refBelow_mono ?_ hctxrb4
                                omega
                              obtain ⟨hov12, hcfg12, hsrc12, hsvc12,
                                hctx12, hwf12, hnn12, hkf12, es12f,
                                hges12, hbld12, hk12⟩ :=
                                buildOrRewrite_true_spec env args st11
                                  st12 aSvc es11 hwf11 hflag (by
                                    rw [hsvc11, hsvc10a]) hges11
                                  hctxrbF h12
                              obtain ⟨esOv2, hgOv12, hkOv12⟩ :=
                                hkf12 aOv esOv hgOv11
                              obtain ⟨es2b, hgSv12, hkSv12⟩ :=
                                hkf12 aSv2 es2 hgSv11
                              have hdOv12 : dget esOv2 "services" =
                                  some (.ref aSv2) := by
                                rw [hkOv12 _ (by decide)]
                                exact hdOv11
                              have hdSv12 : dget es2b args.name =
                                  some (.ref aSvc) := by
                                rw [hkSv12 _ (by
                                  intro hm
                                  simp at hm
                                  rcases hm with hm | hm | hm | hm
                                  · exact hn_bld hm
                                  · exact hn_ctx hm
                                  · exact hn_dkf hm
                                  · exact hn_tgt hm)]
                                exact hdSv11
                              have hovF : st12.ovCfg = .ref aOv := by
                                rw [hov12, hov11, hovref]
                              have hsE : svcEntries st12 args.name =
                                  some es12f := by
                                simp only [svcEntries, hovF, getItem,
                                  hgOv12, hdOv12, hgSv12, hdSv12, hges12]
                              have hnot4 : ∀ k : String, ¬ k = "build" →
                                  ¬ k = "context" → ¬ k = "dockerfile" →
                                  ¬ k = "target" →
                                  ¬ k ∈ (["build", "context", "dockerfile",
                                    "target"] : List String) := by
                                intro k k1 k2 k3 k4 hm
                                simp at hm
                                rcases hm with hm | hm | hm | hm
                                · exact k1 hm
                                · exact k2 hm
                                · exact k3 hm
                                · exact k4 hm
                              refine ⟨?_, ?_, ?_⟩ <;>
                                simp only [svcKey, hsE, Option.bind]
                              · rw [hk12 _ (hnot4 _ (by decide) (by decide)
                                  (by decide) (by decide))]
                                exact hcmd11
                              · rw [hk12 _ (hnot4 _ (by decide) (by decide)
                                  (by decide) (by decide))]
                                exact hdep11
                              · exact hbld12

/-- C4 (witness): the standard `--no-build --dockerfile` run writes a `vim`
service with a `build` key but no `command` or `depends_on`. -/
theorem c4_written_service_reserved_keys_witness :
    svcKey (okState (compose envStd argsStd)) "vim" "command" =
      Option.none ∧
    svcKey (okState (compose envStd argsStd)) "vim" "depends_on" =
      Option.none ∧
    (svcKey (okState (compose envStd argsStd)) "vim" "build").isSome =
      (argsStd.no_build && optStrTruthy argsStd.dockerfile) :=
  c4_written_service_reserved_keys envStd argsStd
    (okState (compose envStd argsStd)) (by decide) (by rfl)

/-- C8 (amended): the derived image name is
`takeToColon s ++ ":nvim-devcontainer"` where `s` is the source service's
explicit `image` when present and otherwise
`basename(abspath(context_dir)) ++ "-" ++ source_service` — the
`.split(":")[0]` truncation at the FIRST colon applies in BOTH branches
(src line 231 runs after either assignment), so a synthesized name whose
context-directory basename contains a colon is also truncated, not used
verbatim as the claim states. -/
theorem c8_image_first_colon_truncation_both_branches (env : PyEnv)
    (args : Args) (st st' : CState) (aSvc : Nat)
    (es : List (String × PyVal)) (hsvc : st.svc = .ref aSvc)
    (hges : st.heap.get aSvc = some (.dict es))
    (hrun : stage_image env args st = .ok st') :
    ∃ s, (pyGet st.heap st.src "image" = .ok (.str s) ∨
      (pyGet st.heap st.src "image" = .ok .none ∧
        ∃ c, st.contextDir = .str c ∧
          s = basenameS (abspathS env.cwd c) ++ "-" ++
            args.source_service)) ∧
      st'.heap.get aSvc = some (.dict (dset es "image"
        (.str (takeToColon s ++ ":nvim-devcontainer")))) ∧
      st'.sourceImage = s := by
  simp only [stage_image, Bind.bind, Except.bind] at hrun
  cases hg1 : pyGet st.heap st.src "image" with
  | error e =>
    rw [hg1] at hrun
    simp at hrun
  | ok srcImage =>
    rw [hg1] at hrun
    dsimp only at hrun
    cases srcImage with
    | none =>
      cases hctx : st.contextDir with
      | str c =>
        rw [hctx] at hrun
        dsimp only at hrun
        cases hsi : setItem st.heap st.svc "image"
            (.str (takeToColon (basenameS (abspathS env.cwd c) ++ "-" ++
              args.source_service) ++ ":nvim-devcontainer")) with
        | error e =>
          rw [hsi] at hrun
          simp at hrun
        | ok h' =>
          rw [hsi] at hrun
          dsimp only at hrun
          obtain rfl := Except.ok.inj hrun
          obtain ⟨a0, d0, hva0, hga0, hh⟩ := setItem_ok_inv hsi
          rw [hsvc] at hva0
          obtain rfl : aSvc = a0 := PyVal.ref.inj hva0
          have hd0 : es = d0 := by
            rw [hges] at hga0
            exact Obj.dict.inj (Option.some.inj hga0)
          subst hd0
          refine ⟨basenameS (abspathS env.cwd c) ++ "-" ++
            args.source_service, Or.inr ⟨rfl, c, rfl, rfl⟩, ?_, rfl⟩
          show h'.get aSvc = _
          rw [hh]
          exact get_set_self _ _ _ (by rw [hges]; rfl)
      | ref a =>
        rw [hctx] at hrun
        simp at hrun
      | int n =>
        rw [hctx] at hrun
        simp at hrun
      | bool b =>
        rw [hctx] at hrun
        simp at hrun
      | none =>
        rw [hctx] at hrun
        simp at hrun
    | str s2 =>
      dsimp only at hrun
      cases hsi : setItem st.heap st.svc "image"
          (.str (takeToColon s2 ++ ":nvim-devcontainer")) with
      | error e =>
        rw [hsi] at hrun
        simp at hrun
      | ok h' =>
        rw [hsi] at hrun
        dsimp only at hrun
        obtain rfl := Except.ok.inj hrun
        obtain ⟨a0, d0, hva0, hga0, hh⟩ := setItem_ok_inv hsi
        rw [hsvc] at hva0
        obtain rfl : aSvc = a0 := PyVal.ref.inj hva0
        have hd0 : es = d0 := by
          rw [hges] at hga0
          exact Obj.dict.inj (Option.some.inj hga0)
        subst hd0
        refine ⟨s2, Or.inl rfl, ?_, rfl⟩
        show h'.get aSvc = _
        rw [hh]
        exact get_set_self _ _ _ (by rw [hges]; rfl)
    | ref a => simp at hrun
    | int n => simp at hrun
    | bool b => simp at hrun

/-- C8 (witness): the image stage on `c8WitnessState` — the explicit image
`repo/app:v1` loses its `:v1` tag and gains `:nvim-devcontainer`. -/
theorem c8_image_first_colon_truncation_both_branches_witness :
    ∃ s, (pyGet c8WitnessState.heap c8WitnessState.src "image" =
        .ok (.str s) ∨
      (pyGet c8WitnessState.heap c8WitnessState.src "image" = .ok .none ∧
        ∃ c, c8WitnessState.contextDir = .str c ∧
          s = basenameS (abspathS envStd.cwd c) ++ "-" ++
            argsStd.source_service)) ∧
      (okState (stage_image envStd argsStd c8WitnessState)).heap.get 1 =
        some (.dict (dset [] "image"
          (.str (takeToColon s ++ ":nvim-devcontainer")))) ∧
      (okState (stage_image envStd argsStd c8WitnessState)).sourceImage =
        s :=
  c8_image_first_colon_truncation_both_branches envStd argsStd
    c8WitnessState (okState (stage_image envStd argsStd c8WitnessState))
    1 [] rfl rfl (by rfl)

/-- C3 (amended): when the source compose document's `services` mapping
lacks the requested source service name, the subscript at src line 186
raises `KeyError`, which `main` (src lines 398-400) does NOT catch — only
`CommandError` is — so the process dies with an unhandled fault and a
diagnostic trace, not with the claimed single-line message and clean
exit 1. -/
theorem c3_missing_source_service_uncaught_keyerror (env : PyEnv)
    (args : Args) (doc svs : List (String × Val))
    (hcf : env.composeFileExists = true)
    (hdoc : orEmptyMap env.composeYaml = .vmap doc)
    (hfind : doc.find? (fun p => decide (p.1 = "services")) =
      some ("services", .vmap svs))
    (hmiss : svs.find? (fun p => decide (p.1 = args.source_service)) =
      Option.none) :
    compose env args = .error (.keyError args.source_service) ∧
    mainRun env args = .unhandled (.keyError args.source_service) := by
  obtain ⟨h1, hwf1, hheap, hcfg, -, -, -, -⟩ := loadDocs_spec env
  rw [hdoc] at hheap hcfg
  have hred1 : (toHeap h1 (.vmap doc)).1 =
      ((toHeapEntries h1 doc).1.alloc
        (.dict (toHeapEntries h1 doc).2)).1 := rfl
  have hred2 : (toHeap h1 (.vmap doc)).2 =
      .ref (toHeapEntries h1 doc).1.next := rfl
  obtain ⟨h0, b, hdg, hbeq, hgb, hwf0, hn0, hblt⟩ :=
    toHeapEntries_lookup_vmap doc "services" svs h1 hwf1 hfind
  have hget_services : getItem (stage_loadDocs env).heap
      (stage_loadDocs env).cfg "services" = .ok (.ref b) := by
    rw [hcfg, hred2, hheap, hred1]
    simp only [getItem, get_alloc_self, hdg]
  have hgb' : (stage_loadDocs env).heap.get b =
      some (.dict (toHeapEntries h0 svs).2) := by
    rw [hheap, hred1, get_alloc_ne _ _ b (by omega)]
    exact hgb
  have hdnone : dget (toHeapEntries h0 svs).2 args.source_service =
      Option.none := toHeapEntries_lookup_none svs _ h0 hmiss
  have hget_src : getItem (stage_loadDocs env).heap (.ref b)
      args.source_service = .error (.keyError args.source_service) := by
    simp only [getItem, hgb', hdnone]
  have hsc : stage_sourceClone args (stage_loadDocs env) =
      .error (.keyError args.source_service) := by
    simp only [stage_sourceClone, Bind.bind, Except.bind, hget_services,
      hget_src]
  have hcomp : compose env args =
      .error (.keyError args.source_service) := by
    simp only [compose, Bind.bind, Except.bind, stage_fileCheck, hcf,
      if_true, hsc]
  refine ⟨hcomp, ?_⟩
  simp only [mainRun, hcomp]

/-- C3 (witness): the `envNoSvc` run — `services` without `app` — ends in
the unhandled `KeyError`. -/
theorem c3_missing_source_service_uncaught_keyerror_witness :
    compose envNoSvc argsStd = .error (.keyError "app") ∧
    mainRun envNoSvc argsStd = .unhandled (.keyError "app") :=
  c3_missing_source_service_uncaught_keyerror envNoSvc argsStd
    [("services", .vmap [])] [] rfl rfl rfl rfl

/-- C7: `normalize_env_vars` (src lines 58-62) turns a mapping whose values
are strings into the list of `KEY=VALUE` strings in the mapping's insertion
order, and in the pipeline (src lines 210-224) this normalization happens
before the fixed passthrough names are appended: the standard run's written
environment is exactly `["A=1", "B=2"]` followed by the passthrough
names. -/
theorem c7_env_normalization_order :
    (∀ (h : Heap) (a : Nat) (vals : List (String × String)),
      h.get a = some (.dict (vals.map (fun p => (p.1, PyVal.str p.2)))) →
      ∃ a', (normalize_env_vars h (.ref a)).2 = .ref a' ∧
        (normalize_env_vars h (.ref a)).1.get a' =
          some (.list (vals.map (fun p =>
            PyVal.str (p.1 ++ "=" ++ p.2))))) ∧
    svcKeyVal (okState (compose envStd argsStd)) "vim" "environment" =
      some (.vlist [.str "A=1", .str "B=2", .str "COLORTERM",
        .str "ITERM_PROFILE", .str "ITERM_SESSION_ID", .str "LC_TERMINAL",
        .str "LC_TERMINAL_VERSION", .str "TERM", .str "TERM_PROGRAM",
        .str "TERM_PROGRAM_VERSION", .str "TERM_SESSION_ID"]) := by
  constructor
  · intro h a vals hget
    refine ⟨h.next, ?_, ?_⟩
    · simp only [normalize_env_vars, hget]
      rfl
    · simp only [normalize_env_vars, hget]
      rw [show ((h.alloc (.list ((vals.map (fun p => (p.1, PyVal.str p.2))).map
          (fun kv => PyVal.str (kv.1 ++ "=" ++ pyStr h kv.2))))).1,
          PyVal.ref h.next).1.get h.next =
          some (.list ((vals.map (fun p => (p.1, PyVal.str p.2))).map
            (fun kv => PyVal.str (kv.1 ++ "=" ++ pyStr h kv.2))))
        from get_alloc_self h _]
      rw [List.map_map]
      rfl
  · rfl

/-- C7 (witness): normalizing the mapping `\x7b"A": "1", "B": "2"\x7d` on
`c7WitnessHeap` yields the list `["A=1", "B=2"]`. -/
theorem c7_env_normalization_order_witness :
    ∃ a', (normalize_env_vars c7WitnessHeap (.ref 0)).2 = .ref a' ∧
      (normalize_env_vars c7WitnessHeap (.ref 0)).1.get a' =
        some (.list ([("A", "1"), ("B", "2")].map (fun p : String × String =>
          PyVal.str (p.1 ++ "=" ++ p.2)))) :=
  c7_env_normalization_order.1 c7WitnessHeap 0 [("A", "1"), ("B", "2")] rfl

end NvimDevcontainer
